import Mathlib

/-! A shallow embedding of the voxel ray tracer `blocktracer` (`main.cpp`).

The C++ `float` is modelled by `Flt K`: the exact values of an ordered field `K`
(`ℚ` for evaluation, `ℝ` for the statements about real numbers) extended with the
IEEE specials `+∞`, `-∞` and `NaN`.  Rounding is not modelled; zero is unsigned and
behaves like `+0`.  Everything the ray tracer computes is carried out in `Flt K`.
-/

namespace Blocktracer

/-! Scalars -/

/-- An exact `float`: a value of `K`, or one of the IEEE specials. -/
inductive Flt (K : Type) where
  | nan : Flt K
  | ninf : Flt K
  | fin : K → Flt K
  | pinf : Flt K
deriving DecidableEq

namespace Flt

variable {K : Type} [LinearOrderedField K]

/-- The comparison `a < b` of two floats; false as soon as one side is NaN. -/
def lt : Flt K → Flt K → Bool
  | fin a, fin b => decide (a < b)
  | ninf, fin _ => true
  | ninf, pinf => true
  | fin _, pinf => true
  | _, _ => false

/-- The comparison `a >= b` of two floats; false as soon as one side is NaN. -/
def ge : Flt K → Flt K → Bool
  | fin a, fin b => decide (b ≤ a)
  | pinf, fin _ => true
  | pinf, ninf => true
  | pinf, pinf => true
  | fin _, ninf => true
  | ninf, ninf => true
  | _, _ => false

/-- Unary minus. -/
def neg : Flt K → Flt K
  | nan => nan
  | ninf => pinf
  | fin a => fin (-a)
  | pinf => ninf

/-- IEEE addition without rounding: `∞ + (-∞)` is NaN. -/
def add : Flt K → Flt K → Flt K
  | fin a, fin b => fin (a + b)
  | nan, _ => nan
  | _, nan => nan
  | pinf, ninf => nan
  | ninf, pinf => nan
  | pinf, _ => pinf
  | _, pinf => pinf
  | ninf, _ => ninf
  | _, ninf => ninf

/-- IEEE subtraction without rounding. -/
def sub (a b : Flt K) : Flt K := add a (neg b)

/-- The infinity with the sign of a non-zero `b`, or of `-b` when `flip` is set. -/
def infOfSign (flip : Bool) (b : K) : Flt K :=
  if (decide (0 < b)) = flip then ninf else pinf

/-- IEEE multiplication without rounding: `0 * ∞` is NaN. -/
def mul : Flt K → Flt K → Flt K
  | fin a, fin b => fin (a * b)
  | nan, _ => nan
  | _, nan => nan
  | pinf, pinf => pinf
  | ninf, ninf => pinf
  | pinf, ninf => ninf
  | ninf, pinf => ninf
  | pinf, fin b => if b = 0 then nan else infOfSign false b
  | ninf, fin b => if b = 0 then nan else infOfSign true b
  | fin a, pinf => if a = 0 then nan else infOfSign false a
  | fin a, ninf => if a = 0 then nan else infOfSign true a

/-- IEEE division without rounding: a non-zero value over zero is an infinity (zero
counts as `+0`), `0 / 0` and `∞ / ∞` are NaN, a finite value over an infinity is zero. -/
def div : Flt K → Flt K → Flt K
  | fin a, fin b =>
    if b = 0 then (if a = 0 then nan else infOfSign false a) else fin (a / b)
  | nan, _ => nan
  | _, nan => nan
  | fin _, pinf => fin 0
  | fin _, ninf => fin 0
  | pinf, fin b => if 0 ≤ b then pinf else ninf
  | ninf, fin b => if 0 ≤ b then ninf else pinf
  | pinf, pinf => nan
  | pinf, ninf => nan
  | ninf, pinf => nan
  | ninf, ninf => nan

instance : Add (Flt K) := ⟨add⟩
instance : Sub (Flt K) := ⟨sub⟩
instance : Mul (Flt K) := ⟨mul⟩
instance : Div (Flt K) := ⟨div⟩

end Flt

namespace glm

variable {K : Type} [LinearOrderedField K]

/-- GLM's scalar `min`: `(y < x) ? y : x`. -/
def min (x y : Flt K) : Flt K := if Flt.lt y x then y else x

/-- GLM's scalar `max`: `(x < y) ? y : x`. -/
def max (x y : Flt K) : Flt K := if Flt.lt x y then y else x

end glm

/-! Vectors -/

/-- Three components `x`, `y`, `z`. -/
structure V3 (α : Type) where
  x : α
  y : α
  z : α
deriving DecidableEq

/-- GLM's `vec3` (and `lowp_vec3`): three floats. -/
abbrev vec3 (K : Type) := V3 (Flt K)

namespace V3

variable {K : Type} [LinearOrderedField K]

/-- The component `v[i]`: `x`, `y`, `z` for `i = 0, 1, 2`. -/
def get {α : Type} (v : V3 α) (i : Nat) : α :=
  if i = 0 then v.x else if i = 1 then v.y else v.z

/-- The vector of floats holding three exact values. -/
def fin (v : V3 K) : vec3 K := ⟨Flt.fin v.x, Flt.fin v.y, Flt.fin v.z⟩

/-- The vector with three equal components, `vec3(a)`. -/
def splat (a : Flt K) : vec3 K := ⟨a, a, a⟩

/-- Componentwise `u + v`. -/
def add (u v : vec3 K) : vec3 K := ⟨u.x + v.x, u.y + v.y, u.z + v.z⟩

/-- The product `v * a` of a vector and a scalar. -/
def scale (v : vec3 K) (a : Flt K) : vec3 K := ⟨v.x * a, v.y * a, v.z * a⟩

/-- The product `a * v` of a scalar and a vector. -/
def lscale (a : Flt K) (v : vec3 K) : vec3 K := ⟨a * v.x, a * v.y, a * v.z⟩

/-- The quotient `a / v` of a scalar by a vector, componentwise. -/
def rdiv (a : Flt K) (v : vec3 K) : vec3 K := ⟨a / v.x, a / v.y, a / v.z⟩

end V3

/-! The intersector -/

section Intersector

variable {K : Type} [LinearOrderedField K]

/-- One round of the loop `for (i = 1; i < 3; ++i)` of `Scene::intersect`. -/
def intersectAxis (bounds0 bounds1 rayOrig dir_inv : vec3 K) (acc : Flt K × Flt K) (i : Nat) :
    Flt K × Flt K :=
  let vt1 := (bounds0.get i - rayOrig.get i) * dir_inv.get i
  let vt2 := (bounds1.get i - rayOrig.get i) * dir_inv.get i
  (glm.max acc.1 (glm.min vt1 vt2), glm.min acc.2 (glm.max vt1 vt2))

/-- The slab test `Scene::intersect`: the returned `bool` and the outputs `t0`, `t1`. -/
def intersect (bounds0 bounds1 rayOrig rayDir : vec3 K) : Bool × Flt K × Flt K :=
  let dir_inv := V3.rdiv (Flt.fin 1) rayDir
  let vt1 := (bounds0.x - rayOrig.x) * dir_inv.x
  let vt2 := (bounds1.x - rayOrig.x) * dir_inv.x
  let tmin := glm.min vt1 vt2
  let tmax := glm.max vt1 vt2
  let r := [1, 2].foldl (intersectAxis bounds0 bounds1 rayOrig dir_inv) (tmin, tmax)
  (Flt.ge r.2 (glm.max r.1 (Flt.fin 0)), r.1, r.2)

end Intersector

/-! Block types and the scene -/

/-- The recursion cap `MAX_RAY_DEPTH`. -/
def MAX_RAY_DEPTH : Int := 5

/-- The grid extent `CHUNK_W`. -/
def CHUNK_W : Nat := 8

/-- The grid extent `CHUNK_H`. -/
def CHUNK_H : Nat := 8

/-- The grid extent `CHUNK_D`. -/
def CHUNK_D : Nat := 8

/-- The enumerator `BT_AIR` of `BlockTypes`. -/
def BT_AIR : Nat := 0

/-- The enumerator `BT_RED` of `BlockTypes`. -/
def BT_RED : Nat := 1

/-- The enumerator `BT_GLASS` of `BlockTypes`. -/
def BT_GLASS : Nat := 2

/-- The enumerator `BT_LIGHT` of `BlockTypes`. -/
def BT_LIGHT : Nat := 3

/-- The enumerator `BT_COUNT` of `BlockTypes`: the length of the block-type table. -/
def BT_COUNT : Nat := 4

/-- The class `BlockType`. -/
structure BlockType (K : Type) where
  m_surfaceColor : vec3 K
  m_emissionColor : vec3 K
  m_transparency : Flt K
  m_reflection : Flt K
  m_solid : Bool

/-- The fields of `Scene` that the ray tracer reads and writes.  `m_blocks bx by bz` is the
`uint8_t` id of a grid cell (read only below the chunk extents), `m_image` the accumulation
buffer indexed by `y * m_width + x`, and `pixels` the 32-bit words of `m_surface->pixels`. -/
structure Scene (K : Type) where
  m_width : Nat
  m_height : Nat
  m_invWidth : Flt K
  m_invHeight : Flt K
  m_aspectRatio : Flt K
  m_fov : Flt K
  m_position : vec3 K
  m_rotation : vec3 K
  m_skyColor : vec3 K
  m_blocks : Nat → Nat → Nat → Nat
  m_image : Nat → vec3 K
  pixels : Nat → Nat

section Sampler

variable {K : Type} [LinearOrderedField K]

/-- The constructor `BlockType(surfaceColor, emissionColor, solid, transparency, reflection)`. -/
def BlockType.mk' (surfaceColor emissionColor : vec3 K) (solid : Bool)
    (transparency reflection : Flt K) : BlockType K :=
  ⟨surfaceColor, emissionColor, transparency, reflection, solid⟩

/-- The table `types[BT_COUNT]` of the source. -/
def types : Fin BT_COUNT → BlockType K := fun i =>
  match i.val with
  | 0 => BlockType.mk' (V3.splat (Flt.fin 0)) (V3.splat (Flt.fin 0)) false (Flt.fin 0) (Flt.fin 0)
  | 1 => BlockType.mk' (V3.fin ⟨1, 1, 0⟩) (V3.splat (Flt.fin 0)) true (Flt.fin (7 / 10))
      (Flt.fin (1 / 10))
  | 2 => BlockType.mk' (V3.fin ⟨0, 1, 1⟩) (V3.splat (Flt.fin 0)) true (Flt.fin (7 / 10))
      (Flt.fin (1 / 10))
  | _ => BlockType.mk' (V3.fin ⟨1, 0, 1⟩) (V3.splat (Flt.fin 0)) true (Flt.fin (7 / 10))
      (Flt.fin (1 / 10))

/-- Reading `types[tile]` through the pointer kept by `sample`: `none` stands for a read
outside the table, which the C++ leaves undefined. -/
def typeAt (table : Fin BT_COUNT → BlockType K) (tile : Nat) : Option (BlockType K) :=
  if h : tile < BT_COUNT then some (table ⟨tile, h⟩) else none

/-- The cells `(bx, by, bz)` in the order the three nested loops of `sample` visit them:
`bx` outermost, `bz` innermost. -/
def cells : List (Nat × Nat × Nat) :=
  (List.range CHUNK_W).flatMap fun bx =>
    (List.range CHUNK_H).flatMap fun byy =>
      (List.range CHUNK_D).map fun bz => (bx, byy, bz)

/-- The lower corner `blockBounds0` of a cell. -/
def blockBounds0 (c : Nat × Nat × Nat) : vec3 K :=
  ⟨Flt.fin (c.1 : K), Flt.fin (c.2.1 : K), Flt.fin (c.2.2 : K)⟩

/-- The upper corner `blockBounds1` of a cell. -/
def blockBounds1 (c : Nat × Nat × Nat) : vec3 K :=
  ⟨Flt.fin (c.1 : K) + Flt.fin 1, Flt.fin (c.2.1 : K) + Flt.fin 1, Flt.fin (c.2.2 : K) + Flt.fin 1⟩

/-- The body of the innermost loop of `sample` for one cell.  The state is `tnear` and the
index of the entry of `types` that `type` points to (`none` for `nullptr`). -/
def scanCell (s : Scene K) (orig dir : vec3 K) (st : Flt K × Option Nat) (c : Nat × Nat × Nat) :
    Flt K × Option Nat :=
  let tile := s.m_blocks c.1 c.2.1 c.2.2
  if tile > BT_AIR ∧ tile <<< BT_COUNT ≠ 0 then
    let r := intersect (blockBounds0 c) (blockBounds1 c) orig dir
    if r.1 then
      let t0 := if Flt.lt r.2.1 (Flt.fin 0) then r.2.2 else r.2.1
      if Flt.lt t0 st.1 then (t0, some tile) else st
    else st
  else st

/-- The three nested loops of `sample`: `tnear` and `type` after the scan of the grid. -/
def scan (s : Scene K) (orig dir : vec3 K) : Flt K × Option Nat :=
  cells.foldl (scanCell s orig dir) (Flt.pinf, none)

/-- The body of the innermost loop of `sample` with the cell kept in place of the pointer
to its type: the same tests as `scanCell`, from which it differs in what it records. -/
def scanCellAt (s : Scene K) (orig dir : vec3 K) (st : Flt K × Option (Nat × Nat × Nat))
    (c : Nat × Nat × Nat) : Flt K × Option (Nat × Nat × Nat) :=
  let tile := s.m_blocks c.1 c.2.1 c.2.2
  if tile > BT_AIR ∧ tile <<< BT_COUNT ≠ 0 then
    let r := intersect (blockBounds0 c) (blockBounds1 c) orig dir
    if r.1 then
      let t0 := if Flt.lt r.2.1 (Flt.fin 0) then r.2.2 else r.2.1
      if Flt.lt t0 st.1 then (t0, some c) else st
    else st
  else st

/-- The scan of `sample` with the selected cell kept: `tnear` and the cell whose type
`type` points to after the three loops. -/
def scanAt (s : Scene K) (orig dir : vec3 K) : Flt K × Option (Nat × Nat × Nat) :=
  cells.foldl (scanCellAt s orig dir) (Flt.pinf, none)

/-- The shading of `sample` once the block type is known: `back` is the colour returned by
the recursive call, absent when no call is made. -/
def shade (type : BlockType K) (back : Option (vec3 K)) : vec3 K :=
  match back with
  | some b =>
    V3.add (V3.add (V3.scale b type.m_transparency)
      (V3.scale type.m_surfaceColor (Flt.fin 1 - type.m_transparency))) type.m_emissionColor
  | none => V3.add type.m_surfaceColor type.m_emissionColor

/-- The function `Scene::sample`.  The result is `none` when the run reads `types` outside
its bounds. -/
def sample (table : Fin BT_COUNT → BlockType K) (s : Scene K) (orig dir : vec3 K) (depth : Int) :
    Option (vec3 K) :=
  match scan s orig dir with
  | (_, none) => some s.m_skyColor
  | (tnear, some tile) =>
    match typeAt table tile with
    | none => none
    | some type =>
      let phit := V3.add orig (V3.scale dir tnear)
      if _h : Flt.lt (Flt.fin 0) type.m_transparency = true ∧ depth < MAX_RAY_DEPTH then
        match sample table s phit dir (depth + 1) with
        | none => none
        | some back => some (shade type (some back))
      else some (shade type none)
termination_by (MAX_RAY_DEPTH - depth).toNat
decreasing_by
  have h2 := _h.2
  simp only [MAX_RAY_DEPTH] at h2 ⊢
  omega

/-- The function `Scene::sample` with a log: next to the colour, the `depth` argument of
every call that the run makes, the outermost call first. -/
def sampleLog (table : Fin BT_COUNT → BlockType K) (s : Scene K) (orig dir : vec3 K)
    (depth : Int) : Option (vec3 K) × List Int :=
  match scan s orig dir with
  | (_, none) => (some s.m_skyColor, [depth])
  | (tnear, some tile) =>
    match typeAt table tile with
    | none => (none, [depth])
    | some type =>
      let phit := V3.add orig (V3.scale dir tnear)
      if _h : Flt.lt (Flt.fin 0) type.m_transparency = true ∧ depth < MAX_RAY_DEPTH then
        match sampleLog table s phit dir (depth + 1) with
        | (none, log) => (none, depth :: log)
        | (some back, log) => (some (shade type (some back)), depth :: log)
      else (some (shade type none), [depth])
termination_by (MAX_RAY_DEPTH - depth).toNat
decreasing_by
  have h2 := _h.2
  simp only [MAX_RAY_DEPTH] at h2 ⊢
  omega

/-- The constructor `Scene::Scene` for a surface of `w` by `h` pixels: `rand n` is the value
of the `n`-th call of `rand()`, and the three loops all run up to `CHUNK_W`. -/
def Scene.new (w h : Nat) (pixels : Nat → Nat) (rand : Nat → Nat) : Scene K where
  m_width := w
  m_height := h
  m_invWidth := Flt.fin 1 / Flt.fin (w : K)
  m_invHeight := Flt.fin 1 / Flt.fin (h : K)
  m_aspectRatio := Flt.fin (w : K) / Flt.fin (h : K)
  m_fov := Flt.fin 30
  m_position := V3.fin ⟨0, 3, -10⟩
  m_rotation := V3.fin ⟨0, 0, 0⟩
  m_skyColor := V3.fin ⟨6 / 10, 6 / 10, 1⟩
  m_blocks := fun i j k =>
    if i < CHUNK_W ∧ j < CHUNK_W ∧ k < CHUNK_W then
      rand ((i * CHUNK_W + j) * CHUNK_W + k) % BT_COUNT % 256
    else 0
  m_image := fun _ => V3.splat (Flt.fin 0)
  pixels := pixels

/-- A scene over the rationals with a chosen grid, for the examples: the fields of a fresh
scene on a 320 by 240 surface. -/
def sceneWith (blocks : Nat → Nat → Nat → Nat) : Scene ℚ :=
  { Scene.new 320 240 (fun _ => 0) (fun _ => 0) with m_blocks := blocks }

/-- The grid of the examples that holds air everywhere. -/
def airGrid : Nat → Nat → Nat → Nat := fun _ _ _ => 0

/-- The grid of the examples whose only block is one of type `tile` in the cell `(0, 0, 0)`. -/
def oneBlockGrid (tile : Nat) : Nat → Nat → Nat → Nat := fun bx byy bz =>
  if bx = 0 ∧ byy = 0 ∧ bz = 0 then tile else 0

/-- The grid of the examples with a block of type 1 in the cell `(0, 0, 0)` and a block of
type 2 behind it in the cell `(0, 0, 3)`. -/
def twoBlockGrid : Nat → Nat → Nat → Nat := fun bx byy bz =>
  if bx = 0 ∧ byy = 0 ∧ bz = 0 then 1 else if bx = 0 ∧ byy = 0 ∧ bz = 3 then 2 else 0

/-- A table for the examples: the table `types` with the entry `BT_RED` made opaque. -/
def opaqueRedTable : Fin BT_COUNT → BlockType ℚ := fun i =>
  if i.val = 1 then BlockType.mk' (V3.fin ⟨1, 1, 0⟩) (V3.splat (Flt.fin 0)) true (Flt.fin 0)
    (Flt.fin (1 / 10))
  else types i

end Sampler

/-! The renderer -/

namespace std

variable {K : Type} [LinearOrderedField K]

/-- The function `std::min(a, b)`: `(b < a) ? b : a`. -/
def min (a b : Flt K) : Flt K := if Flt.lt b a then b else a

end std

section Renderer

variable {K : Type} [LinearOrderedField K]

/-- The functions of the C and GLM libraries that `render` calls, and the constant `M_PI`. -/
structure MathFns (K : Type) where
  tanf : Flt K → Flt K
  cos : Flt K → Flt K
  sin : Flt K → Flt K
  fastNormalize : vec3 K → vec3 K
  M_PI : Flt K

/-- The conversion `static_cast<uint32_t>(v)`: truncation towards zero; `none` where the
C++ leaves the conversion undefined (NaN, an infinity, a truncated value outside
`0 .. 2^32 - 1`). -/
def toUInt32 [FloorRing K] : Flt K → Option Nat
  | Flt.fin a => if -1 < a ∧ a < 2 ^ 32 then some (Int.toNat ⌊a⌋) else none
  | _ => none

/-- One colour channel of the quantization pass:
`static_cast<uint32_t>(std::min(1.0f, v) * 255.0f)`. -/
def quantize [FloorRing K] (v : Flt K) : Option Nat :=
  toUInt32 (std.min (Flt.fin 1) v * Flt.fin 255)

/-- The 32-bit word written to `pixels[pos]`: `(R << 16) | (G << 8) | B`. -/
def packPixel [FloorRing K] (c : vec3 K) : Option Nat :=
  match quantize c.x, quantize c.y, quantize c.z with
  | some r, some g, some b => some (((r <<< 16) % 2 ^ 32) ||| ((g <<< 8) % 2 ^ 32) ||| b)
  | _, _, _ => none

/-- The pixels `(x, y)` in the order the two nested loops of `render` visit them: columns
`x` outermost, rows `y` innermost. -/
def pixelOrder (w h : Nat) : List (Nat × Nat) :=
  (List.range w).flatMap fun x => (List.range h).map fun y => (x, y)

/-- The index `y * m_width + x` in `unsigned` arithmetic. -/
def pixelPos (s : Scene K) (p : Nat × Nat) : Nat := (p.2 * s.m_width + p.1) % 2 ^ 32

/-- The ray direction that `render` computes for the pixel `(x, y)`. -/
def rayDirAt (m : MathFns K) (s : Scene K) (angle : Flt K) (p : Nat × Nat) : vec3 K :=
  let xx := (Flt.fin 2 * ((Flt.fin (p.1 : K) + Flt.fin (1 / 2)) * s.m_invWidth) - Flt.fin 1)
    * angle * s.m_aspectRatio
  let yy := (Flt.fin 1 - Flt.fin 2 * ((Flt.fin (p.2 : K) + Flt.fin (1 / 2)) * s.m_invHeight))
    * angle
  m.fastNormalize
    ⟨xx, yy * m.cos s.m_rotation.y - m.sin s.m_rotation.y,
      yy * m.sin s.m_rotation.y + m.cos s.m_rotation.y⟩

/-- The accumulation `0.5f * (S + B)` of a sample `S` into a buffer entry `B`. -/
def accumulate (S B : vec3 K) : vec3 K := V3.lscale (Flt.fin (1 / 2)) (V3.add S B)

/-- The number of entries of the vector `m_image`, which the constructor creates as
`m_image(m_width * m_height)` in `unsigned` arithmetic and nothing resizes. -/
def imageSize (s : Scene K) : Nat := (s.m_width * s.m_height) % 2 ^ 32

/-- The body of the sampling loop of `render` for one pixel: the accumulation buffer after
it, `none` when the run of `sample` is undefined or the index lies outside `m_image`. -/
def samplePixel (m : MathFns K) (table : Fin BT_COUNT → BlockType K) (s : Scene K)
    (angle : Flt K) (image : Nat → vec3 K) (p : Nat × Nat) : Option (Nat → vec3 K) :=
  match sample table s s.m_position (rayDirAt m s angle p) 0 with
  | none => none
  | some S =>
    if pixelPos s p < imageSize s then
      some (Function.update image (pixelPos s p) (accumulate S (image (pixelPos s p))))
    else none

/-- The body of the quantization loop of `render` for one pixel: the pixel words after it,
`none` when a conversion is undefined or the index lies outside `m_image`. -/
def quantizePixel [FloorRing K] (s : Scene K) (image : Nat → vec3 K) (pixels : Nat → Nat)
    (p : Nat × Nat) : Option (Nat → Nat) :=
  if pixelPos s p < imageSize s then
    match packPixel (image (pixelPos s p)) with
    | none => none
    | some w => some (Function.update pixels (pixelPos s p) w)
  else none

/-- The accumulation buffer entry after the frames with the given samples, oldest first,
starting from a zero entry. -/
def accumulateAll (samples : List (vec3 K)) : vec3 K :=
  samples.foldl (fun B S => accumulate S B) (V3.splat (Flt.fin 0))

/-- One round of the sampling loop of `render` on the state of the run: an undefined run
stays undefined. -/
def sampleStep (m : MathFns K) (table : Fin BT_COUNT → BlockType K) (s : Scene K)
    (angle : Flt K) (st : Option (Nat → vec3 K)) (p : Nat × Nat) : Option (Nat → vec3 K) :=
  st.bind fun image => samplePixel m table s angle image p

/-- One round of the quantization loop of `render` on the state of the run. -/
def quantizeStep [FloorRing K] (s : Scene K) (image : Nat → vec3 K)
    (st : Option (Nat → Nat)) (p : Nat × Nat) : Option (Nat → Nat) :=
  st.bind fun pixels => quantizePixel s image pixels p

/-- The function `Scene::render` with the sampling loop visiting the pixels in the given
order: the scene after the frame, `none` when the run is undefined. -/
def renderWith [FloorRing K] (m : MathFns K) (table : Fin BT_COUNT → BlockType K)
    (order : List (Nat × Nat)) (s : Scene K) : Option (Scene K) :=
  let angle := m.tanf (m.M_PI * Flt.fin (1 / 2) * s.m_fov / Flt.fin 180)
  match order.foldl (sampleStep m table s angle) (some s.m_image) with
  | none => none
  | some image =>
    match (pixelOrder s.m_width s.m_height).foldl (quantizeStep s image) (some s.pixels) with
    | none => none
    | some pixels => some { s with m_image := image, pixels := pixels }

/-- The function `Scene::render`. -/
def render [FloorRing K] (m : MathFns K) (table : Fin BT_COUNT → BlockType K) (s : Scene K) :
    Option (Scene K) :=
  renderWith m table (pixelOrder s.m_width s.m_height) s

/-- Stand-ins over the rationals for the library functions of `render`, for the examples. -/
def exampleMath : MathFns ℚ where
  tanf := fun a => a
  cos := fun _ => Flt.fin 1
  sin := fun _ => Flt.fin 0
  fastNormalize := fun v => v
  M_PI := Flt.fin (22 / 7)

end Renderer

/-! The camera and the frame loop -/

section Camera

variable {K : Type} [LinearOrderedField K]

/-- The function `Scene::move`: `m_position += direction`. -/
def Scene.move (s : Scene K) (direction : vec3 K) : Scene K :=
  { s with m_position := V3.add s.m_position direction }

/-- The function `Scene::rotate`: `m_rotation += direction`. -/
def Scene.rotate (s : Scene K) (direction : vec3 K) : Scene K :=
  { s with m_rotation := V3.add s.m_rotation direction }

/-- One round of the loop of `main` on the scene: `move(direction)`, `rotate(rot_direction)`,
`render()`, for the pair `(direction, rot_direction)` that the key state gives. -/
def frame [FloorRing K] (m : MathFns K) (table : Fin BT_COUNT → BlockType K) (s : Scene K)
    (input : vec3 K × vec3 K) : Option (Scene K) :=
  render m table ((s.move input.1).rotate input.2)

/-- The rounds of the loop of `main` for a sequence of inputs; an undefined run stays
undefined. -/
def frames [FloorRing K] (m : MathFns K) (table : Fin BT_COUNT → BlockType K)
    (inputs : List (vec3 K × vec3 K)) (s : Scene K) : Option (Scene K) :=
  inputs.foldl (fun st input => st.bind fun s' => frame m table s' input) (some s)

end Camera

/-! The Mersenne twister of `mtwister.h` -/

section Twister

/-- The macro `UPPER_MASK`. -/
def UPPER_MASK : Nat := 0x80000000

/-- The macro `LOWER_MASK`. -/
def LOWER_MASK : Nat := 0x7fffffff

/-- The macro `TEMPERING_MASK_B`. -/
def TEMPERING_MASK_B : Nat := 0x9d2c5680

/-- The macro `TEMPERING_MASK_C`. -/
def TEMPERING_MASK_C : Nat := 0xefc60000

/-- The macro `STATE_VECTOR_LENGTH`. -/
def STATE_VECTOR_LENGTH : Nat := 624

/-- The macro `STATE_VECTOR_M`. -/
def STATE_VECTOR_M : Nat := 397

/-- The struct `MTRand`: the words `mt[0 .. 623]` (`unsigned long`, taken as 64 bits wide)
and the `int` field `index`. -/
structure MTRand where
  mt : Nat → Nat
  index : Int

/-- The function `seedRand`. -/
def seedRand (rand : MTRand) (seed : Nat) : MTRand where
  mt := (List.range' 1 (STATE_VECTOR_LENGTH - 1)).foldl
    (fun mt i => Function.update mt i ((6069 * mt (i - 1)) % 2 ^ 64 &&& 0xffffffff))
    (Function.update rand.mt 0 (seed &&& 0xffffffff))
  index := STATE_VECTOR_LENGTH

/-- One round of the regeneration loops of `genRandLong`: the word `mt[kk]` is rebuilt from
`mt[kk]`, `mt[nxt]` and `mt[src]`. -/
def twist (mt : Nat → Nat) (kk src nxt : Nat) : Nat → Nat :=
  let y := (mt kk &&& UPPER_MASK) ||| (mt nxt &&& LOWER_MASK)
  Function.update mt kk (mt src ^^^ (y >>> 1) ^^^ (if y &&& 1 ≠ 0 then 0x9908b0df else 0))

/-- The tempering at the end of `genRandLong`. -/
def temper (y0 : Nat) : Nat :=
  let y1 := y0 ^^^ (y0 >>> 11)
  let y2 := y1 ^^^ ((y1 <<< 7) % 2 ^ 64 &&& TEMPERING_MASK_B)
  let y3 := y2 ^^^ ((y2 <<< 15) % 2 ^ 64 &&& TEMPERING_MASK_C)
  y3 ^^^ (y3 >>> 18)

/-- The state of `genRandLong` after its `if`: the words are regenerated when `index` is
outside `0 .. 623`, after a call of `seedRand(rand, 4357)` when it is outside `0 .. 624`. -/
def regenerate (rand : MTRand) : MTRand :=
  if rand.index ≥ STATE_VECTOR_LENGTH ∨ rand.index < 0 then
    let r0 :=
      if rand.index ≥ STATE_VECTOR_LENGTH + 1 ∨ rand.index < 0 then seedRand rand 4357 else rand
    let mtA := (List.range (STATE_VECTOR_LENGTH - STATE_VECTOR_M)).foldl
      (fun mt kk => twist mt kk (kk + STATE_VECTOR_M) (kk + 1)) r0.mt
    let mtB := (List.range' (STATE_VECTOR_LENGTH - STATE_VECTOR_M) (STATE_VECTOR_M - 1)).foldl
      (fun mt kk => twist mt kk (kk + STATE_VECTOR_M - STATE_VECTOR_LENGTH) (kk + 1)) mtA
    { mt := twist mtB (STATE_VECTOR_LENGTH - 1) (STATE_VECTOR_M - 1) 0, index := 0 }
  else rand

/-- The function `genRandLong`: the returned word and the state after the call. -/
def genRandLong (rand : MTRand) : Nat × MTRand :=
  let r := regenerate rand
  (temper (r.mt r.index.toNat), { r with index := r.index + 1 })

/-- The function `genRand`: `(float)genRandLong(rand) / (unsigned long)0xffffffff`, with
the conversions to `float` exact. -/
def genRand {K : Type} [LinearOrderedField K] (rand : MTRand) : Flt K × MTRand :=
  ((Flt.fin (((genRandLong rand).1 : Nat) : K)) / Flt.fin 4294967295, (genRandLong rand).2)

end Twister

/-! The vocabulary of the statements -/

section Vocabulary

variable {K : Type} [LinearOrderedField K]

/-- The point `o + t * d` of a ray. -/
def rayPoint (o d : V3 K) (t : K) : V3 K := ⟨o.x + t * d.x, o.y + t * d.y, o.z + t * d.z⟩

/-- A point lies in the closed box between the corners `b0` and `b1`. -/
def inBox (b0 b1 p : V3 K) : Prop :=
  (b0.x ≤ p.x ∧ p.x ≤ b1.x) ∧ (b0.y ≤ p.y ∧ p.y ≤ b1.y) ∧ (b0.z ≤ p.z ∧ p.z ≤ b1.z)

/-- The near crossing of one slab, for a direction component that is not zero. -/
def slabNear (b0 b1 o d : K) : K := Min.min ((b0 - o) * (1 / d)) ((b1 - o) * (1 / d))

/-- The far crossing of one slab, for a direction component that is not zero. -/
def slabFar (b0 b1 o d : K) : K := Max.max ((b0 - o) * (1 / d)) ((b1 - o) * (1 / d))

/-- The two crossings of one slab as `intersect` computes them: `min(vt1, vt2)` and
`max(vt1, vt2)`. -/
def slabPair (b0 b1 o dinv : Flt K) : Flt K × Flt K :=
  (glm.min ((b0 - o) * dinv) ((b1 - o) * dinv), glm.max ((b0 - o) * dinv) ((b1 - o) * dinv))

/-- The narrowing of the running interval by one more slab:
`tmin = max(tmin, ·)`, `tmax = min(tmax, ·)`. -/
def narrow (p q : Flt K × Flt K) : Flt K × Flt K := (glm.max p.1 q.1, glm.min p.2 q.2)

/-- The float is an exact value, not NaN or an infinity. -/
def Flt.IsFin (x : Flt K) : Prop := ∃ a : K, x = Flt.fin a

/-- The centre of a grid cell. -/
def cellCentre (c : Nat × Nat × Nat) : V3 K :=
  ⟨(c.1 : K) + 1 / 2, (c.2.1 : K) + 1 / 2, (c.2.2 : K) + 1 / 2⟩

/-- The sum of the samples `S_1 .. S_n` weighted by `1 / 2 ^ (n - i + 1)`; the list holds
`S_i` at index `i - 1`. -/
def weightedSum (l : List (V3 K)) : V3 K :=
  ⟨∑ i in Finset.range l.length, (l.getD i ⟨0, 0, 0⟩).x / 2 ^ (l.length - i),
   ∑ i in Finset.range l.length, (l.getD i ⟨0, 0, 0⟩).y / 2 ^ (l.length - i),
   ∑ i in Finset.range l.length, (l.getD i ⟨0, 0, 0⟩).z / 2 ^ (l.length - i)⟩

/-- The slab test of `intersect` run over the listed axes only: the first listed axis sets
`tmin` and `tmax`, each further one narrows them, and the test is `tmax >= max(tmin, 0)`.
With no axis the interval is the whole line. -/
def slabTestOn (axes : List Nat) (bounds0 bounds1 rayOrig rayDir : vec3 K) :
    Bool × Flt K × Flt K :=
  match axes with
  | [] => (true, Flt.ninf, Flt.pinf)
  | a :: rest =>
    let dir_inv := V3.rdiv (Flt.fin 1) rayDir
    let vt1 := (bounds0.get a - rayOrig.get a) * dir_inv.get a
    let vt2 := (bounds1.get a - rayOrig.get a) * dir_inv.get a
    let r := rest.foldl (intersectAxis bounds0 bounds1 rayOrig dir_inv)
      (glm.min vt1 vt2, glm.max vt1 vt2)
    (Flt.ge r.2 (glm.max r.1 (Flt.fin 0)), r.1, r.2)

/-- The cell is not air and the Intersector reports a hit of its unit cube. -/
def hitCell (s : Scene K) (orig dir : vec3 K) (c : Nat × Nat × Nat) : Bool :=
  decide (s.m_blocks c.1 c.2.1 c.2.2 ≠ BT_AIR) &&
    (intersect (blockBounds0 c) (blockBounds1 c) orig dir).1

/-- The adjusted distance of a cell: the output `t0` of the Intersector, replaced by `t1`
when `t0 < 0`. -/
def adjDist (orig dir : vec3 K) (c : Nat × Nat × Nat) : Flt K :=
  if Flt.lt (intersect (blockBounds0 c) (blockBounds1 c) orig dir).2.1 (Flt.fin 0) then
    (intersect (blockBounds0 c) (blockBounds1 c) orig dir).2.2
  else (intersect (blockBounds0 c) (blockBounds1 c) orig dir).2.1

/-- The cell `a` comes before the cell `b` in the scan order of `sample`: `bx` first, then
`by`, then `bz`. -/
def scanBefore (a b : Nat × Nat × Nat) : Prop :=
  a.1 < b.1 ∨ (a.1 = b.1 ∧ (a.2.1 < b.2.1 ∨ (a.2.1 = b.2.1 ∧ a.2.2 < b.2.2)))

/-- The lower corner of the unit cube of a cell, in exact coordinates. -/
def cellMin (c : Nat × Nat × Nat) : V3 K := ⟨(c.1 : K), (c.2.1 : K), (c.2.2 : K)⟩

/-- The upper corner of the unit cube of a cell, in exact coordinates. -/
def cellMax (c : Nat × Nat × Nat) : V3 K := ⟨(c.1 : K) + 1, (c.2.1 : K) + 1, (c.2.2 : K) + 1⟩

/-- The near crossing of the unit cube of a cell, for a direction without zero component. -/
def cellNear (o d : V3 K) (c : Nat × Nat × Nat) : K :=
  Max.max (Max.max (slabNear (cellMin c).x (cellMax c).x o.x d.x)
    (slabNear (cellMin c).y (cellMax c).y o.y d.y)) (slabNear (cellMin c).z (cellMax c).z o.z d.z)

/-- The far crossing of the unit cube of a cell, for a direction without zero component. -/
def cellFar (o d : V3 K) (c : Nat × Nat × Nat) : K :=
  Min.min (Min.min (slabFar (cellMin c).x (cellMax c).x o.x d.x)
    (slabFar (cellMin c).y (cellMax c).y o.y d.y)) (slabFar (cellMin c).z (cellMax c).z o.z d.z)

/-- A point lies on the boundary of the closed box between the corners `b0` and `b1`: in
the box and on one of its six planes. -/
def onBoundary (b0 b1 p : V3 K) : Prop :=
  inBox b0 b1 p ∧
    (p.x = b0.x ∨ p.x = b1.x ∨ p.y = b0.y ∨ p.y = b1.y ∨ p.z = b0.z ∨ p.z = b1.z)

/-- A solid cell: its id is not air and lies within the table of block types,
`BT_AIR < id < BT_COUNT`. -/
def solidCell (s : Scene K) (c : Nat × Nat × Nat) : Prop :=
  BT_AIR < s.m_blocks c.1 c.2.1 c.2.2 ∧ s.m_blocks c.1 c.2.1 c.2.2 < BT_COUNT

/-- A colour whose three channels are exact values in `[0, 1]`. -/
def UnitColour (c : vec3 K) : Prop :=
  ∃ v : V3 K, c = V3.fin v ∧ (0 ≤ v.x ∧ v.x ≤ 1) ∧ (0 ≤ v.y ∧ v.y ≤ 1) ∧ (0 ≤ v.z ∧ v.z ≤ 1)

end Vocabulary

/-! Arithmetic of `Flt` on exact values -/

section FltLemmas

variable {K : Type} [LinearOrderedField K]

theorem Flt.fin_add_fin (a b : K) : Flt.fin a + Flt.fin b = Flt.fin (a + b) := rfl

theorem Flt.fin_sub_fin (a b : K) : Flt.fin a - Flt.fin b = Flt.fin (a - b) := by
  show Flt.add (Flt.fin a) (Flt.neg (Flt.fin b)) = Flt.fin (a - b)
  simp [Flt.add, Flt.neg, sub_eq_add_neg]

theorem Flt.fin_mul_fin (a b : K) : Flt.fin a * Flt.fin b = Flt.fin (a * b) := rfl

theorem Flt.fin_div_fin (a b : K) (hb : b ≠ 0) : Flt.fin a / Flt.fin b = Flt.fin (a / b) := by
  show Flt.div (Flt.fin a) (Flt.fin b) = Flt.fin (a / b)
  simp [Flt.div, hb]

theorem Flt.lt_fin_fin (a b : K) : Flt.lt (Flt.fin a) (Flt.fin b) = decide (a < b) := rfl

theorem Flt.ge_fin_fin (a b : K) : Flt.ge (Flt.fin a) (Flt.fin b) = decide (b ≤ a) := rfl

theorem glm.min_fin_fin (a b : K) : glm.min (Flt.fin a) (Flt.fin b) = Flt.fin (Min.min a b) := by
  unfold glm.min
  rw [Flt.lt_fin_fin]
  by_cases h : b < a
  · simp [h, min_eq_right h.le]
  · simp [h, min_eq_left (not_lt.mp h)]

theorem glm.max_fin_fin (a b : K) : glm.max (Flt.fin a) (Flt.fin b) = Flt.fin (Max.max a b) := by
  unfold glm.max
  rw [Flt.lt_fin_fin]
  by_cases h : a < b
  · simp [h, max_eq_right h.le]
  · simp [h, max_eq_left (not_lt.mp h)]

/-! The intersector on exact inputs -/

/-- On exact inputs with a direction without zero component, `intersect` computes the
intersection of the three slabs in exact arithmetic. -/
theorem intersect_fin (b0 b1 o d : V3 K) (hx : d.x ≠ 0) (hy : d.y ≠ 0) (hz : d.z ≠ 0) :
    intersect b0.fin b1.fin o.fin d.fin =
      (decide (Max.max (Max.max (Max.max (slabNear b0.x b1.x o.x d.x) (slabNear b0.y b1.y o.y d.y))
          (slabNear b0.z b1.z o.z d.z)) 0 ≤
        Min.min (Min.min (slabFar b0.x b1.x o.x d.x) (slabFar b0.y b1.y o.y d.y))
          (slabFar b0.z b1.z o.z d.z)),
       Flt.fin (Max.max (Max.max (slabNear b0.x b1.x o.x d.x) (slabNear b0.y b1.y o.y d.y))
          (slabNear b0.z b1.z o.z d.z)),
       Flt.fin (Min.min (Min.min (slabFar b0.x b1.x o.x d.x) (slabFar b0.y b1.y o.y d.y))
          (slabFar b0.z b1.z o.z d.z))) := by
  have e1 : (1 : Nat) ≠ 0 := by decide
  have e2 : (2 : Nat) ≠ 0 := by decide
  have e3 : (2 : Nat) ≠ 1 := by decide
  simp only [intersect, intersectAxis, V3.rdiv, V3.fin, V3.get, List.foldl_cons, List.foldl_nil,
    if_neg e1, if_neg e2, if_neg e3, if_true,
    Flt.fin_div_fin _ _ hx, Flt.fin_div_fin _ _ hy, Flt.fin_div_fin _ _ hz, Flt.fin_sub_fin,
    Flt.fin_mul_fin, glm.min_fin_fin, glm.max_fin_fin, Flt.ge_fin_fin, slabNear, slabFar]

/-- One slab: the parameters `t` at which the ray lies between the two planes. -/
theorem slab_iff (b0 b1 o d t : K) (hb : b0 ≤ b1) (hd : d ≠ 0) :
    (b0 ≤ o + t * d ∧ o + t * d ≤ b1) ↔ slabNear b0 b1 o d ≤ t ∧ t ≤ slabFar b0 b1 o d := by
  unfold slabNear slabFar
  rw [mul_one_div, mul_one_div]
  rcases lt_or_gt_of_ne hd with hneg | hpos
  · have h12 : (b1 - o) / d ≤ (b0 - o) / d :=
      div_le_div_of_nonpos_of_le hneg.le (by linarith)
    rw [min_eq_right h12, max_eq_left h12, div_le_iff_of_neg hneg, le_div_iff_of_neg hneg]
    constructor
    · rintro ⟨h1, h2⟩
      exact ⟨by linarith, by linarith⟩
    · rintro ⟨h1, h2⟩
      exact ⟨by linarith, by linarith⟩
  · have h12 : (b0 - o) / d ≤ (b1 - o) / d :=
      div_le_div_of_nonneg_right (by linarith) hpos.le
    rw [min_eq_left h12, max_eq_right h12, div_le_iff₀ hpos, le_div_iff₀ hpos]
    constructor
    · rintro ⟨h1, h2⟩
      exact ⟨by linarith, by linarith⟩
    · rintro ⟨h1, h2⟩
      exact ⟨by linarith, by linarith⟩

/-- The slab test as the narrowing of the three slabs. -/
theorem intersect_eq (b0 b1 o d : vec3 K) :
    intersect b0 b1 o d =
      (Flt.ge
        (narrow (narrow (slabPair b0.x b1.x o.x (Flt.fin 1 / d.x))
          (slabPair b0.y b1.y o.y (Flt.fin 1 / d.y)))
          (slabPair b0.z b1.z o.z (Flt.fin 1 / d.z))).2
        (glm.max
          (narrow (narrow (slabPair b0.x b1.x o.x (Flt.fin 1 / d.x))
            (slabPair b0.y b1.y o.y (Flt.fin 1 / d.y)))
            (slabPair b0.z b1.z o.z (Flt.fin 1 / d.z))).1 (Flt.fin 0)),
       narrow (narrow (slabPair b0.x b1.x o.x (Flt.fin 1 / d.x))
          (slabPair b0.y b1.y o.y (Flt.fin 1 / d.y)))
          (slabPair b0.z b1.z o.z (Flt.fin 1 / d.z))) := rfl

/-- One slab with strict inequalities. -/
theorem slab_iff_lt (b0 b1 o d t : K) (hb : b0 ≤ b1) (hd : d ≠ 0) :
    (b0 < o + t * d ∧ o + t * d < b1) ↔ slabNear b0 b1 o d < t ∧ t < slabFar b0 b1 o d := by
  unfold slabNear slabFar
  rw [mul_one_div, mul_one_div]
  rcases lt_or_gt_of_ne hd with hneg | hpos
  · have h12 : (b1 - o) / d ≤ (b0 - o) / d :=
      div_le_div_of_nonpos_of_le hneg.le (by linarith)
    rw [min_eq_right h12, max_eq_left h12, div_lt_iff_of_neg hneg, lt_div_iff_of_neg hneg]
    constructor
    · rintro ⟨h1, h2⟩
      exact ⟨by linarith, by linarith⟩
    · rintro ⟨h1, h2⟩
      exact ⟨by linarith, by linarith⟩
  · have h12 : (b0 - o) / d ≤ (b1 - o) / d :=
      div_le_div_of_nonneg_right (by linarith) hpos.le
    rw [min_eq_left h12, max_eq_right h12, div_lt_iff₀ hpos, lt_div_iff₀ hpos]
    constructor
    · rintro ⟨h1, h2⟩
      exact ⟨by linarith, by linarith⟩
    · rintro ⟨h1, h2⟩
      exact ⟨by linarith, by linarith⟩

/-- The two crossings of a slab for a direction component that is not zero. -/
theorem slabPair_fin (b0 b1 o d : K) (hd : d ≠ 0) :
    slabPair (Flt.fin b0) (Flt.fin b1) (Flt.fin o) (Flt.fin 1 / Flt.fin d) =
      (Flt.fin (slabNear b0 b1 o d), Flt.fin (slabFar b0 b1 o d)) := by
  simp only [slabPair, Flt.fin_div_fin _ _ hd, Flt.fin_sub_fin, Flt.fin_mul_fin,
    glm.min_fin_fin, glm.max_fin_fin, slabNear, slabFar]

/-- The reciprocal of a zero direction component is `+∞`. -/
theorem Flt.one_div_zero : Flt.fin (1 : K) / Flt.fin 0 = Flt.pinf := by
  show Flt.div (Flt.fin 1) (Flt.fin 0) = Flt.pinf
  simp [Flt.div, Flt.infOfSign]

theorem Flt.fin_mul_pinf_of_neg (a : K) (ha : a < 0) : Flt.fin a * Flt.pinf = Flt.ninf := by
  show Flt.mul (Flt.fin a) Flt.pinf = Flt.ninf
  simp [Flt.mul, Flt.infOfSign, ha.ne, not_lt.mpr ha.le]

theorem Flt.fin_mul_pinf_of_pos (a : K) (ha : 0 < a) : Flt.fin a * Flt.pinf = Flt.pinf := by
  show Flt.mul (Flt.fin a) Flt.pinf = Flt.pinf
  simp [Flt.mul, Flt.infOfSign, ha.ne', ha]

theorem Flt.zero_mul_pinf : Flt.fin (0 : K) * Flt.pinf = Flt.nan := by
  show Flt.mul (Flt.fin 0) Flt.pinf = Flt.nan
  simp [Flt.mul]

/-- The two crossings of a slab for a zero direction component and an origin strictly
between the two planes: the slab does not constrain the ray. -/
theorem slabPair_parallel (b0 b1 o : K) (h0 : b0 < o) (h1 : o < b1) :
    slabPair (Flt.fin b0) (Flt.fin b1) (Flt.fin o) (Flt.fin 1 / Flt.fin 0) =
      (Flt.ninf, Flt.pinf) := by
  simp only [slabPair, Flt.one_div_zero, Flt.fin_sub_fin,
    Flt.fin_mul_pinf_of_neg (b0 - o) (by linarith), Flt.fin_mul_pinf_of_pos (b1 - o) (by linarith)]
  simp [glm.min, glm.max, Flt.lt]

/-- A slab whose planes the ray point at parameter `τ` lies strictly between: both
crossings are ordered around `τ`, and they are exact values unless the direction component
is zero. -/
theorem slabPair_straddles (b0 b1 o d τ : K) (h0 : b0 < o + τ * d) (h1 : o + τ * d < b1) :
    (Flt.lt (slabPair (Flt.fin b0) (Flt.fin b1) (Flt.fin o) (Flt.fin 1 / Flt.fin d)).1
        (Flt.fin τ) = true ∧
      Flt.lt (Flt.fin τ)
        (slabPair (Flt.fin b0) (Flt.fin b1) (Flt.fin o) (Flt.fin 1 / Flt.fin d)).2 = true) ∧
    (d ≠ 0 →
      Flt.IsFin (slabPair (Flt.fin b0) (Flt.fin b1) (Flt.fin o) (Flt.fin 1 / Flt.fin d)).1 ∧
      Flt.IsFin (slabPair (Flt.fin b0) (Flt.fin b1) (Flt.fin o) (Flt.fin 1 / Flt.fin d)).2) := by
  by_cases hd : d = 0
  · subst hd
    rw [slabPair_parallel b0 b1 o (by linarith) (by linarith)]
    exact ⟨⟨rfl, rfl⟩, fun h => absurd rfl h⟩
  · rw [slabPair_fin b0 b1 o d hd]
    have h := (slab_iff_lt b0 b1 o d τ (by linarith) hd).mp ⟨h0, h1⟩
    refine ⟨⟨?_, ?_⟩, fun _ => ⟨⟨_, rfl⟩, ⟨_, rfl⟩⟩⟩
    · simpa [Flt.lt_fin_fin] using h.1
    · simpa [Flt.lt_fin_fin] using h.2

theorem glm.max_eq_or (x y : Flt K) : glm.max x y = x ∨ glm.max x y = y := by
  unfold glm.max
  split
  · exact Or.inr rfl
  · exact Or.inl rfl

theorem glm.min_eq_or (x y : Flt K) : glm.min x y = x ∨ glm.min x y = y := by
  unfold glm.min
  split
  · exact Or.inr rfl
  · exact Or.inl rfl

/-- Narrowing keeps both crossings ordered around `τ`. -/
theorem narrow_straddles (τ : K) (p q : Flt K × Flt K)
    (hp : Flt.lt p.1 (Flt.fin τ) = true ∧ Flt.lt (Flt.fin τ) p.2 = true)
    (hq : Flt.lt q.1 (Flt.fin τ) = true ∧ Flt.lt (Flt.fin τ) q.2 = true) :
    Flt.lt (narrow p q).1 (Flt.fin τ) = true ∧ Flt.lt (Flt.fin τ) (narrow p q).2 = true := by
  unfold narrow
  constructor
  · rcases glm.max_eq_or p.1 q.1 with h | h
    · rw [h]; exact hp.1
    · rw [h]; exact hq.1
  · rcases glm.min_eq_or p.2 q.2 with h | h
    · rw [h]; exact hp.2
    · rw [h]; exact hq.2

theorem glm.max_isFin (τ : K) (x y : Flt K) (hx : Flt.lt x (Flt.fin τ) = true)
    (hy : Flt.lt y (Flt.fin τ) = true) (h : Flt.IsFin x ∨ Flt.IsFin y) :
    Flt.IsFin (glm.max x y) := by
  cases x <;> cases y <;> simp_all [glm.max, Flt.lt, Flt.IsFin]
  split <;> simp

theorem glm.min_isFin (τ : K) (x y : Flt K) (hx : Flt.lt (Flt.fin τ) x = true)
    (hy : Flt.lt (Flt.fin τ) y = true) (h : Flt.IsFin x ∨ Flt.IsFin y) :
    Flt.IsFin (glm.min x y) := by
  cases x <;> cases y <;> simp_all [glm.min, Flt.lt, Flt.IsFin]
  split <;> simp

/-- Narrowing by slabs ordered around `τ` gives exact crossings as soon as one of the two
intervals has exact crossings. -/
theorem narrow_isFin (τ : K) (p q : Flt K × Flt K)
    (hp : Flt.lt p.1 (Flt.fin τ) = true ∧ Flt.lt (Flt.fin τ) p.2 = true)
    (hq : Flt.lt q.1 (Flt.fin τ) = true ∧ Flt.lt (Flt.fin τ) q.2 = true)
    (h : (Flt.IsFin p.1 ∧ Flt.IsFin p.2) ∨ (Flt.IsFin q.1 ∧ Flt.IsFin q.2)) :
    Flt.IsFin (narrow p q).1 ∧ Flt.IsFin (narrow p q).2 := by
  unfold narrow
  constructor
  · exact glm.max_isFin τ _ _ hp.1 hq.1 (h.imp And.left And.left)
  · exact glm.min_isFin τ _ _ hp.2 hq.2 (h.imp And.right And.right)

/-- The test `tmax >= max(tmin, 0)` succeeds when the crossings are ordered around a
parameter `τ ≥ 0`. -/
theorem ge_max_of_straddles (τ : K) (hτ : 0 ≤ τ) (p : Flt K × Flt K)
    (hp : Flt.lt p.1 (Flt.fin τ) = true ∧ Flt.lt (Flt.fin τ) p.2 = true) :
    Flt.ge p.2 (glm.max p.1 (Flt.fin 0)) = true := by
  obtain ⟨x, y⟩ := p
  obtain ⟨h1, h2⟩ := hp
  have hmax : glm.max x (Flt.fin 0) = Flt.fin 0 ∨ ∃ a, a < τ ∧ glm.max x (Flt.fin 0) = Flt.fin a := by
    cases x with
    | nan => simp [Flt.lt] at h1
    | pinf => simp [Flt.lt] at h1
    | ninf => exact Or.inl (by simp [glm.max, Flt.lt])
    | fin a =>
      have ha : a < τ := by simpa [Flt.lt] using h1
      rcases glm.max_eq_or (Flt.fin a) (Flt.fin 0) with h | h
      · exact Or.inr ⟨a, ha, h⟩
      · exact Or.inl h
  cases y with
  | nan => simp [Flt.lt] at h2
  | ninf => simp [Flt.lt] at h2
  | pinf =>
    rcases hmax with h | ⟨a, _, h⟩ <;> rw [h] <;> rfl
  | fin b =>
    have hb : τ < b := by simpa [Flt.lt] using h2
    rcases hmax with h | ⟨a, ha, h⟩
    · rw [h, Flt.ge_fin_fin]
      simpa using hτ.trans hb.le
    · rw [h, Flt.ge_fin_fin]
      simpa using (ha.trans hb).le

/-- The slab test for a ray whose point at parameter `τ` lies strictly inside the box:
the outputs are ordered around `τ`, the box is hit when `τ ≥ 0`, and both outputs are exact
values unless the direction is the zero vector. -/
theorem intersect_straddles (b0 b1 o d : V3 K) (τ : K)
    (hx : b0.x < o.x + τ * d.x ∧ o.x + τ * d.x < b1.x)
    (hy : b0.y < o.y + τ * d.y ∧ o.y + τ * d.y < b1.y)
    (hz : b0.z < o.z + τ * d.z ∧ o.z + τ * d.z < b1.z) :
    (Flt.lt (intersect b0.fin b1.fin o.fin d.fin).2.1 (Flt.fin τ) = true ∧
      Flt.lt (Flt.fin τ) (intersect b0.fin b1.fin o.fin d.fin).2.2 = true) ∧
    (0 ≤ τ → (intersect b0.fin b1.fin o.fin d.fin).1 = true) ∧
    (d.x ≠ 0 ∨ d.y ≠ 0 ∨ d.z ≠ 0 →
      Flt.IsFin (intersect b0.fin b1.fin o.fin d.fin).2.1 ∧
      Flt.IsFin (intersect b0.fin b1.fin o.fin d.fin).2.2) := by
  have sx := slabPair_straddles b0.x b1.x o.x d.x τ hx.1 hx.2
  have sy := slabPair_straddles b0.y b1.y o.y d.y τ hy.1 hy.2
  have sz := slabPair_straddles b0.z b1.z o.z d.z τ hz.1 hz.2
  have sxy := narrow_straddles τ _ _ sx.1 sy.1
  have sxyz := narrow_straddles τ _ _ sxy sz.1
  rw [intersect_eq]
  refine ⟨sxyz, fun hτ => ge_max_of_straddles τ hτ _ sxyz, fun hd => ?_⟩
  rcases hd with hd | hd | hd
  · exact narrow_isFin τ _ _ sxy sz.1 (Or.inl (narrow_isFin τ _ _ sx.1 sy.1 (Or.inl (sx.2 hd))))
  · exact narrow_isFin τ _ _ sxy sz.1 (Or.inl (narrow_isFin τ _ _ sx.1 sy.1 (Or.inr (sy.2 hd))))
  · exact narrow_isFin τ _ _ sxy sz.1 (Or.inr (sz.2 hd))

theorem Flt.ge_of_lt (x y : Flt K) (h : Flt.lt x y = true) : Flt.ge y x = true := by
  cases x <;> cases y <;> simp_all [Flt.lt, Flt.ge]
  exact h.le

theorem Flt.add_fin_zero (x : Flt K) : x + Flt.fin 0 = x := by
  show Flt.add x (Flt.fin 0) = x
  cases x <;> simp [Flt.add]

theorem V3.add_splat_zero (v : vec3 K) : V3.add v (V3.splat (Flt.fin 0)) = v := by
  simp [V3.add, V3.splat, Flt.add_fin_zero]

/-- C1. In exact arithmetic, for a box with `bounds0 ≤ bounds1` and a direction without
zero component, `intersect` returns finite `t0`, `t1` such that the parameters at which
the line lies in the closed box are exactly the interval `[t0, t1]`, and it returns true
exactly when some `t ≥ 0` puts `origin + t * direction` in the box. -/
theorem intersect_iff_ray_meets_box (b0 b1 o d : V3 K)
    (hb : b0.x ≤ b1.x ∧ b0.y ≤ b1.y ∧ b0.z ≤ b1.z)
    (hd : d.x ≠ 0 ∧ d.y ≠ 0 ∧ d.z ≠ 0) :
    ∃ t0 t1 : K,
      (intersect b0.fin b1.fin o.fin d.fin).2 = (Flt.fin t0, Flt.fin t1) ∧
      ((intersect b0.fin b1.fin o.fin d.fin).1 = true ↔
        ∃ t : K, 0 ≤ t ∧ inBox b0 b1 (rayPoint o d t)) ∧
      ∀ t : K, inBox b0 b1 (rayPoint o d t) ↔ t0 ≤ t ∧ t ≤ t1 := by
  obtain ⟨hbx, hby, hbz⟩ := hb
  obtain ⟨hx, hy, hz⟩ := hd
  have key : ∀ t : K, inBox b0 b1 (rayPoint o d t) ↔
      Max.max (Max.max (slabNear b0.x b1.x o.x d.x) (slabNear b0.y b1.y o.y d.y))
          (slabNear b0.z b1.z o.z d.z) ≤ t ∧
        t ≤ Min.min (Min.min (slabFar b0.x b1.x o.x d.x) (slabFar b0.y b1.y o.y d.y))
          (slabFar b0.z b1.z o.z d.z) := by
    intro t
    simp only [inBox, rayPoint, slab_iff _ _ _ _ t hbx hx, slab_iff _ _ _ _ t hby hy,
      slab_iff _ _ _ _ t hbz hz, max_le_iff, le_min_iff]
    tauto
  refine ⟨_, _, ?_, ?_, key⟩
  · rw [intersect_fin b0 b1 o d hx hy hz]
  · rw [intersect_fin b0 b1 o d hx hy hz]
    simp only [decide_eq_true_eq]
    constructor
    · intro h
      obtain ⟨h1, h2⟩ := max_le_iff.mp h
      refine ⟨Max.max (Max.max (Max.max (slabNear b0.x b1.x o.x d.x)
        (slabNear b0.y b1.y o.y d.y)) (slabNear b0.z b1.z o.z d.z)) 0, le_max_right _ _, ?_⟩
      rw [key]
      exact ⟨le_max_left _ _, max_le h1 h2⟩
    · rintro ⟨t, ht, hin⟩
      rw [key] at hin
      exact max_le (hin.1.trans hin.2) (ht.trans hin.2)

/-- A concrete instance of C1: the unit box and a diagonal ray from below. -/
theorem intersect_iff_ray_meets_box_witness :
    ∃ t0 t1 : ℚ,
      (intersect (V3.fin (⟨0, 0, 0⟩ : V3 ℚ)) (V3.fin ⟨1, 1, 1⟩) (V3.fin ⟨0, 0, -1⟩)
        (V3.fin ⟨1, 1, 4⟩)).2 = (Flt.fin t0, Flt.fin t1) ∧
      ((intersect (V3.fin (⟨0, 0, 0⟩ : V3 ℚ)) (V3.fin ⟨1, 1, 1⟩) (V3.fin ⟨0, 0, -1⟩)
        (V3.fin ⟨1, 1, 4⟩)).1 = true ↔
        ∃ t : ℚ, 0 ≤ t ∧ inBox ⟨0, 0, 0⟩ ⟨1, 1, 1⟩ (rayPoint ⟨0, 0, -1⟩ ⟨1, 1, 4⟩ t)) ∧
      ∀ t : ℚ, inBox ⟨0, 0, 0⟩ ⟨1, 1, 1⟩ (rayPoint ⟨0, 0, -1⟩ ⟨1, 1, 4⟩ t) ↔ t0 ≤ t ∧ t ≤ t1 :=
  intersect_iff_ray_meets_box (⟨0, 0, 0⟩ : V3 ℚ) ⟨1, 1, 1⟩ ⟨0, 0, -1⟩ ⟨1, 1, 4⟩
    ⟨by norm_num, by norm_num, by norm_num⟩ ⟨by norm_num, by norm_num, by norm_num⟩

/-- The test `tmax >= max(tmin, 0)` fails when `tmax` comes out of a `min` with a negative
exact value, whatever the other operands are. -/
theorem ge_min_neg_eq_false (a m : Flt K) (f : K) (hf : f < 0) :
    Flt.ge (glm.min a (Flt.fin f)) (glm.max m (Flt.fin 0)) = false := by
  have hmin : glm.min a (Flt.fin f) = Flt.nan ∨ glm.min a (Flt.fin f) = Flt.ninf ∨
      ∃ b, b < 0 ∧ glm.min a (Flt.fin f) = Flt.fin b := by
    cases a with
    | nan => exact Or.inl (by simp [glm.min, Flt.lt])
    | ninf => exact Or.inr (Or.inl (by simp [glm.min, Flt.lt]))
    | pinf => exact Or.inr (Or.inr ⟨f, hf, by simp [glm.min, Flt.lt]⟩)
    | fin a =>
      rw [glm.min_fin_fin]
      exact Or.inr (Or.inr ⟨_, lt_of_le_of_lt (min_le_right a f) hf, rfl⟩)
  have hmax : glm.max m (Flt.fin 0) = Flt.nan ∨ glm.max m (Flt.fin 0) = Flt.pinf ∨
      ∃ b, 0 ≤ b ∧ glm.max m (Flt.fin 0) = Flt.fin b := by
    cases m with
    | nan => exact Or.inl (by simp [glm.max, Flt.lt])
    | ninf => exact Or.inr (Or.inr ⟨0, le_refl _, by simp [glm.max, Flt.lt]⟩)
    | pinf => exact Or.inr (Or.inl (by simp [glm.max, Flt.lt]))
    | fin a =>
      rw [glm.max_fin_fin]
      exact Or.inr (Or.inr ⟨_, le_max_right a 0, rfl⟩)
  rcases hmin with h | h | ⟨b, hb, h⟩ <;> rcases hmax with h' | h' | ⟨b', hb', h'⟩ <;>
    rw [h, h'] <;> try rfl
  rw [Flt.ge_fin_fin]
  simpa using lt_of_lt_of_le hb hb'

/-- C4 (amended). For the unit box at the origin and a ray origin below it (`oz < 0`)
whose `x` and `y` lie strictly inside the extent of the box, `intersect` with direction
`(0, 0, 1)` returns true with the finite outputs `t0 = -oz < t1 = 1 - oz`; with direction
`(0, 0, -1)` it returns false, also for `x` and `y` on the border of the extent. -/
theorem intersect_unit_box_along_z (ox oy oz : K) (hz : oz < 0)
    (hx : 0 < ox ∧ ox < 1) (hy : 0 < oy ∧ oy < 1) :
    (intersect (V3.fin ⟨0, 0, 0⟩) (V3.fin ⟨1, 1, 1⟩) (V3.fin ⟨ox, oy, oz⟩) (V3.fin ⟨0, 0, 1⟩) =
        (true, Flt.fin (-oz), Flt.fin (1 - oz)) ∧ -oz < 1 - oz) ∧
    ∀ px py : K, 0 ≤ px → px ≤ 1 → 0 ≤ py → py ≤ 1 →
      (intersect (V3.fin ⟨0, 0, 0⟩) (V3.fin ⟨1, 1, 1⟩) (V3.fin ⟨px, py, oz⟩)
        (V3.fin ⟨0, 0, -1⟩)).1 = false := by
  refine ⟨⟨?_, by linarith⟩, ?_⟩
  · have hnear : slabNear 0 1 oz 1 = -oz := by
      unfold slabNear
      rw [min_eq_left (by linarith)]
      ring
    have hfar : slabFar 0 1 oz 1 = 1 - oz := by
      unfold slabFar
      rw [max_eq_right (by linarith)]
      ring
    rw [intersect_eq]
    simp only [V3.fin, slabPair_parallel 0 1 ox hx.1 hx.2, slabPair_parallel 0 1 oy hy.1 hy.2,
      slabPair_fin 0 1 oz 1 one_ne_zero, hnear, hfar]
    have e1 : narrow (narrow (Flt.ninf, Flt.pinf) (Flt.ninf, Flt.pinf))
        (Flt.fin (-oz), Flt.fin (1 - oz)) = (Flt.fin (-oz), Flt.fin (1 - oz)) := by
      simp [narrow, glm.max, glm.min, Flt.lt]
    rw [e1, glm.max_fin_fin, Flt.ge_fin_fin]
    simp only [Prod.mk.injEq, decide_eq_true_eq, and_true]
    exact max_le (by linarith) (by linarith)
  · intro px py _ _ _ _
    have hfar : slabFar 0 1 oz (-1) = oz := by
      unfold slabFar
      rw [max_eq_left (by linarith)]
      ring
    rw [intersect_eq]
    simp only [V3.fin, slabPair_fin 0 1 oz (-1) (by norm_num), hfar, narrow]
    exact ge_min_neg_eq_false _ _ oz hz

/-- A concrete instance of C4 (amended): the origin `(1/2, 1/2, -5)`. -/
theorem intersect_unit_box_along_z_witness :
    (intersect (V3.fin (⟨0, 0, 0⟩ : V3 ℚ)) (V3.fin ⟨1, 1, 1⟩) (V3.fin ⟨1 / 2, 1 / 2, -5⟩)
        (V3.fin ⟨0, 0, 1⟩) = (true, Flt.fin (-(-5)), Flt.fin (1 - (-5))) ∧
        -(-5 : ℚ) < 1 - (-5)) ∧
    ∀ px py : ℚ, 0 ≤ px → px ≤ 1 → 0 ≤ py → py ≤ 1 →
      (intersect (V3.fin (⟨0, 0, 0⟩ : V3 ℚ)) (V3.fin ⟨1, 1, 1⟩) (V3.fin ⟨px, py, -5⟩)
        (V3.fin ⟨0, 0, -1⟩)).1 = false :=
  intersect_unit_box_along_z (1 / 2 : ℚ) (1 / 2) (-5) (by norm_num)
    ⟨by norm_num, by norm_num⟩ ⟨by norm_num, by norm_num⟩

/-- C4 as stated fails on the `z` axis itself: for the origin `(0, 0, -1)` and the
direction `(0, 0, 1)` the products `0 * ∞` are NaN and `intersect` returns false. -/
theorem intersect_unit_box_z_axis_counterexample :
    intersect (V3.fin (⟨0, 0, 0⟩ : V3 ℚ)) (V3.fin ⟨1, 1, 1⟩) (V3.fin ⟨0, 0, -1⟩)
      (V3.fin ⟨0, 0, 1⟩) = (false, Flt.nan, Flt.nan) := by
  have hx : slabPair (Flt.fin (0 : ℚ)) (Flt.fin 1) (Flt.fin 0) (Flt.fin 1 / Flt.fin 0) =
      (Flt.nan, Flt.nan) := by
    simp [slabPair, Flt.one_div_zero, Flt.fin_sub_fin, Flt.zero_mul_pinf,
      Flt.fin_mul_pinf_of_pos, glm.min, glm.max, Flt.lt]
  rw [intersect_eq]
  simp only [V3.fin, hx]
  simp [narrow, glm.max, glm.min, Flt.lt, Flt.ge]

/-- C5. For a ray origin strictly inside a box, `intersect` returns true with
`t0 < 0 ≤ t1`, whatever the direction is. -/
theorem intersect_origin_inside (b0 b1 o d : V3 K)
    (hx : b0.x < o.x ∧ o.x < b1.x) (hy : b0.y < o.y ∧ o.y < b1.y)
    (hz : b0.z < o.z ∧ o.z < b1.z) :
    (intersect b0.fin b1.fin o.fin d.fin).1 = true ∧
    Flt.lt (intersect b0.fin b1.fin o.fin d.fin).2.1 (Flt.fin 0) = true ∧
    Flt.ge (intersect b0.fin b1.fin o.fin d.fin).2.2 (Flt.fin 0) = true := by
  have h := intersect_straddles b0 b1 o d 0 (by simpa using hx) (by simpa using hy)
    (by simpa using hz)
  exact ⟨h.2.1 (le_refl 0), h.1.1, Flt.ge_of_lt _ _ h.1.2⟩

/-- A concrete instance of C5: the centre of the unit box and a direction with a zero
component. -/
theorem intersect_origin_inside_witness :
    (intersect (V3.fin (⟨0, 0, 0⟩ : V3 ℚ)) (V3.fin ⟨1, 1, 1⟩) (V3.fin ⟨1 / 2, 1 / 2, 1 / 2⟩)
      (V3.fin ⟨0, 3, -1⟩)).1 = true ∧
    Flt.lt (intersect (V3.fin (⟨0, 0, 0⟩ : V3 ℚ)) (V3.fin ⟨1, 1, 1⟩)
      (V3.fin ⟨1 / 2, 1 / 2, 1 / 2⟩) (V3.fin ⟨0, 3, -1⟩)).2.1 (Flt.fin 0) = true ∧
    Flt.ge (intersect (V3.fin (⟨0, 0, 0⟩ : V3 ℚ)) (V3.fin ⟨1, 1, 1⟩)
      (V3.fin ⟨1 / 2, 1 / 2, 1 / 2⟩) (V3.fin ⟨0, 3, -1⟩)).2.2 (Flt.fin 0) = true :=
  intersect_origin_inside (⟨0, 0, 0⟩ : V3 ℚ) ⟨1, 1, 1⟩ ⟨1 / 2, 1 / 2, 1 / 2⟩ ⟨0, 3, -1⟩
    ⟨by norm_num, by norm_num⟩ ⟨by norm_num, by norm_num⟩ ⟨by norm_num, by norm_num⟩

/-! The scan of the grid -/

theorem mem_cells (c : Nat × Nat × Nat) :
    c ∈ cells ↔ c.1 < CHUNK_W ∧ c.2.1 < CHUNK_H ∧ c.2.2 < CHUNK_D := by
  obtain ⟨a, b, d⟩ := c
  simp only [cells, List.mem_flatMap, List.mem_map, List.mem_range, Prod.mk.injEq]
  constructor
  · rintro ⟨x, hx, y, hy, z, hz, rfl, rfl, rfl⟩
    exact ⟨hx, hy, hz⟩
  · rintro ⟨hx, hy, hz⟩
    exact ⟨a, hx, b, hy, d, hz, rfl, rfl, rfl⟩

theorem cells_nodup : cells.Nodup := by
  unfold cells
  rw [List.nodup_flatMap]
  refine ⟨fun bx _ => ?_, ?_⟩
  · rw [List.nodup_flatMap]
    refine ⟨fun b _ => ?_, ?_⟩
    · refine List.Nodup.map ?_ (List.nodup_range _)
      intro z1 z2 h
      simpa using h
    · refine (List.nodup_range CHUNK_H).imp ?_
      intro y1 y2 hne
      simp only [Function.onFun, List.disjoint_left, List.mem_map, not_exists, not_and]
      rintro c ⟨z1, _, rfl⟩ z2 _ h
      have e : y2 = y1 := by simpa using congrArg (fun q => q.2.1) h
      exact hne e.symm
  · refine (List.nodup_range CHUNK_W).imp ?_
    intro x1 x2 hne
    simp only [Function.onFun, List.disjoint_left, List.mem_flatMap, List.mem_map, not_exists,
      not_and]
    rintro c ⟨y1, _, z1, _, rfl⟩ y2 _ z2 _ h
    have e : x2 = x1 := by simpa using congrArg (fun q => q.1) h
    exact hne e.symm

/-- A loop whose body leaves the state alone on every element leaves it alone. -/
theorem foldl_skip {α β : Type} (f : β → α → β) (l : List α) (st : β)
    (h : ∀ c ∈ l, ∀ st, f st c = st) : l.foldl f st = st := by
  induction l with
  | nil => rfl
  | cons a l ih =>
    rw [List.foldl_cons, h a (List.mem_cons_self _ _)]
    exact ih fun c hc => h c (List.mem_cons_of_mem _ hc)

/-- A loop whose body leaves the state alone on every element but one, which occurs once,
runs the body on that element only. -/
theorem foldl_single {α β : Type} (f : β → α → β) (l : List α) (c0 : α) (st : β)
    (hmem : c0 ∈ l) (hnd : l.Nodup) (h : ∀ c ∈ l, c ≠ c0 → ∀ st, f st c = st) :
    l.foldl f st = f st c0 := by
  induction l with
  | nil => cases hmem
  | cons a l ih =>
    rw [List.nodup_cons] at hnd
    rw [List.foldl_cons]
    by_cases ha : a = c0
    · subst ha
      exact foldl_skip f l _ fun c hc =>
        h c (List.mem_cons_of_mem _ hc) (fun e => hnd.1 (e ▸ hc))
    · rw [h a (List.mem_cons_self _ _) ha]
      have hm : c0 ∈ l := by
        rcases List.mem_cons.mp hmem with e | e
        · exact absurd e.symm ha
        · exact e
      exact ih hm hnd.2 fun c hc => h c (List.mem_cons_of_mem _ hc)

/-- The body of the scan skips a cell that holds air. -/
theorem scanCell_air (s : Scene K) (orig dir : vec3 K) (st : Flt K × Option Nat)
    (c : Nat × Nat × Nat) (h : s.m_blocks c.1 c.2.1 c.2.2 = BT_AIR) :
    scanCell s orig dir st c = st := by
  simp [scanCell, h, BT_AIR]

/-- The sampler returns the sky colour as soon as the scan keeps no block type. -/
theorem sample_of_scan_none (table : Fin BT_COUNT → BlockType K) (s : Scene K)
    (orig dir : vec3 K) (depth : Int) (h : (scan s orig dir).2 = none) :
    sample table s orig dir depth = some s.m_skyColor := by
  rw [sample]
  split
  · rfl
  · next tnear tile heq =>
    rw [heq] at h
    cases h

/-- C2. On a grid whose cells all hold air, `sample` returns exactly the sky colour, for
every origin, direction and depth. -/
theorem sample_all_air (table : Fin BT_COUNT → BlockType K) (s : Scene K) (orig dir : vec3 K)
    (depth : Int)
    (hair : ∀ bx byy bz, bx < CHUNK_W → byy < CHUNK_H → bz < CHUNK_D →
      s.m_blocks bx byy bz = BT_AIR) :
    sample table s orig dir depth = some s.m_skyColor := by
  apply sample_of_scan_none
  unfold scan
  rw [foldl_skip]
  intro c hc st
  rw [mem_cells] at hc
  exact scanCell_air s orig dir st c (hair c.1 c.2.1 c.2.2 hc.1 hc.2.1 hc.2.2)

/-- A concrete instance of C2: the empty grid, seen from the initial camera position. -/
theorem sample_all_air_witness :
    sample types (sceneWith airGrid) (V3.fin ⟨0, 3, -10⟩) (V3.fin ⟨0, 0, 1⟩) 0 =
      some (sceneWith airGrid).m_skyColor :=
  sample_all_air types (sceneWith airGrid) (V3.fin ⟨0, 3, -10⟩) (V3.fin ⟨0, 0, 1⟩) 0
    (fun _ _ _ _ _ _ => rfl)

/-- The body of the scan on the first block that is hit with exact crossings: the block
is kept, at the far crossing when the near one is negative. -/
theorem scanCell_init_hit (s : Scene K) (orig dir : vec3 K) (c : Nat × Nat × Nat) (a b : K)
    (hpos : s.m_blocks c.1 c.2.1 c.2.2 ≠ BT_AIR)
    (hi : intersect (blockBounds0 c) (blockBounds1 c) orig dir = (true, Flt.fin a, Flt.fin b)) :
    scanCell s orig dir (Flt.pinf, none) c =
      (if a < 0 then Flt.fin b else Flt.fin a, some (s.m_blocks c.1 c.2.1 c.2.2)) := by
  have hgt : s.m_blocks c.1 c.2.1 c.2.2 > BT_AIR := Nat.pos_of_ne_zero hpos
  have hsh : s.m_blocks c.1 c.2.1 c.2.2 <<< BT_COUNT ≠ 0 := by
    rw [Nat.shiftLeft_eq]
    exact Nat.mul_ne_zero hpos (by decide)
  simp only [scanCell, hgt, hsh, hi, Flt.lt_fin_fin, ne_eq, not_false_eq_true, and_self,
    if_true, decide_eq_true_eq]
  by_cases ha : a < 0
  · simp [ha, Flt.lt]
  · simp [ha, Flt.lt]

/-- The sampler on a hit whose block type is not looked through: no recursive call. -/
theorem sample_of_scan_no_call (table : Fin BT_COUNT → BlockType K) (s : Scene K)
    (orig dir : vec3 K) (depth : Int) (tnear : Flt K) (tile : Nat) (type : BlockType K)
    (hscan : scan s orig dir = (tnear, some tile)) (htype : typeAt table tile = some type)
    (h : ¬(Flt.lt (Flt.fin 0) type.m_transparency = true ∧ depth < MAX_RAY_DEPTH)) :
    sample table s orig dir depth = some (shade type none) := by
  rw [sample]
  simp only [hscan, htype]
  rw [dif_neg h]

/-- C3. On a grid whose only block holds a type of the table with transparency 0 and
emission 0, a ray from an exact origin other than the centre of that cell, with a direction
that is a positive multiple of the vector from the origin to the centre, samples exactly
the surface colour of the type, at every depth. -/
theorem sample_single_opaque_block (table : Fin BT_COUNT → BlockType K) (s : Scene K)
    (c : Nat × Nat × Nat) (tile : Fin BT_COUNT) (o : V3 K) (k : K) (depth : Int)
    (hc : c.1 < CHUNK_W ∧ c.2.1 < CHUNK_H ∧ c.2.2 < CHUNK_D)
    (htile : s.m_blocks c.1 c.2.1 c.2.2 = tile.val) (hsolid : tile.val ≠ BT_AIR)
    (hair : ∀ bx byy bz, bx < CHUNK_W → byy < CHUNK_H → bz < CHUNK_D → (bx, byy, bz) ≠ c →
      s.m_blocks bx byy bz = BT_AIR)
    (htr : (table tile).m_transparency = Flt.fin 0)
    (hem : (table tile).m_emissionColor = V3.splat (Flt.fin 0))
    (ho : o ≠ cellCentre c) (hk : 0 < k) :
    sample table s o.fin
      (V3.fin ⟨k * ((cellCentre c).x - o.x), k * ((cellCentre c).y - o.y),
        k * ((cellCentre c).z - o.z)⟩) depth = some (table tile).m_surfaceColor := by
  obtain ⟨cx, cy, cz⟩ := c
  have hτ : (0 : K) ≤ 1 / k := by positivity
  have hkk : ∀ u v : K, u + 1 / k * (k * (v + 1 / 2 - u)) = v + 1 / 2 := by
    intro u v
    field_simp
    ring
  have hdir : k * ((cx : K) + 1 / 2 - o.x) ≠ 0 ∨ k * ((cy : K) + 1 / 2 - o.y) ≠ 0 ∨
      k * ((cz : K) + 1 / 2 - o.z) ≠ 0 := by
    by_contra hall
    push_neg at hall
    obtain ⟨h1, h2, h3⟩ := hall
    have e1 := (mul_eq_zero.mp h1).resolve_left hk.ne'
    have e2 := (mul_eq_zero.mp h2).resolve_left hk.ne'
    have e3 := (mul_eq_zero.mp h3).resolve_left hk.ne'
    apply ho
    obtain ⟨ox, oy, oz⟩ := o
    simp only [cellCentre, V3.mk.injEq]
    exact ⟨by linarith, by linarith, by linarith⟩
  have hI := intersect_straddles (⟨cx, cy, cz⟩ : V3 K) ⟨cx + 1, cy + 1, cz + 1⟩ o
    ⟨k * ((cx : K) + 1 / 2 - o.x), k * ((cy : K) + 1 / 2 - o.y), k * ((cz : K) + 1 / 2 - o.z)⟩
    (1 / k)
    (by simp only [hkk]; constructor <;> linarith)
    (by simp only [hkk]; constructor <;> linarith)
    (by simp only [hkk]; constructor <;> linarith)
  obtain ⟨_, hhit, hfin⟩ := hI
  obtain ⟨⟨a, ha⟩, ⟨b, hb⟩⟩ := hfin hdir
  have hi : intersect (blockBounds0 (cx, cy, cz)) (blockBounds1 (cx, cy, cz)) o.fin
      (V3.fin ⟨k * ((cellCentre (cx, cy, cz)).x - o.x), k * ((cellCentre (cx, cy, cz)).y - o.y),
        k * ((cellCentre (cx, cy, cz)).z - o.z)⟩) = (true, Flt.fin a, Flt.fin b) := by
    have e := hhit hτ
    exact Prod.ext e (Prod.ext ha hb)
  have hpos : s.m_blocks cx cy cz ≠ BT_AIR := by
    rw [htile]; exact hsolid
  have hscan : scan s o.fin
      (V3.fin ⟨k * ((cellCentre (cx, cy, cz)).x - o.x), k * ((cellCentre (cx, cy, cz)).y - o.y),
        k * ((cellCentre (cx, cy, cz)).z - o.z)⟩) =
      (if a < 0 then Flt.fin b else Flt.fin a, some tile.val) := by
    unfold scan
    rw [foldl_single _ cells (cx, cy, cz) _ ((mem_cells _).mpr hc) cells_nodup]
    · rw [scanCell_init_hit s _ _ (cx, cy, cz) a b hpos hi, htile]
    · intro c' hc' hne st
      rw [mem_cells] at hc'
      exact scanCell_air s _ _ st c' (hair c'.1 c'.2.1 c'.2.2 hc'.1 hc'.2.1 hc'.2.2 hne)
  have htype : typeAt table tile.val = some (table tile) := by
    simp [typeAt, tile.isLt]
  rw [sample_of_scan_no_call table s _ _ depth _ _ _ hscan htype]
  · simp only [shade, hem, V3.add_splat_zero]
  · rw [htr]
    simp [Flt.lt]

/-- A concrete instance of C3: one opaque block seen from straight below its centre. -/
theorem sample_single_opaque_block_witness :
    sample opaqueRedTable (sceneWith (oneBlockGrid 1)) (V3.fin (⟨1 / 2, 1 / 2, -5⟩ : V3 ℚ))
      (V3.fin ⟨1 * ((cellCentre (0, 0, 0)).x - 1 / 2), 1 * ((cellCentre (0, 0, 0)).y - 1 / 2),
        1 * ((cellCentre (0, 0, 0)).z - (-5))⟩) 0 =
      some (opaqueRedTable ⟨1, by decide⟩).m_surfaceColor :=
  sample_single_opaque_block opaqueRedTable (sceneWith (oneBlockGrid 1)) (0, 0, 0)
    ⟨1, by decide⟩ (⟨1 / 2, 1 / 2, -5⟩ : V3 ℚ) 1 0
    ⟨by decide, by decide, by decide⟩ rfl (by decide)
    (fun bx byy bz _ _ _ hne => by
      have h : ¬(bx = 0 ∧ byy = 0 ∧ bz = 0) := by
        rintro ⟨rfl, rfl, rfl⟩
        exact hne rfl
      simp [sceneWith, oneBlockGrid, h, BT_AIR])
    rfl rfl
    (by
      intro h
      have hz := congrArg V3.z h
      simp only [cellCentre] at hz
      norm_num at hz)
    (by norm_num)

/-- The scan that keeps the cell and the scan of `sample` agree: same `tnear`, and the
type kept by `sample` is the type of the selected cell. -/
theorem scan_eq_scanAt (s : Scene K) (orig dir : vec3 K) :
    scan s orig dir =
      ((scanAt s orig dir).1,
        (scanAt s orig dir).2.map fun c => s.m_blocks c.1 c.2.1 c.2.2) := by
  unfold scan scanAt
  have key : ∀ (l : List (Nat × Nat × Nat)) (st : Flt K × Option Nat)
      (st' : Flt K × Option (Nat × Nat × Nat)),
      st = (st'.1, st'.2.map fun c => s.m_blocks c.1 c.2.1 c.2.2) →
      l.foldl (scanCell s orig dir) st =
        ((l.foldl (scanCellAt s orig dir) st').1,
          (l.foldl (scanCellAt s orig dir) st').2.map fun c => s.m_blocks c.1 c.2.1 c.2.2) := by
    intro l
    induction l with
    | nil => intro st st' h; exact h
    | cons a l ih =>
      intro st st' h
      rw [List.foldl_cons, List.foldl_cons]
      apply ih
      subst h
      unfold scanCell scanCellAt
      dsimp only
      split_ifs <;> rfl
  exact key cells _ _ rfl

/-- The type kept by `sample` after the scan, from the cell that the scan selects. -/
theorem scan_of_scanAt (s : Scene K) (orig dir : vec3 K) (c : Nat × Nat × Nat)
    (h : (scanAt s orig dir).2 = some c) :
    scan s orig dir = ((scanAt s orig dir).1, some (s.m_blocks c.1 c.2.1 c.2.2)) := by
  rw [scan_eq_scanAt, h]
  rfl

/-- C6. When the nearest hit that `sample` selects is a cell whose type has transparency
exactly 0, `sample` returns exactly `surfaceColor + emissionColor` of that type at every
depth; a second grid on which the same cell, with the same id, is the nearest hit gives
the same result, whatever its other cells hold. -/
theorem sample_zero_transparency (table : Fin BT_COUNT → BlockType K) (s s' : Scene K)
    (orig dir : vec3 K) (depth depth' : Int) (c : Nat × Nat × Nat) (type : BlockType K)
    (hsel : (scanAt s orig dir).2 = some c)
    (htype : typeAt table (s.m_blocks c.1 c.2.1 c.2.2) = some type)
    (htr : type.m_transparency = Flt.fin 0)
    (hsel' : (scanAt s' orig dir).2 = some c)
    (hsame : s'.m_blocks c.1 c.2.1 c.2.2 = s.m_blocks c.1 c.2.1 c.2.2) :
    sample table s orig dir depth =
        some (V3.add type.m_surfaceColor type.m_emissionColor) ∧
      sample table s' orig dir depth' = sample table s orig dir depth := by
  have hop : ∀ d : Int, ¬(Flt.lt (Flt.fin 0) type.m_transparency = true ∧ d < MAX_RAY_DEPTH) := by
    intro d h
    rw [htr] at h
    simp [Flt.lt] at h
  have h1 := sample_of_scan_no_call table s orig dir depth _ _ type
    (scan_of_scanAt s orig dir c hsel) htype (hop depth)
  have h2 := sample_of_scan_no_call table s' orig dir depth' _ _ type
    (scan_of_scanAt s' orig dir c hsel') (by rw [hsame]; exact htype) (hop depth')
  exact ⟨h1, h2.trans h1.symm⟩

set_option maxRecDepth 100000 in
/-- A concrete instance of C6: an opaque block seen from below, alone and with a second
block behind it. -/
theorem sample_zero_transparency_witness :
    sample opaqueRedTable (sceneWith (oneBlockGrid 1)) (V3.fin (⟨1 / 2, 1 / 2, -5⟩ : V3 ℚ))
        (V3.fin ⟨0, 0, 1⟩) 0 =
        some (V3.add (opaqueRedTable ⟨1, by decide⟩).m_surfaceColor
          (opaqueRedTable ⟨1, by decide⟩).m_emissionColor) ∧
      sample opaqueRedTable (sceneWith twoBlockGrid) (V3.fin (⟨1 / 2, 1 / 2, -5⟩ : V3 ℚ))
        (V3.fin ⟨0, 0, 1⟩) 3 =
      sample opaqueRedTable (sceneWith (oneBlockGrid 1)) (V3.fin (⟨1 / 2, 1 / 2, -5⟩ : V3 ℚ))
        (V3.fin ⟨0, 0, 1⟩) 0 :=
  sample_zero_transparency opaqueRedTable (sceneWith (oneBlockGrid 1)) (sceneWith twoBlockGrid)
    (V3.fin (⟨1 / 2, 1 / 2, -5⟩ : V3 ℚ)) (V3.fin ⟨0, 0, 1⟩) 0 3 (0, 0, 0)
    (opaqueRedTable ⟨1, by decide⟩) (by decide!) rfl rfl (by decide!) rfl

/-! The recursion of the sampler -/

/-- The logged run computes the colour of `sample`. -/
theorem sampleLog_fst (table : Fin BT_COUNT → BlockType K) (s : Scene K) (dir : vec3 K) :
    ∀ (n : Nat) (depth : Int) (orig : vec3 K), (MAX_RAY_DEPTH - depth).toNat = n →
      (sampleLog table s orig dir depth).1 = sample table s orig dir depth := by
  intro n
  induction n with
  | zero =>
    intro depth orig hn
    have hd : ¬depth < MAX_RAY_DEPTH := by
      simp only [MAX_RAY_DEPTH] at hn ⊢
      omega
    rcases hscan : scan s orig dir with ⟨tnear, _ | tile⟩
    · rw [sample, sampleLog]
      simp only [hscan]
    · rcases htype : typeAt table tile with _ | type
      · rw [sample, sampleLog]
        simp only [hscan, htype]
      · rw [sample, sampleLog]
        simp only [hscan, htype]
        rw [dif_neg (fun h => hd h.2), dif_neg (fun h => hd h.2)]
  | succ n ih =>
    intro depth orig hn
    rcases hscan : scan s orig dir with ⟨tnear, _ | tile⟩
    · rw [sample, sampleLog]
      simp only [hscan]
    · rcases htype : typeAt table tile with _ | type
      · rw [sample, sampleLog]
        simp only [hscan, htype]
      · rw [sample, sampleLog]
        simp only [hscan, htype]
        by_cases hcond : Flt.lt (Flt.fin 0) type.m_transparency = true ∧ depth < MAX_RAY_DEPTH
        · rw [dif_pos hcond, dif_pos hcond]
          have h := ih (depth + 1) (V3.add orig (V3.scale dir tnear)) (by
            simp only [MAX_RAY_DEPTH] at hn ⊢
            omega)
          rw [← h]
          rcases sampleLog table s (V3.add orig (V3.scale dir tnear)) dir (depth + 1) with
            ⟨_ | back, log⟩
          · rfl
          · rfl
        · rw [dif_neg hcond, dif_neg hcond]

/-- A call at or beyond the depth cap makes no recursive call. -/
theorem sampleLog_snd_of_cap (table : Fin BT_COUNT → BlockType K) (s : Scene K)
    (orig dir : vec3 K) (depth : Int) (hd : ¬depth < MAX_RAY_DEPTH) :
    (sampleLog table s orig dir depth).2 = [depth] := by
  rcases hscan : scan s orig dir with ⟨tnear, _ | tile⟩
  · rw [sampleLog]
    simp only [hscan]
  · rcases htype : typeAt table tile with _ | type
    · rw [sampleLog]
      simp only [hscan, htype]
    · rw [sampleLog]
      simp only [hscan, htype]
      rw [dif_neg (fun h => hd h.2)]

/-- The calls of a run: at most `MAX_RAY_DEPTH - depth + 1` of them, none with a `depth`
argument below that of the first call or above the larger of it and `MAX_RAY_DEPTH`. -/
theorem sampleLog_snd_bound (table : Fin BT_COUNT → BlockType K) (s : Scene K) (dir : vec3 K) :
    ∀ (n : Nat) (depth : Int) (orig : vec3 K), (MAX_RAY_DEPTH - depth).toNat = n →
      (sampleLog table s orig dir depth).2.length ≤ n + 1 ∧
      ∀ d ∈ (sampleLog table s orig dir depth).2, depth ≤ d ∧ d ≤ Max.max depth MAX_RAY_DEPTH := by
  intro n
  induction n with
  | zero =>
    intro depth orig hn
    have hd : ¬depth < MAX_RAY_DEPTH := by
      simp only [MAX_RAY_DEPTH] at hn ⊢
      omega
    rw [sampleLog_snd_of_cap table s orig dir depth hd]
    refine ⟨by simp, fun d hdm => ?_⟩
    rw [List.mem_singleton] at hdm
    subst hdm
    exact ⟨le_refl _, le_max_left _ _⟩
  | succ n ih =>
    intro depth orig hn
    have hlt : depth < MAX_RAY_DEPTH := by
      simp only [MAX_RAY_DEPTH] at hn ⊢
      omega
    have hself : depth ≤ depth ∧ depth ≤ Max.max depth MAX_RAY_DEPTH :=
      ⟨le_refl _, le_max_left _ _⟩
    have hone : ([depth] : List Int).length ≤ n + 1 + 1 ∧
        ∀ d ∈ ([depth] : List Int), depth ≤ d ∧ d ≤ Max.max depth MAX_RAY_DEPTH := by
      refine ⟨by simp, fun d hdm => ?_⟩
      rw [List.mem_singleton] at hdm
      subst hdm
      exact hself
    rcases hscan : scan s orig dir with ⟨tnear, _ | tile⟩
    · rw [sampleLog]
      simp only [hscan]
      exact hone
    · rcases htype : typeAt table tile with _ | type
      · rw [sampleLog]
        simp only [hscan, htype]
        exact hone
      · rw [sampleLog]
        simp only [hscan, htype]
        by_cases hcond : Flt.lt (Flt.fin 0) type.m_transparency = true ∧ depth < MAX_RAY_DEPTH
        · rw [dif_pos hcond]
          have h := ih (depth + 1) (V3.add orig (V3.scale dir tnear)) (by
            simp only [MAX_RAY_DEPTH] at hn ⊢
            omega)
          have hcons : (depth :: (sampleLog table s (V3.add orig (V3.scale dir tnear)) dir
              (depth + 1)).2).length ≤ n + 1 + 1 ∧
              ∀ d ∈ depth :: (sampleLog table s (V3.add orig (V3.scale dir tnear)) dir
                (depth + 1)).2, depth ≤ d ∧ d ≤ Max.max depth MAX_RAY_DEPTH := by
            refine ⟨by simpa using h.1, fun d hdm => ?_⟩
            rcases List.mem_cons.mp hdm with e | e
            · subst e
              exact hself
            · have hb := h.2 d e
              have hm : Max.max (depth + 1) MAX_RAY_DEPTH = MAX_RAY_DEPTH :=
                max_eq_right (by omega)
              rw [hm] at hb
              exact ⟨by omega, hb.2.trans (le_max_right _ _)⟩
          rcases hrec : sampleLog table s (V3.add orig (V3.scale dir tnear)) dir (depth + 1) with
            ⟨_ | back, log⟩
          · rw [hrec] at hcons
            exact hcons
          · rw [hrec] at hcons
            exact hcons
        · rw [dif_neg hcond]
          exact hone

/-- C7. `sample` is a total function whose run makes at most `MAX_RAY_DEPTH - depth + 1`
calls; the calls made from `sample(orig, dir, 0)` have `depth` arguments between 0 and
`MAX_RAY_DEPTH = 5`; a call with `depth = 5` makes no recursive call and, when the scan
selects a block, returns `surfaceColor + emissionColor` of its type whatever its
transparency is. -/
theorem sample_depth_capped (table : Fin BT_COUNT → BlockType K) (s : Scene K)
    (orig dir : vec3 K) :
    MAX_RAY_DEPTH = 5 ∧
    (∀ depth : Int, (sampleLog table s orig dir depth).1 = sample table s orig dir depth) ∧
    (∀ depth : Int,
      (sampleLog table s orig dir depth).2.length ≤ (MAX_RAY_DEPTH - depth).toNat + 1) ∧
    (∀ d ∈ (sampleLog table s orig dir 0).2, 0 ≤ d ∧ d ≤ MAX_RAY_DEPTH) ∧
    (sampleLog table s orig dir MAX_RAY_DEPTH).2 = [MAX_RAY_DEPTH] ∧
    (∀ (c : Nat × Nat × Nat) (type : BlockType K),
      (scanAt s orig dir).2 = some c → typeAt table (s.m_blocks c.1 c.2.1 c.2.2) = some type →
      sample table s orig dir MAX_RAY_DEPTH =
        some (V3.add type.m_surfaceColor type.m_emissionColor)) := by
  refine ⟨rfl, fun depth => sampleLog_fst table s dir _ depth orig rfl,
    fun depth => (sampleLog_snd_bound table s dir _ depth orig rfl).1, ?_,
    sampleLog_snd_of_cap table s orig dir _ (lt_irrefl _), ?_⟩
  · intro d hd
    have h := (sampleLog_snd_bound table s dir _ 0 orig rfl).2 d hd
    rw [max_eq_right (by decide)] at h
    exact h
  · intro c type hsel htype
    exact sample_of_scan_no_call table s orig dir _ _ _ type (scan_of_scanAt s orig dir c hsel)
      htype (fun h => lt_irrefl _ h.2)

set_option maxRecDepth 100000 in
/-- An instance of the depth cap with the table of the source: a ray from below into a
single block of type `BT_RED` (transparency 0.7) makes the calls with depths 0 to 5, each
nested call starting on the face of the block, and the call at depth 5 shades the block as
if it were not transparent. -/
theorem sampleLog_reaches_cap :
    sampleLog types (sceneWith (oneBlockGrid 1)) (V3.fin (⟨1 / 2, 1 / 2, -5⟩ : V3 ℚ))
      (V3.fin ⟨0, 0, 1⟩) 0 = (some (V3.fin ⟨1, 1, 0⟩), [0, 1, 2, 3, 4, 5]) := by
  have h0 : scan (sceneWith (oneBlockGrid 1)) (V3.fin (⟨1 / 2, 1 / 2, -5⟩ : V3 ℚ))
      (V3.fin ⟨0, 0, 1⟩) = (Flt.fin 5, some 1) := by decide!
  have h1 : scan (sceneWith (oneBlockGrid 1)) (V3.fin (⟨1 / 2, 1 / 2, 0⟩ : V3 ℚ))
      (V3.fin ⟨0, 0, 1⟩) = (Flt.fin 0, some 1) := by decide!
  have hp0 : V3.add (V3.fin (⟨1 / 2, 1 / 2, -5⟩ : V3 ℚ)) (V3.scale (V3.fin ⟨0, 0, 1⟩) (Flt.fin 5)) =
      V3.fin ⟨1 / 2, 1 / 2, 0⟩ := by decide!
  have hp1 : V3.add (V3.fin (⟨1 / 2, 1 / 2, 0⟩ : V3 ℚ)) (V3.scale (V3.fin ⟨0, 0, 1⟩) (Flt.fin 0)) =
      V3.fin ⟨1 / 2, 1 / 2, 0⟩ := by decide!
  have hty : typeAt (types (K := ℚ)) 1 = some (types ⟨1, by decide⟩) := rfl
  have htr : Flt.lt (Flt.fin 0) (types (K := ℚ) ⟨1, by decide⟩).m_transparency = true := by
    decide!
  have hs5 : shade (types (K := ℚ) ⟨1, by decide⟩) none = V3.fin ⟨1, 1, 0⟩ := by decide!
  have hs : shade (types (K := ℚ) ⟨1, by decide⟩) (some (V3.fin ⟨1, 1, 0⟩)) =
      V3.fin ⟨1, 1, 0⟩ := by decide!
  have hstep : ∀ (depth : Int) (log : List Int), depth < MAX_RAY_DEPTH →
      sampleLog types (sceneWith (oneBlockGrid 1)) (V3.fin (⟨1 / 2, 1 / 2, 0⟩ : V3 ℚ))
        (V3.fin ⟨0, 0, 1⟩) (depth + 1) = (some (V3.fin ⟨1, 1, 0⟩), log) →
      sampleLog types (sceneWith (oneBlockGrid 1)) (V3.fin (⟨1 / 2, 1 / 2, 0⟩ : V3 ℚ))
        (V3.fin ⟨0, 0, 1⟩) depth = (some (V3.fin ⟨1, 1, 0⟩), depth :: log) := by
    intro depth log hlt hrec
    rw [sampleLog]
    simp only [h1, hty, hp1]
    rw [dif_pos ⟨htr, hlt⟩, hrec]
    simp only [hs]
  have l5 : sampleLog types (sceneWith (oneBlockGrid 1)) (V3.fin (⟨1 / 2, 1 / 2, 0⟩ : V3 ℚ))
      (V3.fin ⟨0, 0, 1⟩) 5 = (some (V3.fin ⟨1, 1, 0⟩), [5]) := by
    rw [sampleLog]
    simp only [h1, hty]
    rw [dif_neg (fun h => absurd h.2 (by decide)), hs5]
  have l4 := hstep 4 _ (by decide) l5
  have l3 := hstep 3 _ (by decide) l4
  have l2 := hstep 2 _ (by decide) l3
  have l1 := hstep 1 _ (by decide) l2
  rw [sampleLog]
  simp only [h0, hty, hp0]
  rw [dif_pos ⟨htr, by decide⟩, show (0 : Int) + 1 = 1 from rfl, l1]
  simp only [hs]

end FltLemmas

/-! The indices of the pixels -/

section PixelIndex

variable {K : Type}

theorem mem_pixelOrder (w h : Nat) (p : Nat × Nat) :
    p ∈ pixelOrder w h ↔ p.1 < w ∧ p.2 < h := by
  obtain ⟨x, y⟩ := p
  simp only [pixelOrder, List.mem_flatMap, List.mem_map, List.mem_range, Prod.mk.injEq]
  constructor
  · rintro ⟨a, ha, b, hb, rfl, rfl⟩
    exact ⟨ha, hb⟩
  · rintro ⟨hx, hy⟩
    exact ⟨x, hx, y, hy, rfl, rfl⟩

theorem pixelOrder_nodup (w h : Nat) : (pixelOrder w h).Nodup := by
  unfold pixelOrder
  rw [List.nodup_flatMap]
  refine ⟨fun x _ => ?_, ?_⟩
  · refine List.Nodup.map ?_ (List.nodup_range _)
    intro y1 y2 e
    simpa using e
  · refine (List.nodup_range w).imp ?_
    intro x1 x2 hne
    simp only [Function.onFun, List.disjoint_left, List.mem_map, not_exists, not_and]
    rintro c ⟨y1, _, rfl⟩ y2 _ e
    have e' : x2 = x1 := by simpa using congrArg (fun q => q.1) e
    exact hne e'.symm

/-- Below `2 ^ 32` pixels the index `y * m_width + x` does not wrap. -/
theorem pixelPos_eq (s : Scene K) (hdim : s.m_width * s.m_height < 2 ^ 32) (p : Nat × Nat)
    (hp : p.1 < s.m_width ∧ p.2 < s.m_height) :
    pixelPos s p = p.2 * s.m_width + p.1 ∧ pixelPos s p < imageSize s := by
  have h1 : (p.2 + 1) * s.m_width ≤ s.m_height * s.m_width :=
    Nat.mul_le_mul_right _ hp.2
  have h2 : p.2 * s.m_width + p.1 < s.m_width * s.m_height := by
    rw [Nat.add_mul, Nat.one_mul, Nat.mul_comm s.m_height] at h1
    omega
  unfold pixelPos imageSize
  rw [Nat.mod_eq_of_lt (lt_trans h2 hdim), Nat.mod_eq_of_lt hdim]
  exact ⟨rfl, h2⟩

/-- Below `2 ^ 32` pixels two pixels of the frame have different indices. -/
theorem pixelPos_inj (s : Scene K) (hdim : s.m_width * s.m_height < 2 ^ 32) (p q : Nat × Nat)
    (hp : p.1 < s.m_width ∧ p.2 < s.m_height) (hq : q.1 < s.m_width ∧ q.2 < s.m_height)
    (e : pixelPos s p = pixelPos s q) : p = q := by
  rw [(pixelPos_eq s hdim p hp).1, (pixelPos_eq s hdim q hq).1] at e
  have hw : 0 < s.m_width := lt_of_le_of_lt (Nat.zero_le _) hp.1
  rw [Nat.add_comm (p.2 * s.m_width), Nat.add_comm (q.2 * s.m_width)] at e
  have e1 := congrArg (fun n => n % s.m_width) e
  have e2 := congrArg (fun n => n / s.m_width) e
  simp only [Nat.add_mul_mod_self_right, Nat.mod_eq_of_lt hp.1, Nat.mod_eq_of_lt hq.1] at e1
  simp only [Nat.add_mul_div_right _ _ hw, Nat.div_eq_of_lt hp.1, Nat.div_eq_of_lt hq.1,
    Nat.zero_add] at e2
  exact Prod.ext e1 e2

/-- From `2 ^ 32` pixels on, some pixel of the frame has its index outside `m_image`. -/
theorem exists_pixel_outside (s : Scene K) (hbig : 2 ^ 32 ≤ s.m_width * s.m_height) :
    ∃ p ∈ pixelOrder s.m_width s.m_height, ¬pixelPos s p < imageSize s := by
  have hw : 0 < s.m_width := by
    rcases Nat.eq_zero_or_pos s.m_width with h | h
    · rw [h, Nat.zero_mul] at hbig
      exact absurd hbig (by decide)
    · exact h
  refine ⟨((2 ^ 32 - 1) % s.m_width, (2 ^ 32 - 1) / s.m_width), ?_, ?_⟩
  · rw [mem_pixelOrder]
    have hlt : 2 ^ 32 - 1 < s.m_width * s.m_height := lt_of_lt_of_le (by norm_num) hbig
    exact ⟨Nat.mod_lt _ hw, Nat.div_lt_of_lt_mul hlt⟩
  · have hpos : pixelPos s ((2 ^ 32 - 1) % s.m_width, (2 ^ 32 - 1) / s.m_width) = 2 ^ 32 - 1 := by
      unfold pixelPos
      rw [Nat.div_add_mod']
      norm_num
    have hsize : imageSize s < 2 ^ 32 := Nat.mod_lt _ (by decide)
    rw [hpos]
    omega

end PixelIndex

/-! The renderer -/

section RenderLemmas

variable {K : Type} [LinearOrderedField K]

theorem accumulate_fin (S B : V3 K) :
    accumulate S.fin B.fin =
      V3.fin ⟨1 / 2 * (S.x + B.x), 1 / 2 * (S.y + B.y), 1 / 2 * (S.z + B.z)⟩ := rfl

/-- One more frame in one channel of the weighted sum: the new sample enters with weight
`1 / 2` and the weights of the earlier samples are halved. -/
theorem weighted_append (f : V3 K → K) (l : List (V3 K)) (S : V3 K) :
    ∑ i in Finset.range (l ++ [S]).length,
        f ((l ++ [S]).getD i ⟨0, 0, 0⟩) / 2 ^ ((l ++ [S]).length - i) =
      1 / 2 * (f S + ∑ i in Finset.range l.length, f (l.getD i ⟨0, 0, 0⟩) / 2 ^ (l.length - i)) := by
  rw [List.length_append, List.length_singleton, Finset.sum_range_succ, mul_add, Finset.mul_sum]
  have hlast : f ((l ++ [S]).getD l.length ⟨0, 0, 0⟩) / 2 ^ (l.length + 1 - l.length) =
      1 / 2 * f S := by
    rw [List.getD_append_right _ _ _ _ (le_refl _)]
    simp only [Nat.sub_self, List.getD_cons_zero, Nat.add_sub_cancel_left, pow_one]
    ring
  rw [hlast, add_comm]
  congr 1
  apply Finset.sum_congr rfl
  intro i hi
  rw [Finset.mem_range] at hi
  rw [List.getD_append _ _ _ _ hi, show l.length + 1 - i = (l.length - i) + 1 by omega, pow_succ]
  field_simp
  exact Or.inl (mul_comm _ _)

/-- The buffer entry after the frames with exact samples is their weighted sum. -/
theorem accumulateAll_fin (l : List (V3 K)) :
    accumulateAll (l.map V3.fin) = V3.fin (weightedSum l) := by
  induction l using List.reverseRecOn with
  | nil => simp [accumulateAll, weightedSum, V3.splat, V3.fin]
  | append_singleton l S ih =>
    unfold accumulateAll at ih ⊢
    rw [List.map_append, List.foldl_append, ih]
    simp only [List.map_cons, List.map_nil, List.foldl_cons, List.foldl_nil, accumulate_fin]
    congr 1
    unfold weightedSum
    rw [weighted_append V3.x, weighted_append V3.y, weighted_append V3.z]

/-! The sampling loop -/

/-- Two rounds of the sampling loop for pixels of the frame can be exchanged. -/
theorem sampleStep_comm (m : MathFns K) (table : Fin BT_COUNT → BlockType K) (s : Scene K)
    (angle : Flt K) (hdim : s.m_width * s.m_height < 2 ^ 32) (p q : Nat × Nat)
    (hp : p.1 < s.m_width ∧ p.2 < s.m_height) (hq : q.1 < s.m_width ∧ q.2 < s.m_height)
    (z : Option (Nat → vec3 K)) :
    sampleStep m table s angle (sampleStep m table s angle z p) q =
      sampleStep m table s angle (sampleStep m table s angle z q) p := by
  by_cases hpq : p = q
  · rw [hpq]
  have hne : pixelPos s p ≠ pixelPos s q := fun e => hpq (pixelPos_inj s hdim p q hp hq e)
  have hbp := (pixelPos_eq s hdim p hp).2
  have hbq := (pixelPos_eq s hdim q hq).2
  cases z with
  | none => rfl
  | some image =>
    rcases hSp : sample table s s.m_position (rayDirAt m s angle p) 0 with _ | Sp <;>
      rcases hSq : sample table s s.m_position (rayDirAt m s angle q) 0 with _ | Sq <;>
      simp only [sampleStep, samplePixel, hSp, hSq, hbp, hbq, if_true, Option.bind]
    rw [Function.update_noteq hne.symm, Function.update_noteq hne,
      Function.update_comm hne.symm]

/-- An undefined run of the sampling loop stays undefined. -/
theorem foldl_sampleStep_none (m : MathFns K) (table : Fin BT_COUNT → BlockType K)
    (s : Scene K) (angle : Flt K) (l : List (Nat × Nat)) :
    l.foldl (sampleStep m table s angle) none = none := by
  induction l with
  | nil => rfl
  | cons a l ih => exact ih

/-- The sampling loop is undefined as soon as one of its pixels has its index outside
`m_image`. -/
theorem foldl_sampleStep_of_outside (m : MathFns K) (table : Fin BT_COUNT → BlockType K)
    (s : Scene K) (angle : Flt K) (l : List (Nat × Nat)) (p : Nat × Nat) (hp : p ∈ l)
    (hout : ¬pixelPos s p < imageSize s) (z : Option (Nat → vec3 K)) :
    l.foldl (sampleStep m table s angle) z = none := by
  induction l generalizing z with
  | nil => cases hp
  | cons a l ih =>
    rw [List.foldl_cons]
    rcases List.mem_cons.mp hp with e | e
    · subst e
      have hz : sampleStep m table s angle z p = none := by
        cases z with
        | none => rfl
        | some image =>
          simp only [sampleStep, samplePixel, Option.bind]
          split
          · rfl
          · rw [if_neg hout]
      rw [hz]
      exact foldl_sampleStep_none m table s angle l
    · exact ih e _

/-- The accumulation buffer after a defined run of the sampling loop over pixels of the
frame, each visited once: the entry of every visited pixel is `0.5 * (S + B)` for its sample
`S` and its entry `B` before the loop, and the other entries are unchanged. -/
theorem foldl_sampleStep_entries (m : MathFns K) (table : Fin BT_COUNT → BlockType K)
    (s : Scene K) (angle : Flt K) (hdim : s.m_width * s.m_height < 2 ^ 32)
    (l : List (Nat × Nat)) (hnd : l.Nodup)
    (hin : ∀ p ∈ l, p.1 < s.m_width ∧ p.2 < s.m_height) (image image' : Nat → vec3 K)
    (h : l.foldl (sampleStep m table s angle) (some image) = some image') :
    (∀ p ∈ l, ∃ S, sample table s s.m_position (rayDirAt m s angle p) 0 = some S ∧
      image' (pixelPos s p) = accumulate S (image (pixelPos s p))) ∧
    ∀ i, (∀ p ∈ l, pixelPos s p ≠ i) → image' i = image i := by
  induction l generalizing image with
  | nil =>
    have e : image = image' := by simpa using h
    subst e
    exact ⟨fun p hp => absurd hp (List.not_mem_nil p), fun _ _ => rfl⟩
  | cons a l ih =>
    rw [List.nodup_cons] at hnd
    rw [List.foldl_cons] at h
    have ha := hin a (List.mem_cons_self _ _)
    rcases hSa : sample table s s.m_position (rayDirAt m s angle a) 0 with _ | Sa
    · have hz : sampleStep m table s angle (some image) a = none := by
        simp only [sampleStep, samplePixel, hSa, Option.bind]
      rw [hz, foldl_sampleStep_none] at h
      cases h
    · have hz : sampleStep m table s angle (some image) a =
          some (Function.update image (pixelPos s a) (accumulate Sa (image (pixelPos s a)))) := by
        simp only [sampleStep, samplePixel, hSa, (pixelPos_eq s hdim a ha).2, if_true,
          Option.bind]
      rw [hz] at h
      have hrec := ih hnd.2 (fun p hp => hin p (List.mem_cons_of_mem _ hp)) _ h
      have hothers : ∀ p ∈ l, pixelPos s p ≠ pixelPos s a := by
        intro p hp e
        have := pixelPos_inj s hdim p a (hin p (List.mem_cons_of_mem _ hp)) ha e
        exact hnd.1 (this ▸ hp)
      constructor
      · intro p hp
        rcases List.mem_cons.mp hp with e | e
        · subst e
          refine ⟨Sa, hSa, ?_⟩
          rw [hrec.2 _ hothers, Function.update_same]
        · obtain ⟨S, hS, hval⟩ := hrec.1 p e
          refine ⟨S, hS, ?_⟩
          rw [hval, Function.update_noteq (hothers p e)]
      · intro i hi
        rw [hrec.2 i fun p hp => hi p (List.mem_cons_of_mem _ hp),
          Function.update_noteq (hi a (List.mem_cons_self _ _)).symm]

/-- The sampling loop is defined over pixels of a frame whose pixel count fits 32 bits, as
soon as `sample` is defined for each of them. -/
theorem foldl_sampleStep_some (m : MathFns K) (table : Fin BT_COUNT → BlockType K)
    (s : Scene K) (angle : Flt K) (hdim : s.m_width * s.m_height < 2 ^ 32)
    (l : List (Nat × Nat)) (hin : ∀ p ∈ l, p.1 < s.m_width ∧ p.2 < s.m_height)
    (hS : ∀ p ∈ l, ∃ S, sample table s s.m_position (rayDirAt m s angle p) 0 = some S)
    (image : Nat → vec3 K) :
    ∃ image', l.foldl (sampleStep m table s angle) (some image) = some image' := by
  induction l generalizing image with
  | nil => exact ⟨image, rfl⟩
  | cons a l ih =>
    rw [List.foldl_cons]
    obtain ⟨S, hSa⟩ := hS a (List.mem_cons_self _ _)
    have hz : sampleStep m table s angle (some image) a =
        some (Function.update image (pixelPos s a) (accumulate S (image (pixelPos s a)))) := by
      simp only [sampleStep, samplePixel, hSa,
        (pixelPos_eq s hdim a (hin a (List.mem_cons_self _ _))).2, if_true, Option.bind]
    rw [hz]
    exact ih (fun p hp => hin p (List.mem_cons_of_mem _ hp))
      (fun p hp => hS p (List.mem_cons_of_mem _ hp)) _

/-- The quantization loop is defined over pixels of a frame whose pixel count fits 32 bits,
as soon as the three conversions are defined on the buffer entry of each of them. -/
theorem foldl_quantizeStep_some [FloorRing K] (s : Scene K) (image : Nat → vec3 K)
    (hdim : s.m_width * s.m_height < 2 ^ 32) (l : List (Nat × Nat))
    (hin : ∀ p ∈ l, p.1 < s.m_width ∧ p.2 < s.m_height)
    (hw : ∀ p ∈ l, ∃ w, packPixel (image (pixelPos s p)) = some w) (pixels : Nat → Nat) :
    ∃ pixels', l.foldl (quantizeStep s image) (some pixels) = some pixels' := by
  induction l generalizing pixels with
  | nil => exact ⟨pixels, rfl⟩
  | cons a l ih =>
    rw [List.foldl_cons]
    obtain ⟨w, hwa⟩ := hw a (List.mem_cons_self _ _)
    have hz : quantizeStep s image (some pixels) a =
        some (Function.update pixels (pixelPos s a) w) := by
      simp only [quantizeStep, quantizePixel, hwa,
        (pixelPos_eq s hdim a (hin a (List.mem_cons_self _ _))).2, if_true, Option.bind]
    rw [hz]
    exact ih (fun p hp => hin p (List.mem_cons_of_mem _ hp))
      (fun p hp => hw p (List.mem_cons_of_mem _ hp)) _

/-- A frame of `render` is defined when the pixel count fits 32 bits, `sample` is defined
for every pixel and the three conversions are defined on `0.5 * (S + B)` for every pixel. -/
theorem render_defined [FloorRing K] (m : MathFns K) (table : Fin BT_COUNT → BlockType K)
    (s : Scene K) (hdim : s.m_width * s.m_height < 2 ^ 32)
    (hS : ∀ x y : Nat, x < s.m_width → y < s.m_height →
      ∃ S, sample table s s.m_position
          (rayDirAt m s (m.tanf (m.M_PI * Flt.fin (1 / 2) * s.m_fov / Flt.fin 180)) (x, y)) 0 =
            some S ∧
        ∃ w, packPixel
          (V3.lscale (Flt.fin (1 / 2)) (V3.add S (s.m_image (pixelPos s (x, y))))) = some w) :
    ∃ s', render m table s = some s' := by
  have hin : ∀ p ∈ pixelOrder s.m_width s.m_height, p.1 < s.m_width ∧ p.2 < s.m_height :=
    fun p hp => (mem_pixelOrder _ _ _).mp hp
  obtain ⟨image, hfold⟩ := foldl_sampleStep_some m table s
    (m.tanf (m.M_PI * Flt.fin (1 / 2) * s.m_fov / Flt.fin 180)) hdim
    (pixelOrder s.m_width s.m_height) hin
    (fun p hp => by
      obtain ⟨S, h, _⟩ := hS p.1 p.2 (hin p hp).1 (hin p hp).2
      exact ⟨S, h⟩) s.m_image
  have hent := (foldl_sampleStep_entries m table s _ hdim _ (pixelOrder_nodup _ _) hin _ _
    hfold).1
  obtain ⟨pixels, hq⟩ := foldl_quantizeStep_some s image hdim
    (pixelOrder s.m_width s.m_height) hin
    (fun p hp => by
      obtain ⟨S, h, w, hw⟩ := hS p.1 p.2 (hin p hp).1 (hin p hp).2
      obtain ⟨S', h', hval⟩ := hent p hp
      have e : S' = S := Option.some.inj (h'.symm.trans h)
      rw [hval, e]
      exact ⟨w, hw⟩) s.pixels
  unfold render renderWith
  simp only [hfold, hq]
  exact ⟨_, rfl⟩

/-- C8. After a frame of `render`, the entry of every pixel of the accumulation buffer is
`0.5 * (S + B)` for the sample `S` of the pixel and the entry `B` before the frame, which is
`(S + B) / 2` on exact values; the frame is defined, and so leaves these entries, whenever
the pixel count fits 32 bits, `sample` is defined for every pixel and the three conversions
of the quantization pass are defined on `0.5 * (S + B)`; from a zero entry, the frames with
the exact samples `S_1 .. S_n` leave the sum of `S_i / 2 ^ (n - i + 1)`, which is
`0.5 * S_1` after one frame and `0.25 * S_1 + 0.5 * S_2` after two. -/
theorem render_accumulates_half_sum [FloorRing K] (m : MathFns K)
    (table : Fin BT_COUNT → BlockType K) (s : Scene K) :
    (∀ s' : Scene K, render m table s = some s' →
      ∀ x y : Nat, x < s.m_width → y < s.m_height →
        ∃ S, sample table s s.m_position
            (rayDirAt m s (m.tanf (m.M_PI * Flt.fin (1 / 2) * s.m_fov / Flt.fin 180)) (x, y)) 0 =
              some S ∧
          s'.m_image (pixelPos s (x, y)) =
            V3.lscale (Flt.fin (1 / 2)) (V3.add S (s.m_image (pixelPos s (x, y))))) ∧
    (s.m_width * s.m_height < 2 ^ 32 →
      (∀ x y : Nat, x < s.m_width → y < s.m_height →
        ∃ S, sample table s s.m_position
            (rayDirAt m s (m.tanf (m.M_PI * Flt.fin (1 / 2) * s.m_fov / Flt.fin 180)) (x, y)) 0 =
              some S ∧
          ∃ w, packPixel
            (V3.lscale (Flt.fin (1 / 2)) (V3.add S (s.m_image (pixelPos s (x, y))))) = some w) →
      ∃ s', render m table s = some s') ∧
    (∀ S B : V3 K, V3.lscale (Flt.fin (1 / 2)) (V3.add S.fin B.fin) =
      V3.fin ⟨1 / 2 * (S.x + B.x), 1 / 2 * (S.y + B.y), 1 / 2 * (S.z + B.z)⟩) ∧
    (∀ l : List (V3 K), accumulateAll (l.map V3.fin) = V3.fin (weightedSum l)) ∧
    (∀ S1 : V3 K, accumulateAll [S1.fin] = V3.fin ⟨1 / 2 * S1.x, 1 / 2 * S1.y, 1 / 2 * S1.z⟩) ∧
    (∀ S1 S2 : V3 K, accumulateAll [S1.fin, S2.fin] =
      V3.fin ⟨1 / 4 * S1.x + 1 / 2 * S2.x, 1 / 4 * S1.y + 1 / 2 * S2.y,
        1 / 4 * S1.z + 1 / 2 * S2.z⟩) := by
  refine ⟨?_, render_defined m table s, accumulate_fin, accumulateAll_fin, ?_, ?_⟩
  · intro s' hs' x y hx hy
    unfold render renderWith at hs'
    simp only at hs'
    rcases hfold : (pixelOrder s.m_width s.m_height).foldl
        (sampleStep m table s (m.tanf (m.M_PI * Flt.fin (1 / 2) * s.m_fov / Flt.fin 180)))
        (some s.m_image) with _ | image
    · rw [hfold] at hs'
      cases hs'
    · rw [hfold] at hs'
      simp only at hs'
      rcases hq : (pixelOrder s.m_width s.m_height).foldl (quantizeStep s image)
          (some s.pixels) with _ | pixels
      · rw [hq] at hs'
        cases hs'
      · rw [hq] at hs'
        simp only [Option.some.injEq] at hs'
        subst hs'
        have hmem : (x, y) ∈ pixelOrder s.m_width s.m_height :=
          (mem_pixelOrder _ _ _).mpr ⟨hx, hy⟩
        rcases Nat.lt_or_ge (s.m_width * s.m_height) (2 ^ 32) with hdim | hbig
        · exact (foldl_sampleStep_entries m table s _ hdim _ (pixelOrder_nodup _ _)
            (fun p hp => (mem_pixelOrder _ _ _).mp hp) _ _ hfold).1 (x, y) hmem
        · obtain ⟨p, hp, hout⟩ := exists_pixel_outside s hbig
          rw [foldl_sampleStep_of_outside m table s _ _ p hp hout] at hfold
          cases hfold
  · intro S1
    show accumulate S1.fin (V3.fin ⟨0, 0, 0⟩) = _
    rw [accumulate_fin]
    simp
  · intro S1 S2
    show accumulate S2.fin (accumulate S1.fin (V3.fin ⟨0, 0, 0⟩)) = _
    rw [accumulate_fin, accumulate_fin]
    congr 2 <;> ring

/-! Quantization -/

theorem std.min_one_fin (q : K) : std.min (Flt.fin 1) (Flt.fin q) = Flt.fin (Min.min q 1) := by
  unfold std.min
  rw [Flt.lt_fin_fin]
  by_cases h : q < 1
  · simp [h, min_eq_left h.le]
  · simp [h, min_eq_right (not_lt.mp h)]

/-- The channel byte of an exact value. -/
theorem quantize_fin [FloorRing K] (q : K) (hq : 0 ≤ q) :
    quantize (Flt.fin q) = some (Int.toNat ⌊255 * Min.min q 1⌋) ∧
      Int.toNat ⌊255 * Min.min q 1⌋ ≤ 255 := by
  have h0 : (0 : K) ≤ 255 * Min.min q 1 := by
    have := le_min hq (zero_le_one : (0 : K) ≤ 1)
    positivity
  have h1 : 255 * Min.min q 1 ≤ (255 : K) := by
    have := min_le_right q (1 : K)
    linarith
  constructor
  · unfold quantize
    rw [std.min_one_fin, Flt.fin_mul_fin, mul_comm]
    have hr : -1 < 255 * Min.min q 1 ∧ 255 * Min.min q 1 < 2 ^ 32 :=
      ⟨by linarith, lt_of_le_of_lt h1 (by norm_num)⟩
    simp only [toUInt32, hr, and_self, if_true]
  · have hfl : ⌊255 * Min.min q 1⌋ ≤ 255 := by
      have := Int.floor_le (255 * Min.min q 1)
      have h2 : ((⌊255 * Min.min q 1⌋ : Int) : K) ≤ ((255 : Int) : K) := by
        push_cast
        linarith
      exact_mod_cast h2
    omega

/-- C9. In the quantization pass a channel value of exactly 1.0 gives the byte 255, the
value 0.0 gives 0, every value above 1.0 (`+∞` included) gives 255, and every exact value
`v ≥ 0` gives `floor(255 * min(v, 1))`, which lies in `0 .. 255`. -/
theorem quantize_clamps [FloorRing K] :
    quantize (Flt.fin (1 : K)) = some 255 ∧
    quantize (Flt.fin (0 : K)) = some 0 ∧
    (∀ v : Flt K, Flt.lt (Flt.fin 1) v = true → quantize v = some 255) ∧
    (∀ q : K, 0 ≤ q →
      quantize (Flt.fin q) = some (Int.toNat ⌊255 * Min.min q 1⌋) ∧
        Int.toNat ⌊255 * Min.min q 1⌋ ≤ 255) := by
  have hone : quantize (Flt.fin (1 : K)) = some 255 := by
    rw [(quantize_fin (1 : K) zero_le_one).1]
    simp
  refine ⟨hone, ?_, ?_, quantize_fin⟩
  · rw [(quantize_fin (0 : K) (le_refl 0)).1]
    simp
  · intro v hv
    cases v with
    | nan => simp [Flt.lt] at hv
    | ninf => simp [Flt.lt] at hv
    | pinf =>
      have e : std.min (Flt.fin (1 : K)) Flt.pinf = Flt.fin 1 := by
        simp [std.min, Flt.lt]
      have e1 : std.min (Flt.fin (1 : K)) (Flt.fin 1) = Flt.fin 1 := by
        rw [std.min_one_fin, min_self]
      rw [← hone]
      unfold quantize
      rw [e, e1]
    | fin q =>
      have hq : 1 < q := by simpa [Flt.lt] using hv
      rw [(quantize_fin q (by linarith)).1, min_eq_right hq.le]
      simp

/-- An instance of the quantization on the rationals: the channel value 0.5 gives the byte
127, the floor of 127.5. -/
theorem quantize_half : quantize (Flt.fin (1 / 2 : ℚ)) = some 127 := by decide!

/-! The order of the pixels -/

/-- C10. One frame does not depend on the order in which the sampling loop visits the
pixels: for every scene and every permutation of the sequence of pixels, `render` with that
order gives the same accumulation buffer and the same pixel words (or the same undefined
run) as the column-by-column order. -/
theorem render_order_independent [FloorRing K] (m : MathFns K)
    (table : Fin BT_COUNT → BlockType K) (s : Scene K) (order : List (Nat × Nat))
    (hperm : order.Perm (pixelOrder s.m_width s.m_height)) :
    renderWith m table order s = render m table s := by
  have key : ∀ angle : Flt K,
      order.foldl (sampleStep m table s angle) (some s.m_image) =
        (pixelOrder s.m_width s.m_height).foldl (sampleStep m table s angle) (some s.m_image) := by
    intro angle
    rcases Nat.lt_or_ge (s.m_width * s.m_height) (2 ^ 32) with hdim | hbig
    · apply List.Perm.foldl_eq' hperm
      intro x hx y hy z
      exact sampleStep_comm m table s angle hdim x y
        ((mem_pixelOrder _ _ _).mp (hperm.subset hx)) ((mem_pixelOrder _ _ _).mp (hperm.subset hy)) z
    · obtain ⟨p, hp, hout⟩ := exists_pixel_outside s hbig
      rw [foldl_sampleStep_of_outside m table s angle _ p hp hout,
        foldl_sampleStep_of_outside m table s angle _ p (hperm.symm.subset hp) hout]
  unfold render renderWith
  simp only [key]

/-- A concrete instance of C10: the pixels of a 320 by 240 frame visited in reverse order. -/
theorem render_order_independent_witness :
    renderWith exampleMath types (pixelOrder 320 240).reverse (sceneWith airGrid) =
      render exampleMath types (sceneWith airGrid) :=
  render_order_independent exampleMath types (sceneWith airGrid) (pixelOrder 320 240).reverse
    (List.reverse_perm _)

end RenderLemmas


/-! The packed pixel -/

section PackLemmas

variable {K : Type} [LinearOrderedField K]

end PackLemmas

/-! The constructor and the camera -/

section SceneLemmas

variable {K : Type} [LinearOrderedField K]

/-- C12. After the construction of a scene, whatever `rand()` returns, every cell of the
grid holds an id below `BT_COUNT`, an index into the table of block types. -/
theorem new_blocks_in_range (w h : Nat) (pixels rand : Nat → Nat) (i j k : Nat)
    (hi : i < CHUNK_W) (hj : j < CHUNK_H) (hk : k < CHUNK_D) :
    (Scene.new (K := K) w h pixels rand).m_blocks i j k < BT_COUNT := by
  have hj' : j < CHUNK_W := hj
  have hk' : k < CHUNK_W := hk
  simp only [Scene.new, hi, hj', hk', and_self, if_true]
  exact lt_of_le_of_lt (Nat.mod_le _ _) (Nat.mod_lt _ (by decide))

/-- A concrete instance of C12: the last cell of the grid, for `rand()` returning its call
number. -/
theorem new_blocks_in_range_witness :
    (Scene.new (K := ℚ) 320 240 (fun _ => 0) (fun n => n)).m_blocks 7 7 7 < BT_COUNT :=
  new_blocks_in_range 320 240 (fun _ => 0) (fun n => n) 7 7 7 (by decide) (by decide)
    (by decide)

theorem Flt.add_assoc3 (a b c : Flt K) : a + b + c = a + (b + c) := by
  show Flt.add (Flt.add a b) c = Flt.add a (Flt.add b c)
  cases a <;> cases b <;> cases c <;> simp [Flt.add, add_assoc]

theorem V3.add_add_assoc (u v w : vec3 K) : V3.add (V3.add u v) w = V3.add u (V3.add v w) := by
  simp [V3.add, Flt.add_assoc3]

/-- C14. `move(delta)` replaces the position by `position + delta` and `rotate(delta)` the
rotation by `rotation + delta`, each leaving every other field of the scene unchanged; hence
`move(a)` followed by `move(b)` is `move(a + b)`, and `move` and `rotate` commute. -/
theorem move_rotate_frame (s : Scene K) (a b : vec3 K) :
    s.move a = { s with m_position := V3.add s.m_position a } ∧
    s.rotate a = { s with m_rotation := V3.add s.m_rotation a } ∧
    ((s.move a).m_position = V3.add s.m_position a ∧ (s.move a).m_rotation = s.m_rotation ∧
      (s.move a).m_width = s.m_width ∧ (s.move a).m_height = s.m_height ∧
      (s.move a).m_invWidth = s.m_invWidth ∧ (s.move a).m_invHeight = s.m_invHeight ∧
      (s.move a).m_aspectRatio = s.m_aspectRatio ∧ (s.move a).m_fov = s.m_fov ∧
      (s.move a).m_skyColor = s.m_skyColor ∧ (s.move a).m_blocks = s.m_blocks ∧
      (s.move a).m_image = s.m_image ∧ (s.move a).pixels = s.pixels) ∧
    ((s.rotate a).m_rotation = V3.add s.m_rotation a ∧ (s.rotate a).m_position = s.m_position ∧
      (s.rotate a).m_width = s.m_width ∧ (s.rotate a).m_height = s.m_height ∧
      (s.rotate a).m_invWidth = s.m_invWidth ∧ (s.rotate a).m_invHeight = s.m_invHeight ∧
      (s.rotate a).m_aspectRatio = s.m_aspectRatio ∧ (s.rotate a).m_fov = s.m_fov ∧
      (s.rotate a).m_skyColor = s.m_skyColor ∧ (s.rotate a).m_blocks = s.m_blocks ∧
      (s.rotate a).m_image = s.m_image ∧ (s.rotate a).pixels = s.pixels) ∧
    (s.move a).move b = s.move (V3.add a b) ∧
    (s.rotate a).rotate b = s.rotate (V3.add a b) ∧
    (s.move a).rotate b = (s.rotate b).move a := by
  refine ⟨rfl, rfl, ⟨rfl, rfl, rfl, rfl, rfl, rfl, rfl, rfl, rfl, rfl, rfl, rfl⟩,
    ⟨rfl, rfl, rfl, rfl, rfl, rfl, rfl, rfl, rfl, rfl, rfl, rfl⟩, ?_, ?_, rfl⟩
  · simp only [Scene.move, V3.add_add_assoc]
  · simp only [Scene.rotate, V3.add_add_assoc]

end SceneLemmas

/-! The generator -/

section TwisterLemmas

theorem shiftRight_le_self (n k : Nat) : n >>> k ≤ n := by
  rw [Nat.shiftRight_eq_div_pow]
  exact Nat.div_le_self _ _

/-- The tempering keeps a word below `2 ^ 32`. -/
theorem temper_lt (y : Nat) (hy : y < 2 ^ 32) : temper y < 2 ^ 32 := by
  unfold temper
  have hB : TEMPERING_MASK_B < 2 ^ 32 := by decide
  have hC : TEMPERING_MASK_C < 2 ^ 32 := by decide
  have h1 : y ^^^ (y >>> 11) < 2 ^ 32 :=
    Nat.xor_lt_two_pow hy (lt_of_le_of_lt (shiftRight_le_self _ _) hy)
  have h2 : (y ^^^ (y >>> 11)) ^^^ (((y ^^^ (y >>> 11)) <<< 7) % 2 ^ 64 &&& TEMPERING_MASK_B) <
      2 ^ 32 := Nat.xor_lt_two_pow h1 (Nat.and_lt_two_pow _ hB)
  have h3 := Nat.xor_lt_two_pow h2
    (Nat.and_lt_two_pow (((y ^^^ (y >>> 11)) ^^^
      (((y ^^^ (y >>> 11)) <<< 7) % 2 ^ 64 &&& TEMPERING_MASK_B)) <<< 15 % 2 ^ 64) hC)
  exact Nat.xor_lt_two_pow h3 (lt_of_le_of_lt (shiftRight_le_self _ _) h3)

/-- One round of the regeneration keeps the words below `2 ^ 32`. -/
theorem twist_lt (mt : Nat → Nat) (kk src nxt : Nat) (hsrc : mt src < 2 ^ 32)
    (h : ∀ i, i < STATE_VECTOR_LENGTH → mt i < 2 ^ 32) :
    ∀ i, i < STATE_VECTOR_LENGTH → twist mt kk src nxt i < 2 ^ 32 := by
  intro i hi
  unfold twist
  by_cases e : i = kk
  · subst e
    simp only [Function.update_same]
    have hy : (mt i &&& UPPER_MASK) ||| (mt nxt &&& LOWER_MASK) < 2 ^ 32 :=
      Nat.or_lt_two_pow (Nat.and_lt_two_pow _ (by decide)) (Nat.and_lt_two_pow _ (by decide))
    refine Nat.xor_lt_two_pow (Nat.xor_lt_two_pow hsrc
      (lt_of_le_of_lt (shiftRight_le_self _ _) hy)) ?_
    split <;> decide
  · simp only [Function.update_noteq e]
    exact h i hi

/-- A loop of regeneration rounds keeps the words below `2 ^ 32`. -/
theorem foldl_twist_lt (src : Nat → Nat) (l : List Nat)
    (hsrc : ∀ kk ∈ l, src kk < STATE_VECTOR_LENGTH) (mt : Nat → Nat)
    (h : ∀ i, i < STATE_VECTOR_LENGTH → mt i < 2 ^ 32) :
    ∀ i, i < STATE_VECTOR_LENGTH →
      l.foldl (fun mt kk => twist mt kk (src kk) (kk + 1)) mt i < 2 ^ 32 := by
  induction l generalizing mt with
  | nil => exact h
  | cons a l ih =>
    rw [List.foldl_cons]
    exact ih (fun kk hkk => hsrc kk (List.mem_cons_of_mem _ hkk)) _
      (twist_lt mt a (src a) (a + 1) (h _ (hsrc a (List.mem_cons_self _ _))) h)

/-- The words left by `seedRand` are below `2 ^ 32`. -/
theorem seedRand_lt (rand : MTRand) (seed : Nat) :
    ∀ i, i < STATE_VECTOR_LENGTH → (seedRand rand seed).mt i < 2 ^ 32 := by
  unfold seedRand
  simp only
  have key : ∀ (l : List Nat) (mt : Nat → Nat) (i : Nat), (i ∈ l ∨ mt i < 2 ^ 32) →
      l.foldl (fun mt i => Function.update mt i ((6069 * mt (i - 1)) % 2 ^ 64 &&& 0xffffffff))
        mt i < 2 ^ 32 := by
    intro l
    induction l with
    | nil =>
      intro mt i hi
      rcases hi with e | e
      · cases e
      · exact e
    | cons a l ih =>
      intro mt i hi
      rw [List.foldl_cons]
      apply ih
      by_cases e : i = a
      · right
        rw [e, Function.update_same]
        exact Nat.and_lt_two_pow _ (by norm_num)
      · rcases hi with h' | h'
        · rcases List.mem_cons.mp h' with h'' | h''
          · exact absurd h'' e
          · exact Or.inl h''
        · right
          rw [Function.update_noteq e]
          exact h'
  intro i hi
  apply key
  by_cases e : i = 0
  · right
    rw [e, Function.update_same]
    exact Nat.and_lt_two_pow _ (by norm_num)
  · left
    rw [List.mem_range']
    refine ⟨i - 1, ?_, ?_⟩
    · simp only [STATE_VECTOR_LENGTH] at hi ⊢
      omega
    · omega

/-- The state after the `if` of `genRandLong` has its words below `2 ^ 32` and its index
in `0 .. 623`. -/
theorem regenerate_lt (rand : MTRand) (h : ∀ i, i < STATE_VECTOR_LENGTH → rand.mt i < 2 ^ 32) :
    (∀ i, i < STATE_VECTOR_LENGTH → (regenerate rand).mt i < 2 ^ 32) ∧
      (regenerate rand).index.toNat < STATE_VECTOR_LENGTH := by
  unfold regenerate
  split
  · next hre =>
    simp only
    refine ⟨?_, by decide⟩
    have h0 : ∀ i, i < STATE_VECTOR_LENGTH →
        (if rand.index ≥ STATE_VECTOR_LENGTH + 1 ∨ rand.index < 0 then seedRand rand 4357
          else rand).mt i < 2 ^ 32 := by
      split
      · exact seedRand_lt rand 4357
      · exact h
    have hA := foldl_twist_lt (fun kk => kk + STATE_VECTOR_M)
      (List.range (STATE_VECTOR_LENGTH - STATE_VECTOR_M))
      (fun kk hkk => by
        rw [List.mem_range] at hkk
        simp only [STATE_VECTOR_LENGTH, STATE_VECTOR_M] at hkk ⊢
        omega) _ h0
    have hB := foldl_twist_lt (fun kk => kk + STATE_VECTOR_M - STATE_VECTOR_LENGTH)
      (List.range' (STATE_VECTOR_LENGTH - STATE_VECTOR_M) (STATE_VECTOR_M - 1))
      (fun kk hkk => by
        rw [List.mem_range'] at hkk
        simp only [STATE_VECTOR_LENGTH, STATE_VECTOR_M] at hkk ⊢
        omega) _ hA
    exact twist_lt _ _ _ _ (hB _ (by decide)) hB
  · next hno =>
    refine ⟨h, ?_⟩
    push_neg at hno
    have h1 := hno.1
    have h2 := hno.2
    simp only [STATE_VECTOR_LENGTH] at h1 ⊢
    omega

/-- The word returned by `genRandLong` is at most `0xffffffff`. -/
theorem genRandLong_lt (rand : MTRand) (h : ∀ i, i < STATE_VECTOR_LENGTH → rand.mt i < 2 ^ 32) :
    (genRandLong rand).1 < 2 ^ 32 := by
  unfold genRandLong
  simp only
  exact temper_lt _ ((regenerate_lt rand h).1 _ (regenerate_lt rand h).2)

/-- C15 (amended). For every generator state whose words are below `2 ^ 32`, whatever its
index is, `genRand` returns an exact value `r` with `0 ≤ r ≤ 1`. -/
theorem genRand_unit_interval {K : Type} [LinearOrderedField K] (rand : MTRand)
    (h : ∀ i, i < STATE_VECTOR_LENGTH → rand.mt i < 2 ^ 32) :
    ∃ r : K, (genRand rand).1 = Flt.fin r ∧ 0 ≤ r ∧ r ≤ 1 := by
  have hlt := genRandLong_lt rand h
  refine ⟨((genRandLong rand).1 : K) / 4294967295, ?_, ?_, ?_⟩
  · unfold genRand
    simp only
    rw [Flt.fin_div_fin _ _ (by norm_num)]
  · positivity
  · rw [div_le_one (by norm_num)]
    have : (genRandLong rand).1 ≤ 4294967295 := by omega
    exact_mod_cast this

/-- A concrete instance of C15 (amended): the state of the global `mtRand = {0}`. -/
theorem genRand_unit_interval_witness :
    ∃ r : ℚ, (genRand ⟨fun _ => 0, 0⟩).1 = Flt.fin r ∧ 0 ≤ r ∧ r ≤ 1 :=
  genRand_unit_interval ⟨fun _ => 0, 0⟩ (fun _ _ => by norm_num)

/-- C15 as stated fails: for the state with `index = 0` whose words are all `0x12dd9bb3`,
the tempered word is `0xffffffff` and `genRand` returns exactly 1. -/
theorem genRand_one_counterexample :
    (∀ i, i < STATE_VECTOR_LENGTH → (fun _ : Nat => 316513203) i < 2 ^ 32) ∧
    (genRandLong ⟨fun _ => 316513203, 0⟩).1 = 4294967295 ∧
    (genRand (K := ℚ) ⟨fun _ => 316513203, 0⟩).1 = Flt.fin 1 := by
  have hl : (genRandLong ⟨fun _ => 316513203, 0⟩).1 = 4294967295 := by decide
  refine ⟨fun _ _ => by norm_num, hl, ?_⟩
  unfold genRand
  simp only [hl]
  rw [Flt.fin_div_fin _ _ (by norm_num)]
  norm_num

end TwisterLemmas

/-! Zero direction components -/

section ParallelLemmas

variable {K : Type} [LinearOrderedField K]

/-- Narrowing by a slab that does not constrain the ray changes nothing. -/
theorem narrow_unbounded_right (p : Flt K × Flt K) : narrow p (Flt.ninf, Flt.pinf) = p := by
  obtain ⟨x, y⟩ := p
  cases x <;> cases y <;> simp [narrow, glm.max, glm.min, Flt.lt]

/-- Narrowing a slab that does not constrain the ray by crossings that are not NaN gives
these crossings. -/
theorem narrow_unbounded_left (p : Flt K × Flt K) (h1 : p.1 ≠ Flt.nan) (h2 : p.2 ≠ Flt.nan) :
    narrow (Flt.ninf, Flt.pinf) p = p := by
  obtain ⟨x, y⟩ := p
  cases x <;> cases y <;> simp_all [narrow, glm.max, glm.min, Flt.lt]

/-- The crossings of a slab are not NaN unless the direction component is zero and the
origin lies on one of the two planes. -/
theorem slabPair_ne_nan (b0 b1 o d : K) (h : ¬(d = 0 ∧ (o = b0 ∨ o = b1))) :
    (slabPair (Flt.fin b0) (Flt.fin b1) (Flt.fin o) (Flt.fin 1 / Flt.fin d)).1 ≠ Flt.nan ∧
    (slabPair (Flt.fin b0) (Flt.fin b1) (Flt.fin o) (Flt.fin 1 / Flt.fin d)).2 ≠ Flt.nan := by
  by_cases hd : d = 0
  · subst hd
    have h0 : b0 - o ≠ 0 := fun e => h ⟨rfl, Or.inl (by linarith)⟩
    have h1 : b1 - o ≠ 0 := fun e => h ⟨rfl, Or.inr (by linarith)⟩
    simp only [slabPair, Flt.one_div_zero, Flt.fin_sub_fin]
    rcases lt_or_gt_of_ne h0 with n0 | p0 <;> rcases lt_or_gt_of_ne h1 with n1 | p1
    · rw [Flt.fin_mul_pinf_of_neg _ n0, Flt.fin_mul_pinf_of_neg _ n1]
      simp [glm.min, glm.max, Flt.lt]
    · rw [Flt.fin_mul_pinf_of_neg _ n0, Flt.fin_mul_pinf_of_pos _ p1]
      simp [glm.min, glm.max, Flt.lt]
    · rw [Flt.fin_mul_pinf_of_pos _ p0, Flt.fin_mul_pinf_of_neg _ n1]
      simp [glm.min, glm.max, Flt.lt]
    · rw [Flt.fin_mul_pinf_of_pos _ p0, Flt.fin_mul_pinf_of_pos _ p1]
      simp [glm.min, glm.max, Flt.lt]
  · rw [slabPair_fin b0 b1 o d hd]
    simp

theorem V3.get_rdiv (x : Flt K) (d : vec3 K) (a : Nat) :
    (V3.rdiv x d).get a = x / d.get a := by
  unfold V3.rdiv V3.get
  split_ifs <;> rfl

/-- The slab test over two axes as the narrowing of their two slabs. -/
theorem slabTestOn_pair (a b : Nat) (b0 b1 o d : vec3 K) :
    slabTestOn [a, b] b0 b1 o d =
      (Flt.ge
        (narrow (slabPair (b0.get a) (b1.get a) (o.get a) (Flt.fin 1 / d.get a))
          (slabPair (b0.get b) (b1.get b) (o.get b) (Flt.fin 1 / d.get b))).2
        (glm.max
          (narrow (slabPair (b0.get a) (b1.get a) (o.get a) (Flt.fin 1 / d.get a))
            (slabPair (b0.get b) (b1.get b) (o.get b) (Flt.fin 1 / d.get b))).1 (Flt.fin 0)),
       narrow (slabPair (b0.get a) (b1.get a) (o.get a) (Flt.fin 1 / d.get a))
          (slabPair (b0.get b) (b1.get b) (o.get b) (Flt.fin 1 / d.get b))) := by
  simp only [slabTestOn, List.foldl_cons, List.foldl_nil, intersectAxis, V3.get_rdiv, slabPair,
    narrow]

/-- The slab test of `intersect` is the slab test over the three axes in their order. -/
theorem intersect_eq_slabTestOn (b0 b1 o d : vec3 K) :
    intersect b0 b1 o d = slabTestOn [0, 1, 2] b0 b1 o d := rfl

/-- The zero component with the origin between the planes. For exact inputs and a direction whose component on an axis
is zero, with the origin strictly between the two planes of that axis and no other axis
having both a zero component and the origin on one of its planes, `intersect` returns what
the slab test over the other two axes returns. -/
theorem intersect_zero_component_inside (b0 b1 o d : V3 K) (i : Nat) (hi : i < 3)
    (hd : d.get i = 0) (hin : b0.get i < o.get i ∧ o.get i < b1.get i)
    (hnan : ∀ j, j < 3 → j ≠ i →
      ¬(d.get j = 0 ∧ (o.get j = b0.get j ∨ o.get j = b1.get j))) :
    intersect b0.fin b1.fin o.fin d.fin =
      slabTestOn ([0, 1, 2].erase i) b0.fin b1.fin o.fin d.fin := by
  have hU := slabPair_parallel (b0.get i) (b1.get i) (o.get i) hin.1 hin.2
  rw [← hd] at hU
  interval_cases i
  · have hy := slabPair_ne_nan b0.y b1.y o.y d.y (hnan 1 (by decide) (by decide))
    have hU' : slabPair (Flt.fin b0.x) (Flt.fin b1.x) (Flt.fin o.x) (Flt.fin 1 / Flt.fin d.x) =
        (Flt.ninf, Flt.pinf) := hU
    have e : ([0, 1, 2] : List Nat).erase 0 = [1, 2] := by decide
    rw [e, slabTestOn_pair, intersect_eq]
    simp only [V3.fin, V3.get, hU', narrow_unbounded_left _ hy.1 hy.2]
    rfl
  · have hU' : slabPair (Flt.fin b0.y) (Flt.fin b1.y) (Flt.fin o.y) (Flt.fin 1 / Flt.fin d.y) =
        (Flt.ninf, Flt.pinf) := hU
    have e : ([0, 1, 2] : List Nat).erase 1 = [0, 2] := by decide
    rw [e, slabTestOn_pair, intersect_eq]
    simp only [V3.fin, V3.get, hU', narrow_unbounded_right]
    rfl
  · have hU' : slabPair (Flt.fin b0.z) (Flt.fin b1.z) (Flt.fin o.z) (Flt.fin 1 / Flt.fin d.z) =
        (Flt.ninf, Flt.pinf) := hU
    have e : ([0, 1, 2] : List Nat).erase 2 = [0, 1] := by decide
    rw [e, slabTestOn_pair, intersect_eq]
    simp only [V3.fin, V3.get, hU', narrow_unbounded_right]
    rfl

/-- The crossings of a slab for a zero direction component and an origin below both
planes. -/
theorem slabPair_below (b0 b1 o : K) (h0 : o < b0) (h1 : b0 ≤ b1) :
    slabPair (Flt.fin b0) (Flt.fin b1) (Flt.fin o) (Flt.fin 1 / Flt.fin 0) =
      (Flt.pinf, Flt.pinf) := by
  simp only [slabPair, Flt.one_div_zero, Flt.fin_sub_fin,
    Flt.fin_mul_pinf_of_pos (b0 - o) (by linarith), Flt.fin_mul_pinf_of_pos (b1 - o) (by linarith)]
  simp [glm.min, glm.max, Flt.lt]

/-- The crossings of a slab for a zero direction component and an origin above both
planes. -/
theorem slabPair_above (b0 b1 o : K) (h0 : b1 < o) (h1 : b0 ≤ b1) :
    slabPair (Flt.fin b0) (Flt.fin b1) (Flt.fin o) (Flt.fin 1 / Flt.fin 0) =
      (Flt.ninf, Flt.ninf) := by
  simp only [slabPair, Flt.one_div_zero, Flt.fin_sub_fin,
    Flt.fin_mul_pinf_of_neg (b0 - o) (by linarith), Flt.fin_mul_pinf_of_neg (b1 - o) (by linarith)]
  simp [glm.min, glm.max, Flt.lt]

theorem glm.max_high_left (a b : Flt K) (h : a = Flt.pinf ∨ a = Flt.nan) :
    glm.max a b = Flt.pinf ∨ glm.max a b = Flt.nan := by
  rcases h with h | h <;> subst h <;> cases b <;> simp [glm.max, Flt.lt]

theorem glm.max_high_right (a : Flt K) :
    glm.max a Flt.pinf = Flt.pinf ∨ glm.max a Flt.pinf = Flt.nan := by
  cases a <;> simp [glm.max, Flt.lt]

theorem glm.min_low_left (a b : Flt K) (h : a = Flt.ninf ∨ a = Flt.nan) :
    glm.min a b = Flt.ninf ∨ glm.min a b = Flt.nan := by
  rcases h with h | h <;> subst h <;> cases b <;> simp [glm.min, Flt.lt]

theorem glm.min_low_right (a : Flt K) :
    glm.min a Flt.ninf = Flt.ninf ∨ glm.min a Flt.ninf = Flt.nan := by
  cases a <;> simp [glm.min, Flt.lt]

theorem glm.min_ne_pinf_left (a b : Flt K) (h : a ≠ Flt.pinf) : glm.min a b ≠ Flt.pinf := by
  cases a <;> cases b <;> simp_all [glm.min, Flt.lt]
  split <;> simp

theorem glm.min_fin_ne_pinf (a : Flt K) (f : K) : glm.min a (Flt.fin f) ≠ Flt.pinf := by
  cases a <;> simp [glm.min, Flt.lt]
  split <;> simp

/-- The test `tmax >= max(tmin, 0)` fails when `tmax` is `-∞` or NaN. -/
theorem ge_low_eq_false (x y : Flt K) (h : x = Flt.ninf ∨ x = Flt.nan) :
    Flt.ge x (glm.max y (Flt.fin 0)) = false := by
  rcases h with h | h
  · subst h
    cases y with
    | fin a =>
      rw [glm.max_fin_fin]
      rfl
    | nan => simp [glm.max, Flt.lt, Flt.ge]
    | ninf => simp [glm.max, Flt.lt, Flt.ge]
    | pinf => simp [glm.max, Flt.lt, Flt.ge]
  · subst h
    cases glm.max y (Flt.fin 0) <;> rfl

/-- The test `tmax >= max(tmin, 0)` fails when `tmin` is `+∞` or NaN and `tmax` is not
`+∞`. -/
theorem ge_high_eq_false (x y : Flt K) (h : y = Flt.pinf ∨ y = Flt.nan) (hx : x ≠ Flt.pinf) :
    Flt.ge x (glm.max y (Flt.fin 0)) = false := by
  rcases h with h | h <;> subst h <;> cases x <;> simp_all [glm.max, Flt.lt, Flt.ge]

/-- The zero component with the origin outside the planes. For exact inputs and a
direction that is not the zero vector, with a zero component on an axis where the origin
lies strictly outside the two planes, `intersect` returns false. -/
theorem intersect_zero_component_outside (b0 b1 o d : V3 K) (i : Nat) (hi : i < 3)
    (hd : d.get i = 0) (hb : b0.get i ≤ b1.get i)
    (hout : o.get i < b0.get i ∨ b1.get i < o.get i) (hdir : ∃ j, j < 3 ∧ d.get j ≠ 0) :
    (intersect b0.fin b1.fin o.fin d.fin).1 = false := by
  rw [intersect_eq]
  simp only [V3.fin, narrow]
  have hfar : glm.min (glm.min
      (slabPair (Flt.fin b0.x) (Flt.fin b1.x) (Flt.fin o.x) (Flt.fin 1 / Flt.fin d.x)).2
      (slabPair (Flt.fin b0.y) (Flt.fin b1.y) (Flt.fin o.y) (Flt.fin 1 / Flt.fin d.y)).2)
      (slabPair (Flt.fin b0.z) (Flt.fin b1.z) (Flt.fin o.z) (Flt.fin 1 / Flt.fin d.z)).2 ≠
        Flt.pinf := by
    obtain ⟨j, hj, hdj⟩ := hdir
    interval_cases j
    · have hx : d.x ≠ 0 := hdj
      rw [slabPair_fin _ _ _ _ hx]
      exact glm.min_ne_pinf_left _ _ (glm.min_ne_pinf_left _ _ (by simp))
    · have hy : d.y ≠ 0 := hdj
      rw [slabPair_fin _ _ _ _ hy]
      exact glm.min_ne_pinf_left _ _ (glm.min_fin_ne_pinf _ _)
    · have hz : d.z ≠ 0 := hdj
      rw [slabPair_fin _ _ _ _ hz]
      exact glm.min_fin_ne_pinf _ _
  rcases hout with hlo | hhi
  · have hP := slabPair_below (b0.get i) (b1.get i) (o.get i) hlo hb
    rw [← hd] at hP
    apply ge_high_eq_false _ _ _ hfar
    interval_cases i
    · have hP' : slabPair (Flt.fin b0.x) (Flt.fin b1.x) (Flt.fin o.x)
          (Flt.fin 1 / Flt.fin d.x) = (Flt.pinf, Flt.pinf) := hP
      rw [hP']
      exact glm.max_high_left _ _ (glm.max_high_left _ _ (Or.inl rfl))
    · have hP' : slabPair (Flt.fin b0.y) (Flt.fin b1.y) (Flt.fin o.y)
          (Flt.fin 1 / Flt.fin d.y) = (Flt.pinf, Flt.pinf) := hP
      rw [hP']
      exact glm.max_high_left _ _ (glm.max_high_right _)
    · have hP' : slabPair (Flt.fin b0.z) (Flt.fin b1.z) (Flt.fin o.z)
          (Flt.fin 1 / Flt.fin d.z) = (Flt.pinf, Flt.pinf) := hP
      rw [hP']
      exact glm.max_high_right _
  · have hP := slabPair_above (b0.get i) (b1.get i) (o.get i) hhi hb
    rw [← hd] at hP
    apply ge_low_eq_false
    interval_cases i
    · have hP' : slabPair (Flt.fin b0.x) (Flt.fin b1.x) (Flt.fin o.x)
          (Flt.fin 1 / Flt.fin d.x) = (Flt.ninf, Flt.ninf) := hP
      rw [hP']
      exact glm.min_low_left _ _ (glm.min_low_left _ _ (Or.inl rfl))
    · have hP' : slabPair (Flt.fin b0.y) (Flt.fin b1.y) (Flt.fin o.y)
          (Flt.fin 1 / Flt.fin d.y) = (Flt.ninf, Flt.ninf) := hP
      rw [hP']
      exact glm.min_low_left _ _ (glm.min_low_right _)
    · have hP' : slabPair (Flt.fin b0.z) (Flt.fin b1.z) (Flt.fin o.z)
          (Flt.fin 1 / Flt.fin d.z) = (Flt.ninf, Flt.ninf) := hP
      rw [hP']
      exact glm.min_low_right _

/-- C13 (amended). For exact inputs and a direction whose component on an axis is zero:
when the origin lies strictly between the two planes of that axis and no other axis has
both a zero component and the origin on one of its planes, `intersect` returns what the
slab test over the other two axes returns; when the origin lies strictly outside the two
planes of that axis and the direction is not the zero vector, `intersect` returns false. -/
theorem intersect_zero_component (b0 b1 o d : V3 K) (i : Nat) (hi : i < 3)
    (hd : d.get i = 0) :
    (b0.get i < o.get i ∧ o.get i < b1.get i →
      (∀ j, j < 3 → j ≠ i → ¬(d.get j = 0 ∧ (o.get j = b0.get j ∨ o.get j = b1.get j))) →
      intersect b0.fin b1.fin o.fin d.fin =
        slabTestOn ([0, 1, 2].erase i) b0.fin b1.fin o.fin d.fin) ∧
    (b0.get i ≤ b1.get i → (o.get i < b0.get i ∨ b1.get i < o.get i) →
      (∃ j, j < 3 ∧ d.get j ≠ 0) → (intersect b0.fin b1.fin o.fin d.fin).1 = false) :=
  ⟨fun hin hnan => intersect_zero_component_inside b0 b1 o d i hi hd hin hnan,
    fun hb hout hdir => intersect_zero_component_outside b0 b1 o d i hi hd hb hout hdir⟩

/-- A concrete instance of C13 (amended): the unit box and the direction `(0, 1, 4)`, from
an origin between the planes `x = 0` and `x = 1` and from an origin beside the box. -/
theorem intersect_zero_component_witness :
    intersect (V3.fin (⟨0, 0, 0⟩ : V3 ℚ)) (V3.fin ⟨1, 1, 1⟩) (V3.fin ⟨1 / 2, 0, -1⟩)
        (V3.fin ⟨0, 1, 4⟩) =
      slabTestOn [1, 2] (V3.fin (⟨0, 0, 0⟩ : V3 ℚ)) (V3.fin ⟨1, 1, 1⟩) (V3.fin ⟨1 / 2, 0, -1⟩)
        (V3.fin ⟨0, 1, 4⟩) ∧
    (intersect (V3.fin (⟨0, 0, 0⟩ : V3 ℚ)) (V3.fin ⟨1, 1, 1⟩) (V3.fin ⟨2, 0, -1⟩)
        (V3.fin ⟨0, 1, 4⟩)).1 = false :=
  ⟨(intersect_zero_component (⟨0, 0, 0⟩ : V3 ℚ) ⟨1, 1, 1⟩ ⟨1 / 2, 0, -1⟩ ⟨0, 1, 4⟩ 0
      (by decide) rfl).1 ⟨by norm_num [V3.get], by norm_num [V3.get]⟩
      (fun j hj hne => by
        interval_cases j
        · exact absurd rfl hne
        · norm_num [V3.get]
        · norm_num [V3.get]),
    (intersect_zero_component (⟨0, 0, 0⟩ : V3 ℚ) ⟨1, 1, 1⟩ ⟨2, 0, -1⟩ ⟨0, 1, 4⟩ 0
      (by decide) rfl).2 (by norm_num [V3.get]) (Or.inr (by norm_num [V3.get]))
      ⟨1, by decide, by norm_num [V3.get]⟩⟩

/-- C13 as stated fails: for the unit box, the origin `(2, 0, -1)` beside the box and the
direction `(0, 1, 4)`, the slab test over the axes `y` and `z` reports a hit and `intersect`
reports none, the axis `x` excluding the box. -/
theorem intersect_zero_component_counterexample :
    (intersect (V3.fin (⟨0, 0, 0⟩ : V3 ℚ)) (V3.fin ⟨1, 1, 1⟩) (V3.fin ⟨2, 0, -1⟩)
        (V3.fin ⟨0, 1, 4⟩)).1 = false ∧
    (slabTestOn [1, 2] (V3.fin (⟨0, 0, 0⟩ : V3 ℚ)) (V3.fin ⟨1, 1, 1⟩) (V3.fin ⟨2, 0, -1⟩)
        (V3.fin ⟨0, 1, 4⟩)).1 = true := by
  decide!

end ParallelLemmas

/-! The order of floats -/

section OrderLemmas

variable {K : Type} [LinearOrderedField K]

theorem Flt.lt_self (x : Flt K) : Flt.lt x x = false := by
  cases x <;> simp [Flt.lt]

theorem Flt.lt_chain (x y z : Flt K) (h1 : Flt.lt x y = true) (h2 : Flt.lt y z = true) :
    Flt.lt x z = true := by
  cases x <;> cases y <;> cases z <;> simp_all [Flt.lt]
  exact lt_trans h1 h2

theorem Flt.lt_pinf_of_lt (x y : Flt K) (h : Flt.lt x y = true) : Flt.lt x Flt.pinf = true := by
  cases x <;> cases y <;> simp_all [Flt.lt]

/-- From `a < c` and `¬ b < c` for a `b` that is not NaN: `a < b`. -/
theorem Flt.lt_of_lt_of_not_lt (a b c : Flt K) (h1 : Flt.lt a c = true)
    (h2 : Flt.lt b c = false) (hb : b ≠ Flt.nan) : Flt.lt a b = true := by
  cases a <;> cases b <;> cases c <;> simp_all [Flt.lt]
  exact lt_of_lt_of_le h1 h2

theorem Flt.not_lt_of_not_lt_pinf (a b : Flt K) (h : Flt.lt b Flt.pinf = false) :
    Flt.lt b a = false := by
  cases a <;> cases b <;> simp_all [Flt.lt]

theorem Flt.eq_pinf_of_not_lt_pinf (b : Flt K) (h : Flt.lt b Flt.pinf = false)
    (hb : b ≠ Flt.nan) : b = Flt.pinf := by
  cases b <;> simp_all [Flt.lt]

theorem Flt.ge_of_not_lt (a b : Flt K) (h : Flt.lt a b = false) (ha : a ≠ Flt.nan)
    (hb : b ≠ Flt.nan) : Flt.ge a b = true := by
  cases a <;> cases b <;> simp_all [Flt.lt, Flt.ge]

theorem Flt.ne_nan_of_ge (a b : Flt K) (h : Flt.ge a b = true) :
    a ≠ Flt.nan ∧ b ≠ Flt.nan := by
  cases a <;> cases b <;> simp_all [Flt.ge]

theorem glm.max_zero_ne_nan (a : Flt K) (h : glm.max a (Flt.fin 0) ≠ Flt.nan) :
    a ≠ Flt.nan := by
  cases a <;> simp_all [glm.max, Flt.lt]

end OrderLemmas

/-! The selection of the nearest hit -/

section NearestLemmas

variable {K : Type} [LinearOrderedField K]

/-- A loop that keeps the element with the least key among those that pass a test, the
first one among equals: what it has kept after the list. -/
theorem foldl_nearest {α : Type} (P : α → Bool) (key : α → Flt K) (R : α → α → Prop)
    (hkey : ∀ a, P a = true → key a ≠ Flt.nan) (hasym : ∀ a b, R a b → ¬R b a)
    (l : List α) (hR : l.Pairwise R) :
    ((l.foldl (fun st a => if P a = true ∧ Flt.lt (key a) st.1 = true then (key a, some a)
        else st) (Flt.pinf, none)).2 = none →
      (l.foldl (fun st a => if P a = true ∧ Flt.lt (key a) st.1 = true then (key a, some a)
        else st) (Flt.pinf, none)).1 = Flt.pinf ∧
      ∀ a ∈ l, P a = true → Flt.lt (key a) Flt.pinf = false) ∧
    (∀ c, (l.foldl (fun st a => if P a = true ∧ Flt.lt (key a) st.1 = true then (key a, some a)
        else st) (Flt.pinf, none)).2 = some c →
      c ∈ l ∧ P c = true ∧
      (l.foldl (fun st a => if P a = true ∧ Flt.lt (key a) st.1 = true then (key a, some a)
        else st) (Flt.pinf, none)).1 = key c ∧
      Flt.lt (key c) Flt.pinf = true ∧
      (∀ a ∈ l, P a = true → Flt.lt (key a) (key c) = false) ∧
      (∀ a ∈ l, P a = true → R a c → Flt.lt (key c) (key a) = true)) := by
  induction l using List.reverseRecOn with
  | nil =>
    refine ⟨fun _ => ⟨rfl, fun a ha => absurd ha (List.not_mem_nil a)⟩, fun c hc => ?_⟩
    simp at hc
  | append_singleton l x ih =>
    rw [List.pairwise_append] at hR
    obtain ⟨hRl, _, hRx⟩ := hR
    have hbefore : ∀ a ∈ l, R a x := fun a ha => hRx a ha x (List.mem_singleton_self x)
    obtain ⟨ihnone, ihsome⟩ := ih hRl
    rw [List.foldl_append, List.foldl_cons, List.foldl_nil]
    rcases hst : l.foldl (fun st a => if P a = true ∧ Flt.lt (key a) st.1 = true then
        (key a, some a) else st) (Flt.pinf, none) with ⟨tnear, sel⟩
    simp only [hst] at ihnone ihsome ⊢
    by_cases hx : P x = true ∧ Flt.lt (key x) tnear = true
    · rw [if_pos hx]
      refine ⟨fun h => by simp at h, fun c hc => ?_⟩
      simp only [Option.some.injEq] at hc
      subst hc
      have hxnan := hkey x hx.1
      refine ⟨List.mem_append_right _ (List.mem_singleton_self x), hx.1, rfl,
        Flt.lt_pinf_of_lt _ _ hx.2, ?_, ?_⟩
      · intro a ha hPa
        rcases List.mem_append.mp ha with h' | h'
        · cases sel with
          | none =>
            exact Flt.not_lt_of_not_lt_pinf _ _ ((ihnone rfl).2 a h' hPa)
          | some c =>
            obtain ⟨_, _, htn, _, hmin, _⟩ := ihsome c rfl
            have h1 := hmin a h' hPa
            by_contra hcon
            have hlt : Flt.lt (key a) (key x) = true := by
              cases h : Flt.lt (key a) (key x)
              · exact absurd h hcon
              · rfl
            have h2 := Flt.lt_chain _ _ _ hlt (htn ▸ hx.2)
            rw [h1] at h2
            cases h2
        · rw [List.mem_singleton] at h'
          rw [h']
          exact Flt.lt_self _
      · intro a ha hPa hRa
        rcases List.mem_append.mp ha with h' | h'
        · cases sel with
          | none =>
            have hp := Flt.eq_pinf_of_not_lt_pinf _ ((ihnone rfl).2 a h' hPa) (hkey a hPa)
            rw [hp]
            exact Flt.lt_pinf_of_lt _ _ hx.2
          | some c =>
            obtain ⟨_, _, htn, _, hmin, _⟩ := ihsome c rfl
            exact Flt.lt_of_lt_of_not_lt _ _ _ (htn ▸ hx.2) (hmin a h' hPa) (hkey a hPa)
        · rw [List.mem_singleton] at h'
          rw [h'] at hRa
          exact absurd hRa (hasym x x hRa)
    · rw [if_neg hx]
      have hxnot : P x = true → Flt.lt (key x) tnear = false := by
        intro hPx
        cases h : Flt.lt (key x) tnear
        · rfl
        · exact absurd ⟨hPx, h⟩ hx
      refine ⟨fun h => ?_, fun c hc => ?_⟩
      · obtain ⟨htn, hall⟩ := ihnone h
        refine ⟨htn, fun a ha hPa => ?_⟩
        rcases List.mem_append.mp ha with h' | h'
        · exact hall a h' hPa
        · rw [List.mem_singleton] at h'
          rw [h', ← htn]
          exact hxnot (h' ▸ hPa)
      · obtain ⟨hcl, hPc, htn, hfin, hmin, hfirst⟩ := ihsome c hc
        refine ⟨List.mem_append_left _ hcl, hPc, htn, hfin, ?_, ?_⟩
        · intro a ha hPa
          rcases List.mem_append.mp ha with h' | h'
          · exact hmin a h' hPa
          · rw [List.mem_singleton] at h'
            rw [h', ← htn]
            exact hxnot (h' ▸ hPa)
        · intro a ha hPa hRa
          rcases List.mem_append.mp ha with h' | h'
          · exact hfirst a h' hPa hRa
          · rw [List.mem_singleton] at h'
            rw [h'] at hRa
            exact absurd (hbefore c hcl) (hasym x c hRa)

theorem scanBefore_asymm (a b : Nat × Nat × Nat) (h : scanBefore a b) : ¬scanBefore b a := by
  unfold scanBefore at h ⊢
  omega

/-- Two different cells are ordered by the scan. -/
theorem scanBefore_total (a b : Nat × Nat × Nat) (h1 : ¬scanBefore a b)
    (h2 : ¬scanBefore b a) : a = b := by
  obtain ⟨a1, a2, a3⟩ := a
  obtain ⟨b1, b2, b3⟩ := b
  unfold scanBefore at h1 h2
  simp only [Prod.mk.injEq]
  simp only at h1 h2
  omega

/-- The list of the cells is in scan order. -/
theorem cells_pairwise : cells.Pairwise scanBefore := by
  unfold cells
  rw [List.pairwise_flatMap]
  refine ⟨fun bx _ => ?_, ?_⟩
  · rw [List.pairwise_flatMap]
    refine ⟨fun b _ => ?_, ?_⟩
    · rw [List.pairwise_map]
      refine (List.pairwise_lt_range CHUNK_D).imp ?_
      intro z1 z2 hz
      exact Or.inr ⟨rfl, Or.inr ⟨rfl, hz⟩⟩
    · refine (List.pairwise_lt_range CHUNK_H).imp ?_
      intro y1 y2 hy c1 hc1 c2 hc2
      obtain ⟨z1, _, rfl⟩ := List.mem_map.mp hc1
      obtain ⟨z2, _, rfl⟩ := List.mem_map.mp hc2
      exact Or.inr ⟨rfl, Or.inl hy⟩
  · refine (List.pairwise_lt_range CHUNK_W).imp ?_
    intro x1 x2 hx c1 hc1 c2 hc2
    obtain ⟨y1, _, hc1'⟩ := List.mem_flatMap.mp hc1
    obtain ⟨y2, _, hc2'⟩ := List.mem_flatMap.mp hc2
    obtain ⟨z1, _, rfl⟩ := List.mem_map.mp hc1'
    obtain ⟨z2, _, rfl⟩ := List.mem_map.mp hc2'
    exact Or.inl hx

/-- The body of the scan in terms of the hit test and the adjusted distance of the cell. -/
theorem scanCellAt_eq (s : Scene K) (orig dir : vec3 K) (st : Flt K × Option (Nat × Nat × Nat))
    (c : Nat × Nat × Nat) :
    scanCellAt s orig dir st c =
      if hitCell s orig dir c = true ∧ Flt.lt (adjDist orig dir c) st.1 = true then
        (adjDist orig dir c, some c) else st := by
  unfold scanCellAt hitCell adjDist
  by_cases hair : s.m_blocks c.1 c.2.1 c.2.2 = BT_AIR
  · simp [hair, BT_AIR]
  · have hgt : s.m_blocks c.1 c.2.1 c.2.2 > BT_AIR := Nat.pos_of_ne_zero hair
    have hsh : s.m_blocks c.1 c.2.1 c.2.2 <<< BT_COUNT ≠ 0 := by
      rw [Nat.shiftLeft_eq]
      exact Nat.mul_ne_zero hair (by decide)
    simp only [hgt, hsh, ne_eq, not_false_eq_true, and_self, if_true, hair, decide_True,
      Bool.true_and]
    by_cases hhit : (intersect (blockBounds0 c) (blockBounds1 c) orig dir).1 = true
    · simp only [hhit, if_true, true_and]
    · simp only [hhit, false_and, if_false]
      simp

theorem intersect_fst (b0 b1 o d : vec3 K) :
    (intersect b0 b1 o d).1 =
      Flt.ge (intersect b0 b1 o d).2.2 (glm.max (intersect b0 b1 o d).2.1 (Flt.fin 0)) := rfl

/-- The adjusted distance of a cell that is hit is not NaN. -/
theorem adjDist_ne_nan (s : Scene K) (orig dir : vec3 K) (c : Nat × Nat × Nat)
    (h : hitCell s orig dir c = true) : adjDist orig dir c ≠ Flt.nan := by
  unfold hitCell at h
  rw [Bool.and_eq_true, intersect_fst] at h
  obtain ⟨h2, hmax⟩ := Flt.ne_nan_of_ge _ _ h.2
  have h1 := glm.max_zero_ne_nan _ hmax
  unfold adjDist
  split
  · exact h2
  · exact h1

/-- The adjusted distance of a hit is finite when the far crossing is not `+∞`. -/
theorem lt_adj_pinf (t0 t1 : Flt K) (h : Flt.ge t1 (glm.max t0 (Flt.fin 0)) = true)
    (h1 : t1 ≠ Flt.pinf) :
    Flt.lt (if Flt.lt t0 (Flt.fin 0) then t1 else t0) Flt.pinf = true := by
  obtain ⟨hn1, hM⟩ := Flt.ne_nan_of_ge _ _ h
  have hn0 := glm.max_zero_ne_nan _ hM
  by_cases hlt : Flt.lt t0 (Flt.fin 0) = true
  · rw [if_pos hlt]
    cases t1 with
    | nan => exact absurd rfl hn1
    | pinf => exact absurd rfl h1
    | ninf => rfl
    | fin a => rfl
  · rw [if_neg hlt]
    cases t0 with
    | nan => exact absurd rfl hn0
    | ninf => rfl
    | fin a => rfl
    | pinf =>
      have e : glm.max (Flt.pinf : Flt K) (Flt.fin 0) = Flt.pinf := by simp [glm.max, Flt.lt]
      rw [e] at h
      cases t1 with
      | nan => exact absurd rfl hn1
      | pinf => exact absurd rfl h1
      | ninf => simp [Flt.ge] at h
      | fin a => simp [Flt.ge] at h

/-- The far crossing of `intersect` is not `+∞` for exact inputs and a direction that is
not the zero vector. -/
theorem intersect_far_ne_pinf (b0 b1 o d : V3 K) (hdir : d.x ≠ 0 ∨ d.y ≠ 0 ∨ d.z ≠ 0) :
    (intersect b0.fin b1.fin o.fin d.fin).2.2 ≠ Flt.pinf := by
  rw [intersect_eq]
  simp only [V3.fin, narrow]
  rcases hdir with hx | hy | hz
  · rw [slabPair_fin _ _ _ _ hx]
    exact glm.min_ne_pinf_left _ _ (glm.min_ne_pinf_left _ _ (by simp))
  · rw [slabPair_fin _ _ _ _ hy]
    exact glm.min_ne_pinf_left _ _ (glm.min_fin_ne_pinf _ _)
  · rw [slabPair_fin _ _ _ _ hz]
    exact glm.min_fin_ne_pinf _ _

theorem blockBounds0_eq (c : Nat × Nat × Nat) : blockBounds0 (K := K) c = (cellMin c).fin := rfl

theorem blockBounds1_eq (c : Nat × Nat × Nat) : blockBounds1 (K := K) c = (cellMax c).fin := rfl

/-- For an exact origin and an exact direction other than the zero vector, every hit has a
finite adjusted distance. -/
theorem adjDist_lt_pinf (s : Scene K) (o d : V3 K) (hdir : d.x ≠ 0 ∨ d.y ≠ 0 ∨ d.z ≠ 0)
    (c : Nat × Nat × Nat) (h : hitCell s o.fin d.fin c = true) :
    Flt.lt (adjDist o.fin d.fin c) Flt.pinf = true := by
  unfold hitCell at h
  rw [Bool.and_eq_true, intersect_fst] at h
  unfold adjDist
  apply lt_adj_pinf _ _ h.2
  rw [blockBounds0_eq, blockBounds1_eq]
  exact intersect_far_ne_pinf _ _ o d hdir

/-- What the scan of `sample` has selected after the grid. -/
theorem scanAt_spec (s : Scene K) (orig dir : vec3 K) :
    ((scanAt s orig dir).2 = none →
      (scanAt s orig dir).1 = Flt.pinf ∧
      ∀ a ∈ cells, hitCell s orig dir a = true → Flt.lt (adjDist orig dir a) Flt.pinf = false) ∧
    (∀ c, (scanAt s orig dir).2 = some c →
      c ∈ cells ∧ hitCell s orig dir c = true ∧ (scanAt s orig dir).1 = adjDist orig dir c ∧
      Flt.lt (adjDist orig dir c) Flt.pinf = true ∧
      (∀ a ∈ cells, hitCell s orig dir a = true →
        Flt.lt (adjDist orig dir a) (adjDist orig dir c) = false) ∧
      (∀ a ∈ cells, hitCell s orig dir a = true → scanBefore a c →
        Flt.lt (adjDist orig dir c) (adjDist orig dir a) = true)) := by
  have hfun : scanCellAt s orig dir = fun st a =>
      if hitCell s orig dir a = true ∧ Flt.lt (adjDist orig dir a) st.1 = true then
        (adjDist orig dir a, some a) else st := by
    funext st a
    exact scanCellAt_eq s orig dir st a
  unfold scanAt
  rw [hfun]
  exact foldl_nearest (hitCell s orig dir) (adjDist orig dir) scanBefore
    (adjDist_ne_nan s orig dir) scanBefore_asymm cells cells_pairwise

set_option maxRecDepth 100000 in
/-- C17 as stated fails for the zero direction: from the centre of the only block of the
grid the Intersector reports a hit of that block, with `t0 = -∞` and `t1 = +∞`, and
`sample` returns the sky colour. -/
theorem sample_zero_direction_counterexample :
    (sceneWith (oneBlockGrid 1)).m_blocks 0 0 0 ≠ BT_AIR ∧
    intersect (blockBounds0 (0, 0, 0)) (blockBounds1 (0, 0, 0))
      (V3.fin (⟨1 / 2, 1 / 2, 1 / 2⟩ : V3 ℚ)) (V3.fin ⟨0, 0, 0⟩) =
        (true, Flt.ninf, Flt.pinf) ∧
    sample types (sceneWith (oneBlockGrid 1)) (V3.fin (⟨1 / 2, 1 / 2, 1 / 2⟩ : V3 ℚ))
      (V3.fin ⟨0, 0, 0⟩) 0 = some (sceneWith (oneBlockGrid 1)).m_skyColor := by
  refine ⟨by decide, by decide!, ?_⟩
  apply sample_of_scan_none
  decide!

end NearestLemmas

/-! The cells in exact arithmetic -/

section CellLemmas

variable {K : Type} [LinearOrderedField K]

/-- The Intersector on the unit cube of a cell, for an exact origin and an exact direction
without zero component. -/
theorem intersect_cell (o d : V3 K) (hd : d.x ≠ 0 ∧ d.y ≠ 0 ∧ d.z ≠ 0) (c : Nat × Nat × Nat) :
    intersect (blockBounds0 c) (blockBounds1 c) o.fin d.fin =
      (decide (Max.max (cellNear o d c) 0 ≤ cellFar o d c), Flt.fin (cellNear o d c),
        Flt.fin (cellFar o d c)) := by
  rw [blockBounds0_eq, blockBounds1_eq, intersect_fin _ _ o d hd.1 hd.2.1 hd.2.2]
  rfl

theorem hitCell_exact (s : Scene K) (o d : V3 K) (hd : d.x ≠ 0 ∧ d.y ≠ 0 ∧ d.z ≠ 0)
    (c : Nat × Nat × Nat) :
    hitCell s o.fin d.fin c = true ↔
      s.m_blocks c.1 c.2.1 c.2.2 ≠ BT_AIR ∧ Max.max (cellNear o d c) 0 ≤ cellFar o d c := by
  unfold hitCell
  rw [intersect_cell o d hd c]
  simp

theorem adjDist_exact (o d : V3 K) (hd : d.x ≠ 0 ∧ d.y ≠ 0 ∧ d.z ≠ 0) (c : Nat × Nat × Nat) :
    adjDist o.fin d.fin c =
      Flt.fin (if cellNear o d c < 0 then cellFar o d c else cellNear o d c) := by
  unfold adjDist
  rw [intersect_cell o d hd c]
  simp only [Flt.lt_fin_fin, decide_eq_true_eq]
  split <;> rfl

/-- The parameters at which the ray lies in the unit cube of a cell. -/
theorem cell_inBox_iff (o d : V3 K) (hd : d.x ≠ 0 ∧ d.y ≠ 0 ∧ d.z ≠ 0) (c : Nat × Nat × Nat)
    (t : K) :
    inBox (cellMin c) (cellMax c) (rayPoint o d t) ↔ cellNear o d c ≤ t ∧ t ≤ cellFar o d c := by
  have hx : (cellMin (K := K) c).x ≤ (cellMax c).x := by simp [cellMin, cellMax]
  have hy : (cellMin (K := K) c).y ≤ (cellMax c).y := by simp [cellMin, cellMax]
  have hz : (cellMin (K := K) c).z ≤ (cellMax c).z := by simp [cellMin, cellMax]
  simp only [inBox, rayPoint, cellNear, cellFar, slab_iff _ _ _ _ t hx hd.1,
    slab_iff _ _ _ _ t hy hd.2.1, slab_iff _ _ _ _ t hz hd.2.2, max_le_iff, le_min_iff]
  tauto

/-- At the near crossing of a slab the ray is on one of its two planes. -/
theorem slabNear_plane (b0 b1 o d : K) (hd : d ≠ 0) :
    o + slabNear b0 b1 o d * d = b0 ∨ o + slabNear b0 b1 o d * d = b1 := by
  unfold slabNear
  rcases min_choice ((b0 - o) * (1 / d)) ((b1 - o) * (1 / d)) with h | h
  · left
    rw [h]
    field_simp
  · right
    rw [h]
    field_simp

/-- At the far crossing of a slab the ray is on one of its two planes. -/
theorem slabFar_plane (b0 b1 o d : K) (hd : d ≠ 0) :
    o + slabFar b0 b1 o d * d = b0 ∨ o + slabFar b0 b1 o d * d = b1 := by
  unfold slabFar
  rcases max_choice ((b0 - o) * (1 / d)) ((b1 - o) * (1 / d)) with h | h
  · left
    rw [h]
    field_simp
  · right
    rw [h]
    field_simp

/-- At the near and at the far crossing of the unit cube of a cell the ray is on one of
the six planes of the cube. -/
theorem cell_crossing_plane (o d : V3 K) (hd : d.x ≠ 0 ∧ d.y ≠ 0 ∧ d.z ≠ 0)
    (c : Nat × Nat × Nat) (t : K) (ht : t = cellNear o d c ∨ t = cellFar o d c) :
    (rayPoint o d t).x = (cellMin c).x ∨ (rayPoint o d t).x = (cellMax c).x ∨
    (rayPoint o d t).y = (cellMin c).y ∨ (rayPoint o d t).y = (cellMax c).y ∨
    (rayPoint o d t).z = (cellMin c).z ∨ (rayPoint o d t).z = (cellMax c).z := by
  simp only [rayPoint]
  rcases ht with ht | ht
  · unfold cellNear at ht
    rcases max_choice (Max.max (slabNear (cellMin c).x (cellMax c).x o.x d.x)
      (slabNear (cellMin c).y (cellMax c).y o.y d.y))
      (slabNear (cellMin c).z (cellMax c).z o.z d.z) with h | h
    · rcases max_choice (slabNear (cellMin c).x (cellMax c).x o.x d.x)
        (slabNear (cellMin c).y (cellMax c).y o.y d.y) with h' | h'
      · rw [h, h'] at ht
        rcases slabNear_plane (cellMin c).x (cellMax c).x o.x d.x hd.1 with e | e
        · rw [ht]; exact Or.inl e
        · rw [ht]; exact Or.inr (Or.inl e)
      · rw [h, h'] at ht
        rcases slabNear_plane (cellMin c).y (cellMax c).y o.y d.y hd.2.1 with e | e
        · rw [ht]; exact Or.inr (Or.inr (Or.inl e))
        · rw [ht]; exact Or.inr (Or.inr (Or.inr (Or.inl e)))
    · rw [h] at ht
      rcases slabNear_plane (cellMin c).z (cellMax c).z o.z d.z hd.2.2 with e | e
      · rw [ht]; exact Or.inr (Or.inr (Or.inr (Or.inr (Or.inl e))))
      · rw [ht]; exact Or.inr (Or.inr (Or.inr (Or.inr (Or.inr e))))
  · unfold cellFar at ht
    rcases min_choice (Min.min (slabFar (cellMin c).x (cellMax c).x o.x d.x)
      (slabFar (cellMin c).y (cellMax c).y o.y d.y))
      (slabFar (cellMin c).z (cellMax c).z o.z d.z) with h | h
    · rcases min_choice (slabFar (cellMin c).x (cellMax c).x o.x d.x)
        (slabFar (cellMin c).y (cellMax c).y o.y d.y) with h' | h'
      · rw [h, h'] at ht
        rcases slabFar_plane (cellMin c).x (cellMax c).x o.x d.x hd.1 with e | e
        · rw [ht]; exact Or.inl e
        · rw [ht]; exact Or.inr (Or.inl e)
      · rw [h, h'] at ht
        rcases slabFar_plane (cellMin c).y (cellMax c).y o.y d.y hd.2.1 with e | e
        · rw [ht]; exact Or.inr (Or.inr (Or.inl e))
        · rw [ht]; exact Or.inr (Or.inr (Or.inr (Or.inl e)))
    · rw [h] at ht
      rcases slabFar_plane (cellMin c).z (cellMax c).z o.z d.z hd.2.2 with e | e
      · rw [ht]; exact Or.inr (Or.inr (Or.inr (Or.inr (Or.inl e))))
      · rw [ht]; exact Or.inr (Or.inr (Or.inr (Or.inr (Or.inr e))))

/-- The hit point `orig + dir * t` that `sample` computes, on exact values. -/
theorem phit_fin (o d : V3 K) (t : K) :
    V3.add o.fin (V3.scale d.fin (Flt.fin t)) =
      V3.fin ⟨o.x + d.x * t, o.y + d.y * t, o.z + d.z * t⟩ := rfl

/-- The selected cell in exact arithmetic: its adjusted distance `t` is `tnear`, it is not
negative, and it lies between the two crossings of the cell, on one of them. -/
theorem scanAt_exact (s : Scene K) (o d : V3 K) (hd : d.x ≠ 0 ∧ d.y ≠ 0 ∧ d.z ≠ 0)
    (c : Nat × Nat × Nat) (hsel : (scanAt s o.fin d.fin).2 = some c) :
    ∃ t : K, (scanAt s o.fin d.fin).1 = Flt.fin t ∧ 0 ≤ t ∧
      t = (if cellNear o d c < 0 then cellFar o d c else cellNear o d c) ∧
      (cellNear o d c ≤ t ∧ t ≤ cellFar o d c) ∧ (t = cellNear o d c ∨ t = cellFar o d c) := by
  obtain ⟨_, hhit, htn, _⟩ := (scanAt_spec s o.fin d.fin).2 c hsel
  rw [hitCell_exact s o d hd c] at hhit
  obtain ⟨h0, h1⟩ := max_le_iff.mp hhit.2
  refine ⟨_, htn.trans (adjDist_exact o d hd c), ?_, rfl, ?_, ?_⟩
  · split
    · exact h1
    · next h => exact not_lt.mp h
  · split
    · exact ⟨h0, le_refl _⟩
    · exact ⟨le_refl _, h0⟩
  · split
    · exact Or.inr rfl
    · exact Or.inl rfl

/-- C20. In exact arithmetic, for a direction without zero component: when `sample`
selects a cell, the distance `tnear` is an exact value that is not negative and the hit point
`orig + dir * tnear` lies in the closed unit cube of the selected cell, on its boundary. -/
theorem hit_point_on_boundary (s : Scene K) (o d : V3 K)
    (hd : d.x ≠ 0 ∧ d.y ≠ 0 ∧ d.z ≠ 0) (c : Nat × Nat × Nat)
    (hsel : (scanAt s o.fin d.fin).2 = some c) :
    ∃ t : K, (scan s o.fin d.fin).1 = Flt.fin t ∧ 0 ≤ t ∧
      V3.add o.fin (V3.scale d.fin (scan s o.fin d.fin).1) =
        V3.fin ⟨o.x + d.x * t, o.y + d.y * t, o.z + d.z * t⟩ ∧
      onBoundary (cellMin c) (cellMax c) ⟨o.x + d.x * t, o.y + d.y * t, o.z + d.z * t⟩ := by
  obtain ⟨t, htn, ht0, _, hbetween, hcross⟩ := scanAt_exact s o d hd c hsel
  have hscan : (scan s o.fin d.fin).1 = Flt.fin t := by
    simp only [scan_of_scanAt s o.fin d.fin c hsel, htn]
  have hp : (⟨o.x + d.x * t, o.y + d.y * t, o.z + d.z * t⟩ : V3 K) = rayPoint o d t := by
    simp only [rayPoint, mul_comm]
  refine ⟨t, hscan, ht0, ?_, ?_⟩
  · rw [hscan]
    exact phit_fin o d t
  · rw [hp]
    exact ⟨(cell_inBox_iff o d hd c t).mpr hbetween, cell_crossing_plane o d hd c t hcross⟩

set_option maxRecDepth 100000 in
/-- A concrete instance of C20: the ray from below into the only block of the grid. -/
theorem hit_point_on_boundary_witness :
    ∃ t : ℚ, (scan (sceneWith (oneBlockGrid 1)) (V3.fin (⟨1 / 2, 1 / 3, -5⟩ : V3 ℚ))
        (V3.fin ⟨1 / 10, 1 / 10, 1⟩)).1 = Flt.fin t ∧ 0 ≤ t ∧
      V3.add (V3.fin (⟨1 / 2, 1 / 3, -5⟩ : V3 ℚ))
        (V3.scale (V3.fin ⟨1 / 10, 1 / 10, 1⟩)
          (scan (sceneWith (oneBlockGrid 1)) (V3.fin (⟨1 / 2, 1 / 3, -5⟩ : V3 ℚ))
            (V3.fin ⟨1 / 10, 1 / 10, 1⟩)).1) =
        V3.fin ⟨1 / 2 + 1 / 10 * t, 1 / 3 + 1 / 10 * t, -5 + 1 * t⟩ ∧
      onBoundary (cellMin (0, 0, 0)) (cellMax (0, 0, 0))
        ⟨1 / 2 + 1 / 10 * t, 1 / 3 + 1 / 10 * t, -5 + 1 * t⟩ :=
  hit_point_on_boundary (sceneWith (oneBlockGrid 1)) (⟨1 / 2, 1 / 3, -5⟩ : V3 ℚ)
    ⟨1 / 10, 1 / 10, 1⟩ ⟨by norm_num, by norm_num, by norm_num⟩ (0, 0, 0) (by decide!)

end CellLemmas

/-! The nested calls of the sampler in exact arithmetic -/

section ReselectLemmas

variable {K : Type} [LinearOrderedField K]

/-- The sampler on a hit whose block type is looked through below the depth cap: the colour
of the nested call from the hit point is shaded. -/
theorem sample_of_scan_call (table : Fin BT_COUNT → BlockType K) (s : Scene K)
    (orig dir : vec3 K) (depth : Int) (tnear : Flt K) (tile : Nat) (type : BlockType K)
    (hscan : scan s orig dir = (tnear, some tile)) (htype : typeAt table tile = some type)
    (h : Flt.lt (Flt.fin 0) type.m_transparency = true ∧ depth < MAX_RAY_DEPTH)
    (back : vec3 K)
    (hback : sample table s (V3.add orig (V3.scale dir tnear)) dir (depth + 1) = some back) :
    sample table s orig dir depth = some (shade type (some back)) := by
  rw [sample]
  simp only [hscan, htype]
  rw [dif_pos h, hback]

/-- Moving the origin along the ray by `t` lowers the near crossing of a slab by `t`. -/
theorem slabNear_shift (b0 b1 o d t : K) (hd : d ≠ 0) :
    slabNear b0 b1 (o + d * t) d = slabNear b0 b1 o d - t := by
  unfold slabNear
  have e0 : (b0 - (o + d * t)) * (1 / d) = (b0 - o) * (1 / d) - t := by
    field_simp
    ring
  have e1 : (b1 - (o + d * t)) * (1 / d) = (b1 - o) * (1 / d) - t := by
    field_simp
    ring
  rw [e0, e1, min_sub_sub_right]

/-- Moving the origin along the ray by `t` lowers the far crossing of a slab by `t`. -/
theorem slabFar_shift (b0 b1 o d t : K) (hd : d ≠ 0) :
    slabFar b0 b1 (o + d * t) d = slabFar b0 b1 o d - t := by
  unfold slabFar
  have e0 : (b0 - (o + d * t)) * (1 / d) = (b0 - o) * (1 / d) - t := by
    field_simp
    ring
  have e1 : (b1 - (o + d * t)) * (1 / d) = (b1 - o) * (1 / d) - t := by
    field_simp
    ring
  rw [e0, e1, max_sub_sub_right]

theorem cellNear_shift (o d : V3 K) (hd : d.x ≠ 0 ∧ d.y ≠ 0 ∧ d.z ≠ 0) (t : K)
    (a : Nat × Nat × Nat) :
    cellNear ⟨o.x + d.x * t, o.y + d.y * t, o.z + d.z * t⟩ d a = cellNear o d a - t := by
  unfold cellNear
  simp only [slabNear_shift _ _ _ _ _ hd.1, slabNear_shift _ _ _ _ _ hd.2.1,
    slabNear_shift _ _ _ _ _ hd.2.2, max_sub_sub_right]

theorem cellFar_shift (o d : V3 K) (hd : d.x ≠ 0 ∧ d.y ≠ 0 ∧ d.z ≠ 0) (t : K)
    (a : Nat × Nat × Nat) :
    cellFar ⟨o.x + d.x * t, o.y + d.y * t, o.z + d.z * t⟩ d a = cellFar o d a - t := by
  unfold cellFar
  simp only [slabFar_shift _ _ _ _ _ hd.1, slabFar_shift _ _ _ _ _ hd.2.1,
    slabFar_shift _ _ _ _ _ hd.2.2, min_sub_sub_right]

/-- The adjusted distance of a hit is not negative. -/
theorem adjusted_nonneg (N F : K) (h : Max.max N 0 ≤ F) : 0 ≤ (if N < 0 then F else N) := by
  obtain ⟨h0, h1⟩ := max_le_iff.mp h
  split
  · exact h1
  · next hn => exact not_lt.mp hn

/-- Seen from its own hit point, a hit cell is hit at the adjusted distance 0. -/
theorem adjusted_at_hit (N F t : K) (h : Max.max N 0 ≤ F) (ht : t = if N < 0 then F else N) :
    Max.max (N - t) 0 ≤ F - t ∧ (if N - t < 0 then F - t else N - t) = 0 := by
  obtain ⟨h0, h1⟩ := max_le_iff.mp h
  by_cases hn : N < 0
  · rw [if_pos hn] at ht
    have hlt : N - t < 0 := by linarith
    rw [if_pos hlt]
    exact ⟨max_le (by linarith) (by linarith), by linarith⟩
  · rw [if_neg hn] at ht
    have hlt : ¬(N - t < 0) := by
      rw [ht]
      simp
    rw [if_neg hlt]
    exact ⟨max_le (by linarith) (by linarith), by linarith⟩

/-- A cell hit at the adjusted distance 0 from a point `t ≥ 0` along the ray is hit from
the origin, at an adjusted distance of at most `t`. -/
theorem adjusted_before_hit (N F t : K) (ht0 : 0 ≤ t) (h : Max.max (N - t) 0 ≤ F - t)
    (hD : (if N - t < 0 then F - t else N - t) = 0) :
    Max.max N 0 ≤ F ∧ (if N < 0 then F else N) ≤ t := by
  obtain ⟨h0, h1⟩ := max_le_iff.mp h
  refine ⟨max_le (by linarith) (by linarith), ?_⟩
  by_cases hn : N - t < 0
  · rw [if_pos hn] at hD
    split
    · linarith
    · linarith
  · rw [if_neg hn] at hD
    split
    · linarith
    · linarith

/-- In exact arithmetic, for a direction without zero component, the scan from the hit
point `orig + dir * tnear` selects the cell that the scan from the origin has selected, at
the distance 0. -/
theorem scanAt_from_hit_point (s : Scene K) (o d : V3 K) (hd : d.x ≠ 0 ∧ d.y ≠ 0 ∧ d.z ≠ 0)
    (c : Nat × Nat × Nat) (hsel : (scanAt s o.fin d.fin).2 = some c) (t : K)
    (ht : (scanAt s o.fin d.fin).1 = Flt.fin t) :
    scanAt s (V3.fin ⟨o.x + d.x * t, o.y + d.y * t, o.z + d.z * t⟩) d.fin =
      (Flt.fin 0, some c) := by
  obtain ⟨hcm, hhit, htn, _, hmin, hfirst⟩ := (scanAt_spec s o.fin d.fin).2 c hsel
  rw [hitCell_exact s o d hd c] at hhit
  rw [ht, adjDist_exact o d hd c, Flt.fin.injEq] at htn
  have ht0 : 0 ≤ t := htn ▸ adjusted_nonneg _ _ hhit.2
  have hself := adjusted_at_hit _ _ t hhit.2 htn
  have hc' : hitCell s (V3.fin ⟨o.x + d.x * t, o.y + d.y * t, o.z + d.z * t⟩) d.fin c = true := by
    rw [hitCell_exact s _ d hd c, cellNear_shift o d hd, cellFar_shift o d hd]
    exact ⟨hhit.1, hself.1⟩
  have hdc : adjDist (V3.fin ⟨o.x + d.x * t, o.y + d.y * t, o.z + d.z * t⟩) d.fin c =
      Flt.fin 0 := by
    rw [adjDist_exact _ d hd c, cellNear_shift o d hd, cellFar_shift o d hd, hself.2]
  obtain ⟨hnone, hsome⟩ :=
    scanAt_spec s (V3.fin ⟨o.x + d.x * t, o.y + d.y * t, o.z + d.z * t⟩) d.fin
  rcases hsel' : (scanAt s (V3.fin ⟨o.x + d.x * t, o.y + d.y * t, o.z + d.z * t⟩) d.fin).2 with
    _ | c'
  · have h := (hnone hsel').2 c hcm hc'
    rw [hdc] at h
    simp [Flt.lt] at h
  · obtain ⟨hcm', hhit', htn', _, hmin', hfirst'⟩ := hsome c' hsel'
    rw [hitCell_exact s _ d hd c', cellNear_shift o d hd, cellFar_shift o d hd] at hhit'
    have hadj' : adjDist (V3.fin ⟨o.x + d.x * t, o.y + d.y * t, o.z + d.z * t⟩) d.fin c' =
        Flt.fin (if cellNear o d c' - t < 0 then cellFar o d c' - t else cellNear o d c' - t) := by
      rw [adjDist_exact _ d hd c', cellNear_shift o d hd, cellFar_shift o d hd]
    have h1 := hmin' c hcm hc'
    rw [hdc, hadj', Flt.lt_fin_fin, decide_eq_false_iff_not, not_lt] at h1
    have hzero : (if cellNear o d c' - t < 0 then cellFar o d c' - t else cellNear o d c' - t) =
        0 := le_antisymm h1 (adjusted_nonneg _ _ hhit'.2)
    obtain ⟨hH, hle⟩ := adjusted_before_hit _ _ t ht0 hhit'.2 hzero
    have hH' : hitCell s o.fin d.fin c' = true := (hitCell_exact s o d hd c').mpr ⟨hhit'.1, hH⟩
    have h2 := hmin c' hcm' hH'
    rw [adjDist_exact o d hd c', adjDist_exact o d hd c, ← htn, Flt.lt_fin_fin,
      decide_eq_false_iff_not, not_lt] at h2
    have hnb : ¬scanBefore c' c := by
      intro hb
      have h3 := hfirst c' hcm' hH' hb
      rw [adjDist_exact o d hd c', adjDist_exact o d hd c, ← htn, Flt.lt_fin_fin,
        decide_eq_true_eq] at h3
      exact absurd h3 (not_lt.mpr hle)
    have hnb' : ¬scanBefore c c' := by
      intro hb
      have h3 := hfirst' c hcm hc' hb
      rw [hdc, hadj', hzero, Flt.lt_fin_fin, decide_eq_true_eq] at h3
      exact lt_irrefl _ h3
    have hcc : c' = c := scanBefore_total c' c hnb hnb'
    rw [hadj', hzero] at htn'
    rw [hcc] at hsel'
    exact Prod.ext htn' hsel'

/-- The value of `orig + dir * 0` on exact values is `orig`. -/
theorem phit_zero (p d : V3 K) : V3.add p.fin (V3.scale d.fin (Flt.fin 0)) = p.fin := by
  rw [phit_fin]
  simp

/-- The shading of a background that has the surface colour of the block gives that colour
again, for an exact colour, an exact transparency and no emission. -/
theorem shade_same (type : BlockType K) (σ : V3 K) (hs : type.m_surfaceColor = V3.fin σ)
    (ht : Flt.IsFin type.m_transparency)
    (he : type.m_emissionColor = V3.splat (Flt.fin 0)) (back : Option (vec3 K))
    (hb : ∀ b, back = some b → b = V3.fin σ) :
    shade type back = V3.fin σ := by
  obtain ⟨τ, hτ⟩ := ht
  cases back with
  | none =>
    simp only [shade]
    rw [he, V3.add_splat_zero, hs]
  | some b =>
    rw [hb b rfl]
    simp only [shade]
    rw [he, V3.add_splat_zero, hs, hτ]
    simp only [V3.add, V3.scale, V3.fin, Flt.fin_sub_fin, Flt.fin_mul_fin, Flt.fin_add_fin]
    congr 2 <;> ring

/-- One level of `sample` on a hit: the result is the surface colour as soon as the nested
call, where one is made, returns it. -/
theorem sample_level (table : Fin BT_COUNT → BlockType K) (s : Scene K)
    (orig dir : vec3 K) (depth : Int) (tnear : Flt K) (tile : Nat) (type : BlockType K)
    (hscan : scan s orig dir = (tnear, some tile)) (htype : typeAt table tile = some type)
    (σ : V3 K) (hs : type.m_surfaceColor = V3.fin σ) (ht : Flt.IsFin type.m_transparency)
    (he : type.m_emissionColor = V3.splat (Flt.fin 0))
    (hback : depth < MAX_RAY_DEPTH →
      sample table s (V3.add orig (V3.scale dir tnear)) dir (depth + 1) = some (V3.fin σ)) :
    sample table s orig dir depth = some (V3.fin σ) := by
  by_cases hcond : Flt.lt (Flt.fin 0) type.m_transparency = true ∧ depth < MAX_RAY_DEPTH
  · rw [sample_of_scan_call table s orig dir depth tnear tile type hscan htype hcond _
      (hback hcond.2), shade_same type σ hs ht he _ (fun b hb => (Option.some.inj hb).symm)]
  · rw [sample_of_scan_no_call table s orig dir depth tnear tile type hscan htype hcond,
      shade_same type σ hs ht he _ (fun b hb => by cases hb)]

/-- From a point at which the scan selects a cell at the distance 0, `sample` returns the
surface colour of the cell at every depth: every nested call is made from the same point. -/
theorem sample_at_fixed_point (table : Fin BT_COUNT → BlockType K) (s : Scene K)
    (p d : V3 K) (tile : Nat) (type : BlockType K)
    (hscan : scan s p.fin d.fin = (Flt.fin 0, some tile)) (htype : typeAt table tile = some type)
    (σ : V3 K) (hs : type.m_surfaceColor = V3.fin σ) (ht : Flt.IsFin type.m_transparency)
    (he : type.m_emissionColor = V3.splat (Flt.fin 0)) (depth : Int) :
    sample table s p.fin d.fin depth = some (V3.fin σ) := by
  have key : ∀ (n : Nat) (depth : Int), (MAX_RAY_DEPTH - depth).toNat ≤ n →
      sample table s p.fin d.fin depth = some (V3.fin σ) := by
    intro n
    induction n with
    | zero =>
      intro depth hn
      apply sample_level table s _ _ depth _ tile type hscan htype σ hs ht he
      intro hlt
      simp only [MAX_RAY_DEPTH] at hn hlt
      omega
    | succ n ih =>
      intro depth hn
      apply sample_level table s _ _ depth _ tile type hscan htype σ hs ht he
      intro hlt
      rw [phit_zero]
      apply ih
      simp only [MAX_RAY_DEPTH] at hn hlt ⊢
      omega
  exact key _ depth (le_refl _)

/-- C18. In exact arithmetic, for every grid with ids within the table, every table of
exact surface colours and transparencies with zero emission, every ray with an exact origin
and a direction without zero component, and every depth: if the ray hits a cell that is not
air, then the scan selects a hit cell `c` of least adjusted distance `t`, `sample` returns
exactly the surface colour of the type of `c`, and the scan from the hit point
`orig + dir * t` selects `c` again at the distance 0, so that `sample` from the hit point
returns that colour at every depth. -/
theorem sample_nearest_surface (table : Fin BT_COUNT → BlockType K) (s : Scene K)
    (o d : V3 K) (depth : Int) (hd : d.x ≠ 0 ∧ d.y ≠ 0 ∧ d.z ≠ 0)
    (hids : ∀ i j k, i < CHUNK_W → j < CHUNK_H → k < CHUNK_D → s.m_blocks i j k < BT_COUNT)
    (hem : ∀ i, (table i).m_emissionColor = V3.splat (Flt.fin 0))
    (hexact : ∀ i, Flt.IsFin (table i).m_transparency ∧
      ∃ σ : V3 K, (table i).m_surfaceColor = V3.fin σ)
    (hhit : ∃ a ∈ cells, hitCell s o.fin d.fin a = true) :
    ∃ (c : Nat × Nat × Nat) (hc : s.m_blocks c.1 c.2.1 c.2.2 < BT_COUNT) (t : K),
      scanAt s o.fin d.fin = (Flt.fin t, some c) ∧
      hitCell s o.fin d.fin c = true ∧
      (∀ a ∈ cells, hitCell s o.fin d.fin a = true →
        Flt.ge (adjDist o.fin d.fin a) (adjDist o.fin d.fin c) = true) ∧
      sample table s o.fin d.fin depth =
        some (table ⟨s.m_blocks c.1 c.2.1 c.2.2, hc⟩).m_surfaceColor ∧
      scanAt s (V3.add o.fin (V3.scale d.fin (Flt.fin t))) d.fin = (Flt.fin 0, some c) ∧
      ∀ depth', sample table s (V3.add o.fin (V3.scale d.fin (Flt.fin t))) d.fin depth' =
        some (table ⟨s.m_blocks c.1 c.2.1 c.2.2, hc⟩).m_surfaceColor := by
  obtain ⟨hnone, hsome⟩ := scanAt_spec s o.fin d.fin
  rcases hsel : (scanAt s o.fin d.fin).2 with _ | c
  · obtain ⟨a, ha, hha⟩ := hhit
    have h := (hnone hsel).2 a ha hha
    rw [adjDist_exact o d hd a] at h
    simp [Flt.lt] at h
  · obtain ⟨hcm, hhc, htn, _, hmin, _⟩ := hsome c hsel
    have hcr := (mem_cells c).mp hcm
    have hc : s.m_blocks c.1 c.2.1 c.2.2 < BT_COUNT := hids _ _ _ hcr.1 hcr.2.1 hcr.2.2
    rw [adjDist_exact o d hd c] at htn
    have hre := scanAt_from_hit_point s o d hd c hsel _ htn
    have htype : typeAt table (s.m_blocks c.1 c.2.1 c.2.2) =
        some (table ⟨s.m_blocks c.1 c.2.1 c.2.2, hc⟩) := by
      unfold typeAt
      rw [dif_pos hc]
    obtain ⟨hfin, σ, hσ⟩ := hexact ⟨s.m_blocks c.1 c.2.1 c.2.2, hc⟩
    have hscan0 : scan s o.fin d.fin = (Flt.fin (if cellNear o d c < 0 then cellFar o d c
        else cellNear o d c), some (s.m_blocks c.1 c.2.1 c.2.2)) := by
      rw [scan_of_scanAt s _ _ c hsel, htn]
    have hscan1 : scan s (V3.fin ⟨o.x + d.x * (if cellNear o d c < 0 then cellFar o d c
        else cellNear o d c), o.y + d.y * (if cellNear o d c < 0 then cellFar o d c
        else cellNear o d c), o.z + d.z * (if cellNear o d c < 0 then cellFar o d c
        else cellNear o d c)⟩) d.fin = (Flt.fin 0, some (s.m_blocks c.1 c.2.1 c.2.2)) := by
      rw [scan_eq_scanAt, hre]
      rfl
    have hdeep := sample_at_fixed_point table s _ d _ _ hscan1 htype σ hσ hfin (hem _)
    refine ⟨c, hc, _, Prod.ext htn hsel, hhc, ?_, ?_, ?_, ?_⟩
    · intro a ha hha
      exact Flt.ge_of_not_lt _ _ (hmin a ha hha) (adjDist_ne_nan s o.fin d.fin a hha)
        (adjDist_ne_nan s o.fin d.fin c hhc)
    · rw [hσ]
      apply sample_level table s _ _ depth _ _ _ hscan0 htype σ hσ hfin (hem _)
      intro _
      rw [phit_fin]
      exact hdeep _
    · rw [phit_fin]
      exact hre
    · intro depth'
      rw [phit_fin, hσ]
      exact hdeep depth'

set_option maxRecDepth 100000 in
/-- A concrete instance of C18: a slanted ray from below into the grid with a block of type
1 and a block of type 2 behind it samples the colour of the first block, with the table of
the source. -/
theorem sample_nearest_surface_witness :
    ∃ (c : Nat × Nat × Nat) (hc : (sceneWith twoBlockGrid).m_blocks c.1 c.2.1 c.2.2 < BT_COUNT)
      (t : ℚ),
      scanAt (sceneWith twoBlockGrid) (V3.fin (⟨1 / 2, 1 / 3, -5⟩ : V3 ℚ))
        (V3.fin ⟨1 / 10, 1 / 10, 1⟩) = (Flt.fin t, some c) ∧
      hitCell (sceneWith twoBlockGrid) (V3.fin (⟨1 / 2, 1 / 3, -5⟩ : V3 ℚ))
        (V3.fin ⟨1 / 10, 1 / 10, 1⟩) c = true ∧
      (∀ a ∈ cells, hitCell (sceneWith twoBlockGrid) (V3.fin (⟨1 / 2, 1 / 3, -5⟩ : V3 ℚ))
          (V3.fin ⟨1 / 10, 1 / 10, 1⟩) a = true →
        Flt.ge (adjDist (V3.fin (⟨1 / 2, 1 / 3, -5⟩ : V3 ℚ)) (V3.fin ⟨1 / 10, 1 / 10, 1⟩) a)
          (adjDist (V3.fin (⟨1 / 2, 1 / 3, -5⟩ : V3 ℚ)) (V3.fin ⟨1 / 10, 1 / 10, 1⟩) c) = true) ∧
      sample types (sceneWith twoBlockGrid) (V3.fin (⟨1 / 2, 1 / 3, -5⟩ : V3 ℚ))
          (V3.fin ⟨1 / 10, 1 / 10, 1⟩) 0 =
        some (types ⟨(sceneWith twoBlockGrid).m_blocks c.1 c.2.1 c.2.2, hc⟩).m_surfaceColor ∧
      scanAt (sceneWith twoBlockGrid)
          (V3.add (V3.fin (⟨1 / 2, 1 / 3, -5⟩ : V3 ℚ))
            (V3.scale (V3.fin ⟨1 / 10, 1 / 10, 1⟩) (Flt.fin t)))
          (V3.fin ⟨1 / 10, 1 / 10, 1⟩) = (Flt.fin 0, some c) ∧
      ∀ depth', sample types (sceneWith twoBlockGrid)
          (V3.add (V3.fin (⟨1 / 2, 1 / 3, -5⟩ : V3 ℚ))
            (V3.scale (V3.fin ⟨1 / 10, 1 / 10, 1⟩) (Flt.fin t)))
          (V3.fin ⟨1 / 10, 1 / 10, 1⟩) depth' =
        some (types ⟨(sceneWith twoBlockGrid).m_blocks c.1 c.2.1 c.2.2, hc⟩).m_surfaceColor :=
  sample_nearest_surface types (sceneWith twoBlockGrid) (⟨1 / 2, 1 / 3, -5⟩ : V3 ℚ)
    ⟨1 / 10, 1 / 10, 1⟩ 0 ⟨by norm_num, by norm_num, by norm_num⟩
    (by
      intro i j k _ _ _
      show twoBlockGrid i j k < 4
      unfold twoBlockGrid
      split_ifs <;> decide)
    (by
      intro i
      fin_cases i <;> rfl)
    (by
      intro i
      fin_cases i
      · exact ⟨⟨0, rfl⟩, ⟨⟨0, 0, 0⟩, rfl⟩⟩
      · exact ⟨⟨7 / 10, rfl⟩, ⟨⟨1, 1, 0⟩, rfl⟩⟩
      · exact ⟨⟨7 / 10, rfl⟩, ⟨⟨0, 1, 1⟩, rfl⟩⟩
      · exact ⟨⟨7 / 10, rfl⟩, ⟨⟨1, 0, 1⟩, rfl⟩⟩)
    ⟨(0, 0, 0), by decide, by decide!⟩

end ReselectLemmas

/-! The range of the colours -/

section RangeLemmas

variable {K : Type} [LinearOrderedField K]

theorem unitColour_fin (v : V3 K) (hx : 0 ≤ v.x ∧ v.x ≤ 1) (hy : 0 ≤ v.y ∧ v.y ≤ 1)
    (hz : 0 ≤ v.z ∧ v.z ≤ 1) : UnitColour (V3.fin v) := ⟨v, rfl, hx, hy, hz⟩

theorem unitColour_zero : UnitColour (V3.splat (Flt.fin (0 : K))) :=
  ⟨⟨0, 0, 0⟩, rfl, by simp, by simp, by simp⟩

/-- A mix of two values of `[0,1]` with weights `τ` and `1 - τ` lies in `[0,1]`. -/
theorem mix_unit (b σ τ : K) (hb : 0 ≤ b ∧ b ≤ 1) (hs : 0 ≤ σ ∧ σ ≤ 1) (h0 : 0 ≤ τ)
    (h1 : τ ≤ 1) : 0 ≤ b * τ + σ * (1 - τ) ∧ b * τ + σ * (1 - τ) ≤ 1 := by
  have h1' : 0 ≤ 1 - τ := by linarith
  have e1 := mul_le_mul_of_nonneg_right hb.2 h0
  have e2 := mul_le_mul_of_nonneg_right hs.2 h1'
  exact ⟨add_nonneg (mul_nonneg hb.1 h0) (mul_nonneg hs.1 h1'), by linarith⟩

/-- The shading keeps the channels in `[0,1]` when the surface colour lies there, the
emission is zero and the transparency is an exact value of `[0,1]`. -/
theorem shade_unit (type : BlockType K) (hs : UnitColour type.m_surfaceColor)
    (he : type.m_emissionColor = V3.splat (Flt.fin 0)) (τ : K)
    (hτ : type.m_transparency = Flt.fin τ) (h0 : 0 ≤ τ) (h1 : τ ≤ 1) (back : Option (vec3 K))
    (hb : ∀ b, back = some b → UnitColour b) : UnitColour (shade type back) := by
  obtain ⟨σ, hσ, hx, hy, hz⟩ := hs
  cases back with
  | none =>
    simp only [shade]
    rw [he, V3.add_splat_zero, hσ]
    exact ⟨σ, rfl, hx, hy, hz⟩
  | some b =>
    obtain ⟨β, hβ, bx, by', bz⟩ := hb b rfl
    simp only [shade]
    rw [he, V3.add_splat_zero, hσ, hτ, hβ]
    refine ⟨⟨β.x * τ + σ.x * (1 - τ), β.y * τ + σ.y * (1 - τ), β.z * τ + σ.z * (1 - τ)⟩, ?_,
      mix_unit _ _ _ bx hx h0 h1, mix_unit _ _ _ by' hy h0 h1, mix_unit _ _ _ bz hz h0 h1⟩
    simp only [V3.add, V3.scale, V3.fin, Flt.fin_sub_fin, Flt.fin_mul_fin, Flt.fin_add_fin]

/-- The entries of the table `types`: surface colours in `[0,1]`, no emission, and an exact
transparency in `[0,1]`. -/
theorem types_unit (i : Fin BT_COUNT) :
    UnitColour (types (K := K) i).m_surfaceColor ∧
    (types (K := K) i).m_emissionColor = V3.splat (Flt.fin 0) ∧
    ∃ τ : K, (types (K := K) i).m_transparency = Flt.fin τ ∧ 0 ≤ τ ∧ τ ≤ 1 := by
  fin_cases i
  · exact ⟨⟨⟨0, 0, 0⟩, rfl, by simp, by simp, by simp⟩, rfl, 0, rfl, le_refl _, zero_le_one⟩
  · exact ⟨⟨⟨1, 1, 0⟩, rfl, by simp, by simp, by simp⟩, rfl, 7 / 10, rfl, by norm_num,
      by norm_num⟩
  · exact ⟨⟨⟨0, 1, 1⟩, rfl, by simp, by simp, by simp⟩, rfl, 7 / 10, rfl, by norm_num,
      by norm_num⟩
  · exact ⟨⟨⟨1, 0, 1⟩, rfl, by simp, by simp, by simp⟩, rfl, 7 / 10, rfl, by norm_num,
      by norm_num⟩

/-- The id that the scan keeps is the id of a cell of the grid. -/
theorem scan_tile_of_cell (s : Scene K) (orig dir : vec3 K) (tnear : Flt K) (tile : Nat)
    (h : scan s orig dir = (tnear, some tile)) :
    ∃ c ∈ cells, tile = s.m_blocks c.1 c.2.1 c.2.2 := by
  rw [scan_eq_scanAt] at h
  rcases hsel : (scanAt s orig dir).2 with _ | c
  · rw [hsel] at h
    simp at h
  · rw [hsel] at h
    simp only [Option.map_some', Prod.mk.injEq, Option.some.injEq] at h
    exact ⟨c, ((scanAt_spec s orig dir).2 c hsel).1, h.2.symm⟩

/-- With the table `types`, a sky colour in `[0,1]` and ids within the table, `sample`
returns a colour with channels in `[0,1]`, for every ray and every depth. -/
theorem sample_unit (s : Scene K) (hsky : UnitColour s.m_skyColor)
    (hids : ∀ i j k, i < CHUNK_W → j < CHUNK_H → k < CHUNK_D → s.m_blocks i j k < BT_COUNT)
    (orig dir : vec3 K) (depth : Int) :
    ∃ c, sample types s orig dir depth = some c ∧ UnitColour c := by
  have key : ∀ (n : Nat) (depth : Int) (orig : vec3 K), (MAX_RAY_DEPTH - depth).toNat ≤ n →
      ∃ c, sample types s orig dir depth = some c ∧ UnitColour c := by
    intro n
    induction n with
    | zero =>
      intro depth orig hn
      rcases hscan : scan s orig dir with ⟨tnear, _ | tile⟩
      · exact ⟨_, sample_of_scan_none types s orig dir depth (by rw [hscan]), hsky⟩
      · obtain ⟨c, hc, htile⟩ := scan_tile_of_cell s orig dir tnear tile hscan
        have hcr := (mem_cells c).mp hc
        have hlt : tile < BT_COUNT := htile ▸ hids _ _ _ hcr.1 hcr.2.1 hcr.2.2
        have htype : typeAt (types (K := K)) tile = some (types ⟨tile, hlt⟩) := by
          unfold typeAt
          rw [dif_pos hlt]
        obtain ⟨hs, he, τ, hτ, h0, h1⟩ := types_unit (K := K) ⟨tile, hlt⟩
        refine ⟨_, sample_of_scan_no_call types s orig dir depth tnear tile _ hscan htype ?_,
          shade_unit _ hs he τ hτ h0 h1 none (fun b hb => by cases hb)⟩
        intro hcond
        have := hcond.2
        simp only [MAX_RAY_DEPTH] at hn this
        omega
    | succ n ih =>
      intro depth orig hn
      rcases hscan : scan s orig dir with ⟨tnear, _ | tile⟩
      · exact ⟨_, sample_of_scan_none types s orig dir depth (by rw [hscan]), hsky⟩
      · obtain ⟨c, hc, htile⟩ := scan_tile_of_cell s orig dir tnear tile hscan
        have hcr := (mem_cells c).mp hc
        have hlt : tile < BT_COUNT := htile ▸ hids _ _ _ hcr.1 hcr.2.1 hcr.2.2
        have htype : typeAt (types (K := K)) tile = some (types ⟨tile, hlt⟩) := by
          unfold typeAt
          rw [dif_pos hlt]
        obtain ⟨hs, he, τ, hτ, h0, h1⟩ := types_unit (K := K) ⟨tile, hlt⟩
        by_cases hcond : Flt.lt (Flt.fin 0) (types (K := K) ⟨tile, hlt⟩).m_transparency = true ∧
            depth < MAX_RAY_DEPTH
        · obtain ⟨back, hback, hunit⟩ := ih (depth + 1) (V3.add orig (V3.scale dir tnear)) (by
            have := hcond.2
            simp only [MAX_RAY_DEPTH] at hn this ⊢
            omega)
          exact ⟨_, sample_of_scan_call types s orig dir depth tnear tile _ hscan htype hcond
            back hback, shade_unit _ hs he τ hτ h0 h1 _ (fun b hb => Option.some.inj hb ▸ hunit)⟩
        · exact ⟨_, sample_of_scan_no_call types s orig dir depth tnear tile _ hscan htype hcond,
            shade_unit _ hs he τ hτ h0 h1 none (fun b hb => by cases hb)⟩
  exact key _ depth orig (le_refl _)

/-- The accumulation keeps the channels in `[0,1]`. -/
theorem accumulate_unit (S B : vec3 K) (hS : UnitColour S) (hB : UnitColour B) :
    UnitColour (accumulate S B) := by
  obtain ⟨σ, rfl, sx, sy, sz⟩ := hS
  obtain ⟨β, rfl, bx, by', bz⟩ := hB
  rw [accumulate_fin]
  exact ⟨_, rfl, ⟨by linarith [sx.1, bx.1], by linarith [sx.2, bx.2]⟩,
    ⟨by linarith [sy.1, by'.1], by linarith [sy.2, by'.2]⟩,
    ⟨by linarith [sz.1, bz.1], by linarith [sz.2, bz.2]⟩⟩

/-- The sampling loop of `render` keeps the channels of every buffer entry in `[0,1]`. -/
theorem foldl_sampleStep_unit (m : MathFns K) (s : Scene K) (angle : Flt K)
    (hsky : UnitColour s.m_skyColor)
    (hids : ∀ i j k, i < CHUNK_W → j < CHUNK_H → k < CHUNK_D → s.m_blocks i j k < BT_COUNT)
    (l : List (Nat × Nat)) (image image' : Nat → vec3 K) (himg : ∀ n, UnitColour (image n))
    (h : l.foldl (sampleStep m types s angle) (some image) = some image') :
    ∀ n, UnitColour (image' n) := by
  induction l generalizing image with
  | nil =>
    have e : image = image' := by simpa using h
    exact e ▸ himg
  | cons a l ih =>
    rw [List.foldl_cons] at h
    obtain ⟨S, hS, hunit⟩ := sample_unit s hsky hids s.m_position (rayDirAt m s angle a) 0
    by_cases hpos : pixelPos s a < imageSize s
    · have hz : sampleStep m types s angle (some image) a =
          some (Function.update image (pixelPos s a) (accumulate S (image (pixelPos s a)))) := by
        simp only [sampleStep, samplePixel, hS, hpos, if_true, Option.bind]
      rw [hz] at h
      apply ih _ _ h
      intro n
      by_cases hn : n = pixelPos s a
      · rw [hn, Function.update_same]
        exact accumulate_unit _ _ hunit (himg _)
      · rw [Function.update_noteq hn]
        exact himg n
    · have hz : sampleStep m types s angle (some image) a = none := by
        simp only [sampleStep, samplePixel, hS, hpos, if_false, Option.bind]
      rw [hz, foldl_sampleStep_none] at h
      cases h

/-- The sampling loop of `render` is defined on a frame whose pixel count fits 32 bits. -/
theorem foldl_sampleStep_defined (m : MathFns K) (s : Scene K) (angle : Flt K)
    (hsky : UnitColour s.m_skyColor)
    (hids : ∀ i j k, i < CHUNK_W → j < CHUNK_H → k < CHUNK_D → s.m_blocks i j k < BT_COUNT)
    (hdim : s.m_width * s.m_height < 2 ^ 32) (l : List (Nat × Nat))
    (hin : ∀ p ∈ l, p.1 < s.m_width ∧ p.2 < s.m_height) (image : Nat → vec3 K) :
    ∃ image', l.foldl (sampleStep m types s angle) (some image) = some image' := by
  induction l generalizing image with
  | nil => exact ⟨image, rfl⟩
  | cons a l ih =>
    rw [List.foldl_cons]
    obtain ⟨S, hS, _⟩ := sample_unit s hsky hids s.m_position (rayDirAt m s angle a) 0
    have hz : sampleStep m types s angle (some image) a =
        some (Function.update image (pixelPos s a) (accumulate S (image (pixelPos s a)))) := by
      simp only [sampleStep, samplePixel, hS,
        (pixelPos_eq s hdim a (hin a (List.mem_cons_self _ _))).2, if_true, Option.bind]
    rw [hz]
    exact ih (fun p hp => hin p (List.mem_cons_of_mem _ hp)) _

/-- The conversion of the quantization pass on a channel of a colour with channels in
`[0,1]`: its argument is an exact value of `[0, 255]`, on which the conversion is defined. -/
theorem quantize_arg_range [FloorRing K] (c : vec3 K) (h : UnitColour c) :
    ∀ ch ∈ [c.x, c.y, c.z], ∃ q : K, std.min (Flt.fin 1) ch * Flt.fin 255 = Flt.fin q ∧
      0 ≤ q ∧ q ≤ 255 ∧ quantize ch = some (Int.toNat ⌊q⌋) := by
  obtain ⟨v, rfl, hx, hy, hz⟩ := h
  have one : ∀ a : K, 0 ≤ a ∧ a ≤ 1 → ∃ q : K,
      std.min (Flt.fin 1) (Flt.fin a) * Flt.fin 255 = Flt.fin q ∧ 0 ≤ q ∧ q ≤ 255 ∧
        quantize (Flt.fin a) = some (Int.toNat ⌊q⌋) := by
    intro a ha
    refine ⟨255 * a, ?_, by linarith [ha.1], by linarith [ha.2], ?_⟩
    · rw [std.min_one_fin, Flt.fin_mul_fin, min_eq_left ha.2, mul_comm]
    · rw [(quantize_fin a ha.1).1, min_eq_left ha.2]
  intro ch hch
  simp only [V3.fin, List.mem_cons, List.mem_singleton, List.not_mem_nil, or_false] at hch
  rcases hch with e | e | e
  · exact e ▸ one _ hx
  · exact e ▸ one _ hy
  · exact e ▸ one _ hz

/-- The pixel word of a colour with channels in `[0,1]` is defined. -/
theorem packPixel_defined [FloorRing K] (c : vec3 K) (h : UnitColour c) :
    ∃ w, packPixel c = some w := by
  obtain ⟨_, _, _, _, hx⟩ := quantize_arg_range c h c.x (by simp)
  obtain ⟨_, _, _, _, hy⟩ := quantize_arg_range c h c.y (by simp)
  obtain ⟨_, _, _, _, hz⟩ := quantize_arg_range c h c.z (by simp)
  unfold packPixel
  rw [hx, hy, hz]
  exact ⟨_, rfl⟩

/-- The quantization loop of `render` is defined on a buffer with channels in `[0,1]` for
a frame whose pixel count fits 32 bits. -/
theorem foldl_quantizeStep_defined [FloorRing K] (s : Scene K) (image : Nat → vec3 K)
    (himg : ∀ n, UnitColour (image n)) (hdim : s.m_width * s.m_height < 2 ^ 32)
    (l : List (Nat × Nat)) (hin : ∀ p ∈ l, p.1 < s.m_width ∧ p.2 < s.m_height)
    (pixels : Nat → Nat) :
    ∃ pixels', l.foldl (quantizeStep s image) (some pixels) = some pixels' := by
  induction l generalizing pixels with
  | nil => exact ⟨pixels, rfl⟩
  | cons a l ih =>
    rw [List.foldl_cons]
    obtain ⟨w, hw⟩ := packPixel_defined (image (pixelPos s a)) (himg _)
    have hz : quantizeStep s image (some pixels) a =
        some (Function.update pixels (pixelPos s a) w) := by
      simp only [quantizeStep, quantizePixel, hw,
        (pixelPos_eq s hdim a (hin a (List.mem_cons_self _ _))).2, if_true, Option.bind]
    rw [hz]
    exact ih (fun p hp => hin p (List.mem_cons_of_mem _ hp)) _

/-- One frame of `render` keeps the grid, the sky colour and the size of the frame, and
keeps the channels of the buffer in `[0,1]`; it is defined when the pixel count fits 32
bits. -/
theorem render_unit [FloorRing K] (m : MathFns K) (s : Scene K)
    (hsky : UnitColour s.m_skyColor)
    (hids : ∀ i j k, i < CHUNK_W → j < CHUNK_H → k < CHUNK_D → s.m_blocks i j k < BT_COUNT)
    (himg : ∀ n, UnitColour (s.m_image n)) :
    (∀ s', render m types s = some s' →
      s'.m_skyColor = s.m_skyColor ∧ s'.m_blocks = s.m_blocks ∧ s'.m_width = s.m_width ∧
        s'.m_height = s.m_height ∧ ∀ n, UnitColour (s'.m_image n)) ∧
    (s.m_width * s.m_height < 2 ^ 32 → ∃ s', render m types s = some s') := by
  constructor
  · intro s' hs'
    unfold render renderWith at hs'
    simp only at hs'
    rcases hfold : (pixelOrder s.m_width s.m_height).foldl
        (sampleStep m types s (m.tanf (m.M_PI * Flt.fin (1 / 2) * s.m_fov / Flt.fin 180)))
        (some s.m_image) with _ | image
    · rw [hfold] at hs'
      cases hs'
    · rw [hfold] at hs'
      simp only at hs'
      rcases hq : (pixelOrder s.m_width s.m_height).foldl (quantizeStep s image)
          (some s.pixels) with _ | pixels
      · rw [hq] at hs'
        cases hs'
      · rw [hq] at hs'
        simp only [Option.some.injEq] at hs'
        subst hs'
        exact ⟨rfl, rfl, rfl, rfl, foldl_sampleStep_unit m s _ hsky hids _ _ _ himg hfold⟩
  · intro hdim
    obtain ⟨image, hfold⟩ := foldl_sampleStep_defined m s
      (m.tanf (m.M_PI * Flt.fin (1 / 2) * s.m_fov / Flt.fin 180)) hsky hids hdim
      (pixelOrder s.m_width s.m_height) (fun p hp => (mem_pixelOrder _ _ _).mp hp) s.m_image
    obtain ⟨pixels, hq⟩ := foldl_quantizeStep_defined s image
      (foldl_sampleStep_unit m s _ hsky hids _ _ _ himg hfold) hdim
      (pixelOrder s.m_width s.m_height) (fun p hp => (mem_pixelOrder _ _ _).mp hp) s.pixels
    unfold render renderWith
    simp only [hfold, hq]
    exact ⟨_, rfl⟩

/-- A round of the loop of `main` with zero `direction` and zero `rot_direction` is a call
of `render` on the scene as it is. -/
theorem frame_still [FloorRing K] (m : MathFns K) (table : Fin BT_COUNT → BlockType K)
    (s : Scene K) :
    frame m table s (V3.splat (Flt.fin 0), V3.splat (Flt.fin 0)) = render m table s := by
  unfold frame Scene.move Scene.rotate
  simp only [V3.add_splat_zero]

/-- The rounds of the loop of `main`, first round apart. -/
theorem frames_cons [FloorRing K] (m : MathFns K) (table : Fin BT_COUNT → BlockType K)
    (input : vec3 K × vec3 K) (inputs : List (vec3 K × vec3 K)) (s : Scene K) :
    frames m table (input :: inputs) s =
      (frame m table s input).bind (frames m table inputs) := by
  unfold frames
  rw [List.foldl_cons, Option.some_bind]
  cases frame m table s input with
  | some s' => rfl
  | none =>
    rw [Option.none_bind]
    generalize inputs = l
    induction l with
    | nil => rfl
    | cons a l ih => exact ih

/-- The rounds of the loop of `main` keep the channels of the buffer in `[0,1]`, and they
are defined when the pixel count fits 32 bits. -/
theorem frames_unit [FloorRing K] (m : MathFns K) (inputs : List (vec3 K × vec3 K))
    (s : Scene K) (hsky : UnitColour s.m_skyColor)
    (hids : ∀ i j k, i < CHUNK_W → j < CHUNK_H → k < CHUNK_D → s.m_blocks i j k < BT_COUNT)
    (himg : ∀ n, UnitColour (s.m_image n)) :
    (∀ s', frames m types inputs s = some s' → ∀ n, UnitColour (s'.m_image n)) ∧
    (s.m_width * s.m_height < 2 ^ 32 → ∃ s', frames m types inputs s = some s') := by
  induction inputs generalizing s with
  | nil =>
    refine ⟨fun s' h => ?_, fun _ => ⟨s, rfl⟩⟩
    have e : s = s' := by simpa [frames] using h
    exact e ▸ himg
  | cons input inputs ih =>
    obtain ⟨hkeep, hdef⟩ := render_unit m ((s.move input.1).rotate input.2) hsky hids himg
    constructor
    · intro s' h
      rw [frames_cons] at h
      rcases hf : frame m types s input with _ | s1
      · rw [hf] at h
        cases h
      · rw [hf, Option.some_bind] at h
        obtain ⟨e1, e2, _, _, hunit⟩ := hkeep s1 hf
        exact (ih s1 (e1 ▸ hsky) (e2 ▸ hids) hunit).1 s' h
    · intro hdim
      obtain ⟨s1, hf⟩ := hdef hdim
      obtain ⟨e1, e2, e3, e4, hunit⟩ := hkeep s1 hf
      have hf' : frame m types s input = some s1 := hf
      rw [frames_cons, hf', Option.some_bind]
      apply (ih s1 (e1 ▸ hsky) (e2 ▸ hids) hunit).2
      rw [e3, e4]
      exact hdim

/-- C19. With the table `types` and the sky colour `(0.6, 0.6, 1.0)`, for every grid with
ids below `BT_COUNT`, every ray and every depth, `sample` returns a colour whose channels
are exact values of `[0,1]`; from an all-zero accumulation buffer, after any number of
rounds of move, rotate and render every channel of every buffer entry lies in `[0,1]`, so
that the conversion of the quantization pass receives an exact value of `[0, 255]`, on which
it is defined; the rounds are defined when the pixel count fits 32 bits, and a round with
zero move and zero rotation is a bare call of `render`. -/
theorem buffer_stays_in_unit_range [FloorRing K] (m : MathFns K) (s : Scene K)
    (hsky : s.m_skyColor = V3.fin ⟨6 / 10, 6 / 10, 1⟩)
    (hids : ∀ i j k, i < CHUNK_W → j < CHUNK_H → k < CHUNK_D → s.m_blocks i j k < BT_COUNT)
    (hzero : ∀ n, s.m_image n = V3.splat (Flt.fin 0)) :
    (∀ orig dir depth, ∃ c, sample types s orig dir depth = some c ∧ UnitColour c) ∧
    (∀ inputs s', frames m types inputs s = some s' →
      ∀ n, UnitColour (s'.m_image n) ∧
        ∀ ch ∈ [(s'.m_image n).x, (s'.m_image n).y, (s'.m_image n).z],
          ∃ q : K, std.min (Flt.fin 1) ch * Flt.fin 255 = Flt.fin q ∧ 0 ≤ q ∧ q ≤ 255 ∧
            quantize ch = some (Int.toNat ⌊q⌋)) ∧
    (s.m_width * s.m_height < 2 ^ 32 → ∀ inputs, ∃ s', frames m types inputs s = some s') ∧
    (∀ s0 : Scene K,
      frame m types s0 (V3.splat (Flt.fin 0), V3.splat (Flt.fin 0)) = render m types s0) := by
  have hsky' : UnitColour s.m_skyColor := by
    rw [hsky]
    exact ⟨_, rfl, by norm_num, by norm_num, by norm_num⟩
  have himg : ∀ n, UnitColour (s.m_image n) := fun n => hzero n ▸ unitColour_zero
  refine ⟨sample_unit s hsky' hids, ?_, ?_, frame_still m types⟩
  · intro inputs s' h n
    have hu := (frames_unit m inputs s hsky' hids himg).1 s' h n
    exact ⟨hu, quantize_arg_range _ hu⟩
  · intro hdim inputs
    exact (frames_unit m inputs s hsky' hids himg).2 hdim

/-- A concrete instance of C19: the fresh scene of a 320 by 240 surface with the grid of
two blocks. -/
theorem buffer_stays_in_unit_range_witness :
    (∀ orig dir depth, ∃ c,
      sample types (sceneWith twoBlockGrid) orig dir depth = some c ∧ UnitColour c) ∧
    (∀ inputs s', frames exampleMath types inputs (sceneWith twoBlockGrid) = some s' →
      ∀ n, UnitColour (s'.m_image n) ∧
        ∀ ch ∈ [(s'.m_image n).x, (s'.m_image n).y, (s'.m_image n).z],
          ∃ q : ℚ, std.min (Flt.fin 1) ch * Flt.fin 255 = Flt.fin q ∧ 0 ≤ q ∧ q ≤ 255 ∧
            quantize ch = some (Int.toNat ⌊q⌋)) ∧
    ((sceneWith twoBlockGrid).m_width * (sceneWith twoBlockGrid).m_height < 2 ^ 32 →
      ∀ inputs, ∃ s', frames exampleMath types inputs (sceneWith twoBlockGrid) = some s') ∧
    (∀ s0 : Scene ℚ,
      frame exampleMath types s0 (V3.splat (Flt.fin 0), V3.splat (Flt.fin 0)) =
        render exampleMath types s0) :=
  buffer_stays_in_unit_range exampleMath (sceneWith twoBlockGrid) rfl
    (by
      intro i j k _ _ _
      show twoBlockGrid i j k < 4
      unfold twoBlockGrid
      split_ifs <;> decide)
    (fun _ => rfl)

end RangeLemmas

/-! The nearest solid cell on grids with ids within the table -/

section SolidLemmas

variable {K : Type} [LinearOrderedField K]

/-- On a grid with ids within the table, the cells that the scan tests and the Intersector
hits are the solid cells that the Intersector hits. -/
theorem hitCell_iff_solid (s : Scene K) (orig dir : vec3 K)
    (hids : ∀ i j k, i < CHUNK_W → j < CHUNK_H → k < CHUNK_D → s.m_blocks i j k < BT_COUNT)
    (a : Nat × Nat × Nat) (ha : a ∈ cells) :
    hitCell s orig dir a = true ↔
      solidCell s a ∧ (intersect (blockBounds0 a) (blockBounds1 a) orig dir).1 = true := by
  have har := (mem_cells a).mp ha
  have hlt := hids _ _ _ har.1 har.2.1 har.2.2
  unfold hitCell solidCell
  simp only [Bool.and_eq_true, decide_eq_true_eq, BT_AIR] at *
  constructor
  · rintro ⟨h1, h2⟩
    exact ⟨⟨Nat.pos_of_ne_zero h1, hlt⟩, h2⟩
  · rintro ⟨⟨h1, _⟩, h2⟩
    exact ⟨Nat.pos_iff_ne_zero.mp h1, h2⟩

/-- C17 (amended). On a grid whose ids all lie within the table of block types: the scan of
`sample` selects no cell exactly when no solid cell is hit at a finite adjusted distance
(`t0`, or `t1` when `t0 < 0`), and `sample` then returns the sky colour; otherwise it selects
a solid cell that is hit, whose adjusted distance is finite and least among the solid cells
that are hit, `tnear` being that distance, and no hit solid cell with the same distance
comes before it in the scan order.  For an exact origin and an exact direction other than
the zero vector every hit solid cell has a finite adjusted distance. -/
theorem scan_selects_nearest (table : Fin BT_COUNT → BlockType K) (s : Scene K)
    (orig dir : vec3 K) (depth : Int)
    (hids : ∀ i j k, i < CHUNK_W → j < CHUNK_H → k < CHUNK_D → s.m_blocks i j k < BT_COUNT) :
    ((scanAt s orig dir).2 = none ↔
      ∀ a ∈ cells, solidCell s a →
        (intersect (blockBounds0 a) (blockBounds1 a) orig dir).1 = true →
          Flt.lt (adjDist orig dir a) Flt.pinf = false) ∧
    ((scanAt s orig dir).2 = none → sample table s orig dir depth = some s.m_skyColor) ∧
    (∀ c, (scanAt s orig dir).2 = some c →
      (c.1 < CHUNK_W ∧ c.2.1 < CHUNK_H ∧ c.2.2 < CHUNK_D) ∧ solidCell s c ∧
      (intersect (blockBounds0 c) (blockBounds1 c) orig dir).1 = true ∧
      (scanAt s orig dir).1 = adjDist orig dir c ∧
      (scan s orig dir).1 = adjDist orig dir c ∧
      Flt.lt (adjDist orig dir c) Flt.pinf = true ∧
      (∀ a ∈ cells, solidCell s a →
        (intersect (blockBounds0 a) (blockBounds1 a) orig dir).1 = true →
          Flt.ge (adjDist orig dir a) (adjDist orig dir c) = true) ∧
      (∀ a ∈ cells, solidCell s a →
        (intersect (blockBounds0 a) (blockBounds1 a) orig dir).1 = true →
          adjDist orig dir a = adjDist orig dir c → ¬scanBefore a c)) ∧
    (∀ o d : V3 K, orig = o.fin → dir = d.fin → (d.x ≠ 0 ∨ d.y ≠ 0 ∨ d.z ≠ 0) →
      ∀ a ∈ cells, solidCell s a →
        (intersect (blockBounds0 a) (blockBounds1 a) orig dir).1 = true →
          Flt.lt (adjDist orig dir a) Flt.pinf = true) := by
  obtain ⟨hnone, hsome⟩ := scanAt_spec s orig dir
  have hiff := hitCell_iff_solid s orig dir hids
  refine ⟨⟨fun h a ha hs hi => (hnone h).2 a ha ((hiff a ha).mpr ⟨hs, hi⟩), fun hall => ?_⟩,
    ?_, ?_, ?_⟩
  · rcases hsel : (scanAt s orig dir).2 with _ | c
    · rfl
    · obtain ⟨hc, hhit, _, hfin, _⟩ := hsome c hsel
      obtain ⟨hs, hi⟩ := (hiff c hc).mp hhit
      rw [hall c hc hs hi] at hfin
      cases hfin
  · intro h
    apply sample_of_scan_none
    rw [scan_eq_scanAt, h]
    rfl
  · intro c hsel
    obtain ⟨hc, hhit, htn, hfin, hmin, hfirst⟩ := hsome c hsel
    obtain ⟨hs, hi⟩ := (hiff c hc).mp hhit
    refine ⟨(mem_cells c).mp hc, hs, hi, htn, ?_, hfin, ?_, ?_⟩
    · simp only [scan_of_scanAt s orig dir c hsel, htn]
    · intro a ha has hai
      have hha := (hiff a ha).mpr ⟨has, hai⟩
      exact Flt.ge_of_not_lt _ _ (hmin a ha hha) (adjDist_ne_nan s orig dir a hha)
        (adjDist_ne_nan s orig dir c hhit)
    · intro a ha has hai heq hb
      have h := hfirst a ha ((hiff a ha).mpr ⟨has, hai⟩) hb
      rw [heq, Flt.lt_self] at h
      cases h
  · intro o d ho hd hdir a ha has hai
    subst ho hd
    exact adjDist_lt_pinf s o d hdir a ((hiff a ha).mpr ⟨has, hai⟩)

end SolidLemmas

/-! Concrete frames and scans -/

section Instances

set_option maxRecDepth 100000 in
/-- A concrete instance of C17: the slanted ray from below into the grid with a block of
type 1 and a block of type 2 behind it. -/
theorem scan_selects_nearest_witness :
    ((scanAt (sceneWith twoBlockGrid) (V3.fin (⟨1 / 2, 1 / 3, -5⟩ : V3 ℚ))
        (V3.fin ⟨1 / 10, 1 / 10, 1⟩)).2 = none ↔
      ∀ a ∈ cells, solidCell (sceneWith twoBlockGrid) a →
        (intersect (blockBounds0 a) (blockBounds1 a) (V3.fin (⟨1 / 2, 1 / 3, -5⟩ : V3 ℚ))
          (V3.fin ⟨1 / 10, 1 / 10, 1⟩)).1 = true →
          Flt.lt (adjDist (V3.fin (⟨1 / 2, 1 / 3, -5⟩ : V3 ℚ)) (V3.fin ⟨1 / 10, 1 / 10, 1⟩) a)
            Flt.pinf = false) ∧
    ((scanAt (sceneWith twoBlockGrid) (V3.fin (⟨1 / 2, 1 / 3, -5⟩ : V3 ℚ))
        (V3.fin ⟨1 / 10, 1 / 10, 1⟩)).2 = none →
      sample types (sceneWith twoBlockGrid) (V3.fin (⟨1 / 2, 1 / 3, -5⟩ : V3 ℚ))
        (V3.fin ⟨1 / 10, 1 / 10, 1⟩) 0 = some (sceneWith twoBlockGrid).m_skyColor) ∧
    (∀ c, (scanAt (sceneWith twoBlockGrid) (V3.fin (⟨1 / 2, 1 / 3, -5⟩ : V3 ℚ))
        (V3.fin ⟨1 / 10, 1 / 10, 1⟩)).2 = some c →
      (c.1 < CHUNK_W ∧ c.2.1 < CHUNK_H ∧ c.2.2 < CHUNK_D) ∧
      solidCell (sceneWith twoBlockGrid) c ∧
      (intersect (blockBounds0 c) (blockBounds1 c) (V3.fin (⟨1 / 2, 1 / 3, -5⟩ : V3 ℚ))
        (V3.fin ⟨1 / 10, 1 / 10, 1⟩)).1 = true ∧
      (scanAt (sceneWith twoBlockGrid) (V3.fin (⟨1 / 2, 1 / 3, -5⟩ : V3 ℚ))
        (V3.fin ⟨1 / 10, 1 / 10, 1⟩)).1 =
          adjDist (V3.fin (⟨1 / 2, 1 / 3, -5⟩ : V3 ℚ)) (V3.fin ⟨1 / 10, 1 / 10, 1⟩) c ∧
      (scan (sceneWith twoBlockGrid) (V3.fin (⟨1 / 2, 1 / 3, -5⟩ : V3 ℚ))
        (V3.fin ⟨1 / 10, 1 / 10, 1⟩)).1 =
          adjDist (V3.fin (⟨1 / 2, 1 / 3, -5⟩ : V3 ℚ)) (V3.fin ⟨1 / 10, 1 / 10, 1⟩) c ∧
      Flt.lt (adjDist (V3.fin (⟨1 / 2, 1 / 3, -5⟩ : V3 ℚ)) (V3.fin ⟨1 / 10, 1 / 10, 1⟩) c)
        Flt.pinf = true ∧
      (∀ a ∈ cells, solidCell (sceneWith twoBlockGrid) a →
        (intersect (blockBounds0 a) (blockBounds1 a) (V3.fin (⟨1 / 2, 1 / 3, -5⟩ : V3 ℚ))
          (V3.fin ⟨1 / 10, 1 / 10, 1⟩)).1 = true →
          Flt.ge (adjDist (V3.fin (⟨1 / 2, 1 / 3, -5⟩ : V3 ℚ)) (V3.fin ⟨1 / 10, 1 / 10, 1⟩) a)
            (adjDist (V3.fin (⟨1 / 2, 1 / 3, -5⟩ : V3 ℚ)) (V3.fin ⟨1 / 10, 1 / 10, 1⟩) c) =
              true) ∧
      (∀ a ∈ cells, solidCell (sceneWith twoBlockGrid) a →
        (intersect (blockBounds0 a) (blockBounds1 a) (V3.fin (⟨1 / 2, 1 / 3, -5⟩ : V3 ℚ))
          (V3.fin ⟨1 / 10, 1 / 10, 1⟩)).1 = true →
          adjDist (V3.fin (⟨1 / 2, 1 / 3, -5⟩ : V3 ℚ)) (V3.fin ⟨1 / 10, 1 / 10, 1⟩) a =
            adjDist (V3.fin (⟨1 / 2, 1 / 3, -5⟩ : V3 ℚ)) (V3.fin ⟨1 / 10, 1 / 10, 1⟩) c →
          ¬scanBefore a c)) ∧
    (∀ o d : V3 ℚ, V3.fin (⟨1 / 2, 1 / 3, -5⟩ : V3 ℚ) = o.fin →
      V3.fin (⟨1 / 10, 1 / 10, 1⟩ : V3 ℚ) = d.fin → (d.x ≠ 0 ∨ d.y ≠ 0 ∨ d.z ≠ 0) →
      ∀ a ∈ cells, solidCell (sceneWith twoBlockGrid) a →
        (intersect (blockBounds0 a) (blockBounds1 a) (V3.fin (⟨1 / 2, 1 / 3, -5⟩ : V3 ℚ))
          (V3.fin ⟨1 / 10, 1 / 10, 1⟩)).1 = true →
          Flt.lt (adjDist (V3.fin (⟨1 / 2, 1 / 3, -5⟩ : V3 ℚ)) (V3.fin ⟨1 / 10, 1 / 10, 1⟩) a)
            Flt.pinf = true) ∧
    scanAt (sceneWith twoBlockGrid) (V3.fin (⟨1 / 2, 1 / 3, -5⟩ : V3 ℚ))
      (V3.fin ⟨1 / 10, 1 / 10, 1⟩) = (Flt.fin 5, some (0, 0, 0)) := by
  have h := scan_selects_nearest types (sceneWith twoBlockGrid)
    (V3.fin (⟨1 / 2, 1 / 3, -5⟩ : V3 ℚ)) (V3.fin ⟨1 / 10, 1 / 10, 1⟩) 0 (by
      intro i j k _ _ _
      show twoBlockGrid i j k < 4
      unfold twoBlockGrid
      split_ifs <;> decide)
  exact ⟨h.1, h.2.1, h.2.2.1, h.2.2.2, by decide!⟩

set_option maxRecDepth 100000 in
/-- A concrete instance of C8: the first frame of the fresh scene of a 320 by 240 surface
with the grid of two blocks is defined; the ray of the pixel `(0, 0)` meets no block, and
the frame leaves half the sky colour in the entry of that pixel. -/
theorem render_accumulates_half_sum_witness :
    ∃ s', render exampleMath types (sceneWith twoBlockGrid) = some s' ∧
      s'.m_image 0 = V3.fin ⟨3 / 10, 3 / 10, 1 / 2⟩ ∧
      ∀ x y : Nat, x < 320 → y < 240 →
        ∃ S, sample types (sceneWith twoBlockGrid) (sceneWith twoBlockGrid).m_position
            (rayDirAt exampleMath (sceneWith twoBlockGrid)
              (exampleMath.tanf (exampleMath.M_PI * Flt.fin (1 / 2) *
                (sceneWith twoBlockGrid).m_fov / Flt.fin 180)) (x, y)) 0 = some S ∧
          s'.m_image (pixelPos (sceneWith twoBlockGrid) (x, y)) =
            V3.lscale (Flt.fin (1 / 2))
              (V3.add S ((sceneWith twoBlockGrid).m_image (pixelPos (sceneWith twoBlockGrid)
                (x, y)))) := by
  have h := render_accumulates_half_sum exampleMath types (sceneWith twoBlockGrid)
  have hsky : UnitColour (sceneWith twoBlockGrid).m_skyColor :=
    ⟨⟨6 / 10, 6 / 10, 1⟩, rfl, by norm_num, by norm_num, by norm_num⟩
  have hids : ∀ i j k, i < CHUNK_W → j < CHUNK_H → k < CHUNK_D →
      (sceneWith twoBlockGrid).m_blocks i j k < BT_COUNT := by
    intro i j k _ _ _
    show twoBlockGrid i j k < 4
    unfold twoBlockGrid
    split_ifs <;> decide
  obtain ⟨s', hs'⟩ := h.2.1 (by decide) (fun x y _ _ => by
    obtain ⟨S, hS, hunit⟩ := sample_unit (sceneWith twoBlockGrid) hsky hids
      (sceneWith twoBlockGrid).m_position
      (rayDirAt exampleMath (sceneWith twoBlockGrid)
        (exampleMath.tanf (exampleMath.M_PI * Flt.fin (1 / 2) *
          (sceneWith twoBlockGrid).m_fov / Flt.fin 180)) (x, y)) 0
    exact ⟨S, hS, packPixel_defined (accumulate S _) (accumulate_unit S _ hunit unitColour_zero)⟩)
  refine ⟨s', hs', ?_, fun x y hx hy => h.1 s' hs' x y hx hy⟩
  obtain ⟨S, hS, hval⟩ := h.1 s' hs' 0 0 (by decide) (by decide)
  have hmiss : sample types (sceneWith twoBlockGrid) (sceneWith twoBlockGrid).m_position
      (rayDirAt exampleMath (sceneWith twoBlockGrid)
        (exampleMath.tanf (exampleMath.M_PI * Flt.fin (1 / 2) *
          (sceneWith twoBlockGrid).m_fov / Flt.fin 180)) (0, 0)) 0 =
        some (sceneWith twoBlockGrid).m_skyColor :=
    sample_of_scan_none _ _ _ _ _ (by decide!)
  have e : S = (sceneWith twoBlockGrid).m_skyColor := Option.some.inj (hS.symm.trans hmiss)
  have hpos : pixelPos (sceneWith twoBlockGrid) (0, 0) = 0 := by decide
  rw [hpos, e] at hval
  rw [hval]
  decide!

end Instances

end Blocktracer
